import Mathlib

/-!
# A shallow embedding of `util::buffer_t` (buffer.hpp, buffer.cpp)

Modelling conventions.

* A byte (`std::uint8_t`) is a `Fin 256`.
* Every `std::size_t` quantity is a natural number below `size_modulus = 2 ^ 64`;
  each sum or product the source computes in `std::size_t` is reduced modulo
  `size_modulus` at the place where the source computes it.
* The three addresses a buffer can hold are abstracted to `pointer_t`: `nullptr`, the
  address of the memory block the caller handed to a constructor, and `data.data()`.
  The caller's block is carried along in the state as `caller_memory`.
* `std::copy` through a pointer is defined only while the copied span lies inside the
  block the pointer designates; otherwise the call has undefined behaviour and the model
  returns `outcome.undefined`.
* A thrown exception carries the state of the object at the throw.
* A `std::vector` of more than `max_size` elements cannot be built: its constructor and
  `resize` throw `std::length_error`. Allocation of storage for a vector of at most
  `max_size` elements always succeeds.
* Fixed-width integers are laid out as on a little-endian two's complement host.
-/

namespace util

/-- One `std::uint8_t`. -/
abbrev byte := Fin 256

/-- The number of values of `std::size_t`; arithmetic on sizes wraps modulo this. -/
def size_modulus : Nat := 2 ^ 64

/-- The addresses stored in `read_data` and `write_data`. -/
inductive pointer_t where
  | null
  | caller
  | storage
deriving DecidableEq

/-- The value of `max_size()` of `std::vector<std::uint8_t>` and of `std::vector<char>`:
`PTRDIFF_MAX`, as in the mainstream library implementations for a 64-bit host. -/
def max_size : Nat := 2 ^ 63 - 1

/-- The exception classes that leave the buffer: the two it throws itself, and the
`std::length_error` of a `std::vector` asked for more than `max_size` elements. -/
inductive exception_t where
  | runtime_error
  | out_of_range
  | length_error
deriving DecidableEq

/-- The `std::vector<std::uint8_t>` member: its elements, and whether it has ever acquired
storage (`capacity() > 0`). In the mainstream library implementations `data()` of a vector
without storage is `nullptr`. -/
structure vector_t where
  elems : List byte
  has_capacity : Bool
deriving DecidableEq

/-- The vector built by `std::vector<std::uint8_t>(size, 0)` when `size` is at most
`max_size`. -/
def vector_t.filled (size : Nat) : vector_t :=
  ⟨List.replicate size 0, decide (0 < size)⟩

/-- The call `data.size()`. -/
def vector_t.size (v : vector_t) : Nat := v.elems.length

/-- The call `data.resize(size, 0)`: `none` for the `std::length_error` thrown when `size`
exceeds `max_size`, which leaves the vector as it was; otherwise truncate, or extend with
zero bytes. -/
def vector_t.resize (v : vector_t) (size : Nat) : Option vector_t :=
  if size > max_size then none
  else
    some ⟨v.elems.take size ++ List.replicate (size - v.elems.length) 0,
      v.has_capacity || decide (0 < size)⟩

/-- The call `data.data()`. -/
def vector_t.data_ptr (v : vector_t) : pointer_t :=
  if v.has_capacity then pointer_t.storage else pointer_t.null

/-- The members of `buffer_t`, together with the caller's memory block. -/
structure buffer_t where
  read_data : pointer_t
  write_data : pointer_t
  current_position : Nat
  length : Nat
  owning : Bool
  data : vector_t
  is_expandable : Bool
  caller_memory : List byte
deriving DecidableEq

/-- Result of a member function call: normal return with a value, an exception, or
undefined behaviour. -/
inductive outcome (α : Type) where
  | ok (value : α) (state : buffer_t)
  | throws (e : exception_t) (state : buffer_t)
  | undefined
deriving DecidableEq

/-- Result of a constructor call. -/
inductive construction where
  | ok (state : buffer_t)
  | throws (e : exception_t)
  | undefined
deriving DecidableEq

/-- The memory block a pointer designates. -/
def region (s : buffer_t) : pointer_t → List byte
  | pointer_t.null => []
  | pointer_t.caller => s.caller_memory
  | pointer_t.storage => s.data.elems

/-- The call `std::copy(p + off, p + off + n, dest)`: the bytes that reach `dest`. -/
def load (s : buffer_t) (p : pointer_t) (off n : Nat) : Option (List byte) :=
  if off + n ≤ (region s p).length then some (((region s p).drop off).take n) else none

/-- Overwrite `mem` from offset `off` on with `src`. -/
def splice (mem : List byte) (off : Nat) (src : List byte) : List byte :=
  mem.take off ++ src ++ mem.drop (off + src.length)

/-- The call `std::copy(src, src + n, p + off)`. -/
def store (s : buffer_t) (p : pointer_t) (off : Nat) (src : List byte) : Option buffer_t :=
  if off + src.length ≤ (region s p).length then
    match p with
    | pointer_t.null => none
    | pointer_t.caller => some { s with caller_memory := splice s.caller_memory off src }
    | pointer_t.storage =>
      some { s with data := { s.data with elems := splice s.data.elems off src } }
  else none

/-- The two statements `auto buf = std::vector<std::uint8_t>(n, 0);` and
`std::copy(buf.data(), buf.data() + buf.size(), p + off)` of the text `write`
(buffer.hpp 187-188): the constructor throws `std::length_error` when `n` exceeds
`max_size`, and the copy is undefined when its span leaves the block. -/
def store_zeros (s : buffer_t) (p : pointer_t) (off n : Nat) : outcome Unit :=
  if n > max_size then outcome.throws exception_t.length_error s
  else if off + n ≤ (region s p).length then
    match store s p off (List.replicate n (0 : byte)) with
    | some t => outcome.ok () t
    | none => outcome.undefined
  else outcome.undefined

/-- The bytes a reader sees: the first `length` bytes behind `read_data`. -/
def buffer_t.contents (s : buffer_t) : List byte :=
  (region s s.read_data).take s.length

/-- The integral types the templates are instantiated with. -/
inductive integral_t where
  | int8 | uint8 | int16 | uint16 | int32 | uint32 | int64 | uint64
deriving DecidableEq

/-- The value of `sizeof(T)`. -/
def integral_t.sizeof : integral_t → Nat
  | int8 => 1 | uint8 => 1
  | int16 => 2 | uint16 => 2
  | int32 => 4 | uint32 => 4
  | int64 => 8 | uint64 => 8

/-- Whether `T` is a signed type. -/
def integral_t.is_signed : integral_t → Bool
  | int8 => true | int16 => true | int32 => true | int64 => true
  | uint8 => false | uint16 => false | uint32 => false | uint64 => false

/-- The values of `T`. -/
def integral_t.in_range (T : integral_t) (v : Int) : Prop :=
  if T.is_signed then -(2 ^ (8 * T.sizeof - 1) : Int) ≤ v ∧ v < 2 ^ (8 * T.sizeof - 1)
  else 0 ≤ v ∧ v < 2 ^ (8 * T.sizeof)

instance (T : integral_t) (v : Int) : Decidable (T.in_range v) := by
  unfold integral_t.in_range; exact inferInstance

/-- The `n` low-order base-256 digits of `u`, least significant first. -/
def le_bytes : Nat → Nat → List byte
  | 0, _ => []
  | n + 1, u => ⟨u % 256, Nat.mod_lt u (by decide)⟩ :: le_bytes n (u / 256)

/-- The number whose base-256 digits, least significant first, are `bs`. -/
def le_value : List byte → Nat
  | [] => 0
  | b :: bs => b.val + 256 * le_value bs

/-- The object representation of `value`: what `reinterpret_cast<std::uint8_t*>(&value)`
designates. -/
def object_bytes (T : integral_t) (value : Int) : List byte :=
  le_bytes T.sizeof (value % (2 ^ (8 * T.sizeof) : Int)).toNat

/-- The value of the object of type `T` whose object representation is `bytes`. -/
def object_value (T : integral_t) (bytes : List byte) : Int :=
  if T.is_signed ∧ 2 ^ (8 * T.sizeof - 1) ≤ le_value bytes then
    (le_value bytes : Int) - 2 ^ (8 * T.sizeof)
  else (le_value bytes : Int)

/-- Constructor `buffer_t::buffer_t()` (buffer.cpp 11-12). -/
def buffer_t.default_ctor : buffer_t :=
  { read_data := pointer_t.null, write_data := pointer_t.null, current_position := 0,
    length := 0, owning := false, data := ⟨[], false⟩, is_expandable := true,
    caller_memory := [] }

/-- Constructor `buffer_t::buffer_t(const std::uint8_t *ptr, std::size_t size, bool consume)`
(buffer.cpp 15-29). `ptr` is `none` for `nullptr`, otherwise the block it points to. The
consuming branch builds a vector of `size` elements, which throws `std::length_error` for a
`size` above `max_size`, and then copies `size` bytes out of the block, which is defined only
for a block of at least `size` bytes. A block is one object, of at most `PTRDIFF_MAX` bytes,
so a `size` the block can supply is within `max_size`, and the test of the block comes first
here. -/
def buffer_t.const_ctor (ptr : Option (List byte)) (size : Nat) (consume : Bool) :
    construction :=
  match ptr with
  | none => construction.throws exception_t.runtime_error
  | some mem =>
    if size = 0 then construction.throws exception_t.runtime_error
    else if consume then
      if size ≤ mem.length then
        let data : vector_t := ⟨splice (vector_t.filled size).elems 0 (mem.take size),
          (vector_t.filled size).has_capacity⟩
        construction.ok { buffer_t.default_ctor with
          owning := true, data := data, write_data := data.data_ptr,
          read_data := data.data_ptr, length := data.size, caller_memory := mem }
      else if size > max_size then construction.throws exception_t.length_error
      else construction.undefined
    else
      construction.ok { buffer_t.default_ctor with
        read_data := pointer_t.caller, length := size, caller_memory := mem }

/-- Constructor `buffer_t::buffer_t(std::uint8_t *ptr, std::size_t size, bool consume)`
(buffer.cpp 31-45); the consuming branch is that of the constructor above. -/
def buffer_t.mutable_ctor (ptr : Option (List byte)) (size : Nat) (consume : Bool) :
    construction :=
  match ptr with
  | none => construction.throws exception_t.runtime_error
  | some mem =>
    if size = 0 then construction.throws exception_t.runtime_error
    else if consume then
      if size ≤ mem.length then
        let data : vector_t := ⟨splice (vector_t.filled size).elems 0 (mem.take size),
          (vector_t.filled size).has_capacity⟩
        construction.ok { buffer_t.default_ctor with
          owning := true, data := data, write_data := data.data_ptr,
          read_data := data.data_ptr, length := data.size, caller_memory := mem }
      else if size > max_size then construction.throws exception_t.length_error
      else construction.undefined
    else
      construction.ok { buffer_t.default_ctor with
        write_data := pointer_t.caller, read_data := pointer_t.caller, length := size,
        caller_memory := mem }

/-- Constructor `buffer_t::buffer_t(std::size_t size)` (buffer.cpp 47-54); the vector
constructor throws `std::length_error` for a size above `max_size`. -/
def buffer_t.sized_ctor (size : Nat) : construction :=
  if size > max_size then construction.throws exception_t.length_error
  else
    let data := vector_t.filled size
    construction.ok { buffer_t.default_ctor with
      data := data, write_data := data.data_ptr, read_data := data.data_ptr,
      length := data.size, owning := true }

/-- Member `buffer_t::size` (buffer.cpp 61-63). -/
def buffer_t.size (s : buffer_t) : Nat := s.length

/-- Member `buffer_t::remaining` (buffer.cpp 65-67): a `std::size_t` subtraction. -/
def buffer_t.remaining (s : buffer_t) : Nat :=
  (s.length + size_modulus - s.current_position) % size_modulus

/-- Member `buffer_t::at() const` (buffer.cpp 69-71). -/
def buffer_t.at_const (s : buffer_t) : Nat := s.current_position

/-- Member `buffer_t::at(std::size_t position)` (buffer.cpp 73-79). -/
def buffer_t.at_set (position : Nat) (s : buffer_t) : outcome Unit :=
  if position > s.length then outcome.throws exception_t.out_of_range s
  else outcome.ok () { s with current_position := position }

/-- Member `buffer_t::resize` (buffer.cpp 81-93). The `std::length_error` of
`data.resize(size, 0)` leaves the function before any member is assigned. -/
def buffer_t.resize (size : Nat) (s : buffer_t) : outcome Unit :=
  if !s.owning then outcome.throws exception_t.runtime_error s
  else
    match s.data.resize size with
    | none => outcome.throws exception_t.length_error s
    | some data =>
      let position := if s.current_position > data.size then data.size else s.current_position
      outcome.ok () { s with
        data := data, current_position := position, write_data := data.data_ptr,
        read_data := data.data_ptr, length := data.size }

/-- Member `buffer_t::expandable` (buffer.cpp 96-99); the returned copy is not modelled. -/
def buffer_t.expandable (value : Bool) (s : buffer_t) : outcome Unit :=
  outcome.ok () { s with is_expandable := value }

/-- Member `buffer_t::expandaable` (buffer.cpp 102-104). -/
def buffer_t.expandaable (s : buffer_t) : Bool := s.is_expandable

/-- Member `buffer_t::raw()` (buffer.cpp 110-112). -/
def buffer_t.raw (s : buffer_t) : pointer_t := s.write_data

/-- Member `buffer_t::raw() const` (buffer.cpp 114-116). -/
def buffer_t.raw_const (s : buffer_t) : pointer_t := s.read_data

/-- Integral `buffer_t::read<T>(bool reverse)` (buffer.hpp 62-80). -/
def buffer_t.read_integral (T : integral_t) (reverse : Bool) (s : buffer_t) : outcome Int :=
  if s.read_data = pointer_t.null then outcome.throws exception_t.runtime_error s
  else
    let bytesize := T.sizeof
    if (s.current_position + bytesize) % size_modulus ≥ s.length then
      outcome.throws exception_t.out_of_range s
    else
      match load s s.read_data s.current_position bytesize with
      | none => outcome.undefined
      | some bytes =>
        outcome.ok (object_value T (if reverse then bytes.reverse else bytes))
          { s with current_position := (s.current_position + bytesize) % size_modulus }

/-- Text `buffer_t::read<std::string>(std::size_t amount)` (buffer.hpp 82-99). The
temporary holds `amount + 1` zero bytes, a count computed in `std::size_t`, and its
constructor throws `std::length_error` when that count exceeds `max_size`; it receives the
span, and is assigned to the result as a C string, which ends at its first zero byte. -/
def buffer_t.read_string (amount : Nat) (s : buffer_t) : outcome (List byte) :=
  if s.read_data = pointer_t.null then outcome.throws exception_t.runtime_error s
  else
    let bytesize := amount
    if (s.current_position + bytesize) % size_modulus ≥ s.length then
      outcome.throws exception_t.out_of_range s
    else if (amount + 1) % size_modulus > max_size then
      outcome.throws exception_t.length_error s
    else
      match load s s.read_data s.current_position bytesize with
      | none => outcome.undefined
      | some bytes =>
        if bytesize ≤ (List.replicate ((amount + 1) % size_modulus) (0 : byte)).length then
          let buf := splice (List.replicate ((amount + 1) % size_modulus) (0 : byte)) 0 bytes
          outcome.ok (buf.takeWhile (fun b => b ≠ 0))
            { s with current_position := (s.current_position + bytesize) % size_modulus }
        else outcome.undefined

/-- Typed-array `buffer_t::read(T &value, size_t amount)` (buffer.hpp 102-117), for an
element type of `bytesize` bytes. The value is the span of bytes copied into `value`. -/
def buffer_t.read_array (bytesize amount : Nat) (s : buffer_t) : outcome (List byte) :=
  if s.read_data = pointer_t.null then outcome.throws exception_t.runtime_error s
  else
    if (s.current_position + (bytesize * amount) % size_modulus) % size_modulus ≥ s.length then
      outcome.throws exception_t.out_of_range s
    else
      match load s s.read_data s.current_position ((bytesize * amount) % size_modulus) with
      | none => outcome.undefined
      | some bytes =>
        outcome.ok bytes
          { s with current_position :=
              (s.current_position + (bytesize * amount) % size_modulus) % size_modulus }

/-- Raw `buffer_t::read(std::uint8_t *value, std::size_t amount)` (buffer.hpp 120-134).
The value is the span of bytes copied to `value`. -/
def buffer_t.read_bytes (amount : Nat) (s : buffer_t) : outcome (List byte) :=
  if s.read_data = pointer_t.null then outcome.throws exception_t.runtime_error s
  else
    let bytesize := 1
    if (s.current_position + (bytesize * amount) % size_modulus) % size_modulus ≥ s.length then
      outcome.throws exception_t.out_of_range s
    else
      match load s s.read_data s.current_position ((bytesize * amount) % size_modulus) with
      | none => outcome.undefined
      | some bytes =>
        outcome.ok bytes
          { s with current_position :=
              (s.current_position + (bytesize * amount) % size_modulus) % size_modulus }

/-- The bounds test shared by the four `write` overloads (buffer.hpp 147-154, 171-178,
201-208, 221-228) for a span of `n` bytes: grow when owning and expandable, throw
otherwise. -/
def buffer_t.write_check (n : Nat) (s : buffer_t) : outcome Unit :=
  if (s.current_position + n) % size_modulus ≥ s.length then
    if s.owning && s.is_expandable then
      buffer_t.resize ((s.current_position + n) % size_modulus) s
    else outcome.throws exception_t.out_of_range s
  else outcome.ok () s

/-- Integral `buffer_t::write<T>(T value, bool reverse)` (buffer.hpp 140-162). -/
def buffer_t.write_integral (T : integral_t) (value : Int) (reverse : Bool) (s : buffer_t) :
    outcome Unit :=
  if s.write_data = pointer_t.null then outcome.throws exception_t.runtime_error s
  else
    let bytesize := T.sizeof
    match buffer_t.write_check bytesize s with
    | outcome.throws e s1 => outcome.throws e s1
    | outcome.undefined => outcome.undefined
    | outcome.ok _ s1 =>
      let bytes := if reverse then (object_bytes T value).reverse else object_bytes T value
      match store s1 s1.write_data s1.current_position bytes with
      | none => outcome.undefined
      | some s2 =>
        outcome.ok ()
          { s2 with current_position := (s2.current_position + bytesize) % size_modulus }

/-- Text `buffer_t::write<std::string>(const T &value, std::size_t amount)`
(buffer.hpp 164-192). The text is copied first; a `std::length_error` from the vector of
padding zeros is thrown after that copy, with the cursor not yet advanced. -/
def buffer_t.write_string (value : List byte) (amount : Nat) (s : buffer_t) : outcome Unit :=
  if s.write_data = pointer_t.null then outcome.throws exception_t.runtime_error s
  else
    let bytesize := amount
    match buffer_t.write_check bytesize s with
    | outcome.throws e s1 => outcome.throws e s1
    | outcome.undefined => outcome.undefined
    | outcome.ok _ s1 =>
      let writesize := if amount > value.length then value.length else amount
      match store s1 s1.write_data s1.current_position (value.take writesize) with
      | none => outcome.undefined
      | some s2 =>
        match (if writesize < amount then
                 store_zeros s2 s2.write_data (s2.current_position + writesize)
                   (amount - writesize)
               else outcome.ok () s2) with
        | outcome.throws e s3 => outcome.throws e s3
        | outcome.undefined => outcome.undefined
        | outcome.ok _ s3 =>
          outcome.ok ()
            { s3 with current_position := (s3.current_position + bytesize) % size_modulus }

/-- Typed-array `buffer_t::write(T &value, std::size_t amount)` (buffer.hpp 194-213), for
an element type of `bytesize` bytes; `value` is the object representation of the array. -/
def buffer_t.write_array (bytesize : Nat) (value : List byte) (amount : Nat) (s : buffer_t) :
    outcome Unit :=
  if s.write_data = pointer_t.null then outcome.throws exception_t.runtime_error s
  else
    match buffer_t.write_check ((bytesize * amount) % size_modulus) s with
    | outcome.throws e s1 => outcome.throws e s1
    | outcome.undefined => outcome.undefined
    | outcome.ok _ s1 =>
      if (bytesize * amount) % size_modulus ≤ value.length then
        match store s1 s1.write_data s1.current_position
            (value.take ((bytesize * amount) % size_modulus)) with
        | none => outcome.undefined
        | some s2 =>
          outcome.ok ()
            { s2 with current_position :=
                (s2.current_position + (bytesize * amount) % size_modulus) % size_modulus }
      else outcome.undefined

/-- Raw `buffer_t::write(std::uint8_t *value, std::size_t amount)` (buffer.hpp 215-233);
`value` is the block the pointer designates. -/
def buffer_t.write_bytes (value : List byte) (amount : Nat) (s : buffer_t) : outcome Unit :=
  if s.write_data = pointer_t.null then outcome.throws exception_t.runtime_error s
  else
    let bytesize := 1
    match buffer_t.write_check ((bytesize * amount) % size_modulus) s with
    | outcome.throws e s1 => outcome.throws e s1
    | outcome.undefined => outcome.undefined
    | outcome.ok _ s1 =>
      if (bytesize * amount) % size_modulus ≤ value.length then
        match store s1 s1.write_data s1.current_position
            (value.take ((bytesize * amount) % size_modulus)) with
        | none => outcome.undefined
        | some s2 =>
          outcome.ok ()
            { s2 with current_position :=
                (s2.current_position + (bytesize * amount) % size_modulus) % size_modulus }
      else outcome.undefined

/-- Forget the returned value of a call. -/
def outcome.discard {α : Type} : outcome α → outcome Unit
  | outcome.ok _ s => outcome.ok () s
  | outcome.throws e s => outcome.throws e s
  | outcome.undefined => outcome.undefined

/-- The calls a client can make on a constructed buffer. -/
inductive operation where
  | read_integral (T : integral_t) (reverse : Bool)
  | read_string (amount : Nat)
  | read_array (bytesize amount : Nat)
  | read_bytes (amount : Nat)
  | write_integral (T : integral_t) (value : Int) (reverse : Bool)
  | write_string (value : List byte) (amount : Nat)
  | write_array (bytesize : Nat) (value : List byte) (amount : Nat)
  | write_bytes (value : List byte) (amount : Nat)
  | at_set (position : Nat)
  | resize (size : Nat)
  | expandable (value : Bool)

/-- The number of bytes a `read` or `write` call transfers: `sizeof(T)`, `amount`, or the
`std::size_t` product `sizeof(element) * amount`. The other calls transfer nothing. -/
def operation.byte_count : operation → Option Nat
  | read_integral T _ => some T.sizeof
  | read_string amount => some amount
  | read_array bytesize amount => some ((bytesize * amount) % size_modulus)
  | read_bytes amount => some amount
  | write_integral T _ _ => some T.sizeof
  | write_string _ amount => some amount
  | write_array bytesize _ amount => some ((bytesize * amount) % size_modulus)
  | write_bytes _ amount => some amount
  | at_set _ => none
  | resize _ => none
  | expandable _ => none

/-- The four `read` overloads. -/
def operation.is_read : operation → Bool
  | read_integral _ _ => true
  | read_string _ => true
  | read_array _ _ => true
  | read_bytes _ => true
  | _ => false

/-- The four `write` overloads. -/
def operation.is_write : operation → Bool
  | write_integral _ _ _ => true
  | write_string _ _ => true
  | write_array _ _ _ => true
  | write_bytes _ _ => true
  | _ => false

/-- The arguments of the call are `std::size_t` values. -/
def operation.valid : operation → Prop
  | read_string amount => amount < size_modulus
  | read_array bytesize amount => bytesize < size_modulus ∧ amount < size_modulus
  | read_bytes amount => amount < size_modulus
  | write_string _ amount => amount < size_modulus
  | write_array bytesize _ amount => bytesize < size_modulus ∧ amount < size_modulus
  | write_bytes _ amount => amount < size_modulus
  | at_set position => position < size_modulus
  | resize size => size < size_modulus
  | _ => True

instance (op : operation) : Decidable op.valid := by
  cases op <;> unfold operation.valid <;> exact inferInstance

/-- Perform one call. -/
def operation.run : operation → buffer_t → outcome Unit
  | read_integral T reverse, s => (buffer_t.read_integral T reverse s).discard
  | read_string amount, s => (buffer_t.read_string amount s).discard
  | read_array bytesize amount, s => (buffer_t.read_array bytesize amount s).discard
  | read_bytes amount, s => (buffer_t.read_bytes amount s).discard
  | write_integral T value reverse, s => buffer_t.write_integral T value reverse s
  | write_string value amount, s => buffer_t.write_string value amount s
  | write_array bytesize value amount, s => buffer_t.write_array bytesize value amount s
  | write_bytes value amount, s => buffer_t.write_bytes value amount s
  | at_set position, s => buffer_t.at_set position s
  | resize size, s => buffer_t.resize size s
  | expandable value, s => buffer_t.expandable value s

/-- The object after a call: the state returned, or the state at the throw. -/
def outcome.state {α : Type} : outcome α → Option buffer_t
  | outcome.ok _ s => some s
  | outcome.throws _ s => some s
  | outcome.undefined => none

/-- The states a client can bring a buffer into: the result of any constructor, followed by
any finite sequence of calls, each returning or throwing. -/
inductive reachable : buffer_t → Prop where
  | default_ctor : reachable buffer_t.default_ctor
  | const_ctor (ptr : Option (List byte)) (size : Nat) (consume : Bool) (s : buffer_t) :
      buffer_t.const_ctor ptr size consume = construction.ok s → reachable s
  | mutable_ctor (ptr : Option (List byte)) (size : Nat) (consume : Bool) (s : buffer_t) :
      buffer_t.mutable_ctor ptr size consume = construction.ok s → reachable s
  | sized_ctor (size : Nat) (s : buffer_t) :
      buffer_t.sized_ctor size = construction.ok s → reachable s
  | call (op : operation) (s t : buffer_t) :
      reachable s → (op.run s).state = some t → reachable t

/-- Consistency of the members: the cursor is inside the buffer, the length is the size of
one object (at most `max_size`, that is `PTRDIFF_MAX`, bytes), an owning buffer points at
its own vector and has its size, and a view points at the caller's block, which holds at
least `length` bytes. The constructors establish it when handed a block, of at most
`max_size` bytes, that holds at least `size` bytes (`wf_default_ctor`, `wf_sized_ctor`,
`wf_const_ctor`, `wf_mutable_ctor`) and every call with `std::size_t` arguments keeps it
(`wf_step`). -/
def buffer_t.wf (s : buffer_t) : Prop :=
  s.current_position ≤ s.length ∧ s.length ≤ max_size ∧
  s.caller_memory.length < size_modulus ∧
  (if s.owning then
     s.read_data = s.data.data_ptr ∧ s.write_data = s.data.data_ptr ∧
     s.length = s.data.elems.length ∧ (s.data.elems ≠ [] → s.data.has_capacity = true)
   else
     s.data = ⟨[], false⟩ ∧
     (s.write_data = pointer_t.null ∨ s.write_data = pointer_t.caller) ∧
     (s.write_data = pointer_t.caller → s.read_data = pointer_t.caller) ∧
     (s.read_data = pointer_t.null ∧ s.length = 0 ∧ s.write_data = pointer_t.null ∨
      s.read_data = pointer_t.caller ∧ s.length ≤ s.caller_memory.length))

instance (s : buffer_t) : Decidable s.wf := by
  unfold buffer_t.wf; exact inferInstance

/-- The value a returning call hands back. -/
def outcome.value {α : Type} : outcome α → Option α
  | outcome.ok v _ => some v
  | outcome.throws _ _ => none
  | outcome.undefined => none

/-- The bytes a `write` call copies to the cursor: the object representation of the value,
reversed on request (buffer.hpp 155-159); the text cut to `amount` and padded with zero
bytes (buffer.hpp 180-189); the leading bytes of the array (buffer.hpp 210, 230). -/
def operation.payload : operation → List byte
  | write_integral T value reverse =>
    if reverse then (object_bytes T value).reverse else object_bytes T value
  | write_string value amount =>
    value.take (if amount > value.length then value.length else amount) ++
      List.replicate (amount - (if amount > value.length then value.length else amount))
        (0 : byte)
  | write_array bytesize value amount => value.take ((bytesize * amount) % size_modulus)
  | write_bytes value amount => value.take ((1 * amount) % size_modulus)
  | _ => []

/-- A finite sequence of calls on one object, each returning or throwing; `none` once a
call has undefined behaviour. -/
def operation.run_all : List operation → buffer_t → Option buffer_t
  | [], s => some s
  | op :: ops, s =>
    match (op.run s).state with
    | some t => operation.run_all ops t
    | none => none

/-- The object `buffer_t(10)` right after construction: ten owned zero bytes. -/
def example_owned : buffer_t :=
  { read_data := pointer_t.storage, write_data := pointer_t.storage, current_position := 0,
    length := 10, owning := true, data := ⟨List.replicate 10 0, true⟩, is_expandable := true,
    caller_memory := [] }

/-- The object `buffer_t(ptr, 4, false)` over the caller's four mutable bytes `1 2 3 4`. -/
def example_view : buffer_t :=
  { read_data := pointer_t.caller, write_data := pointer_t.caller, current_position := 0,
    length := 4, owning := false, data := ⟨[], false⟩, is_expandable := true,
    caller_memory := [1, 2, 3, 4] }

/-- The value of `std::numeric_limits<T>::max()`. -/
def integral_t.max (T : integral_t) : Int :=
  if T.is_signed then 2 ^ (8 * T.sizeof - 1) - 1 else 2 ^ (8 * T.sizeof) - 1

/-- Conversion of an integer value to `T`: the value of `T` congruent to it modulo
`2 ^ (8 * sizeof(T))`. -/
def integral_t.convert (T : integral_t) (v : Int) : Int :=
  if T.is_signed ∧ (2 ^ (8 * T.sizeof - 1) : Int) ≤ v % 2 ^ (8 * T.sizeof) then
    v % 2 ^ (8 * T.sizeof) - 2 ^ (8 * T.sizeof)
  else v % 2 ^ (8 * T.sizeof)

/-- The members of `numinc_t<T>` (numinc.hpp 17-18). -/
structure numinc_t where
  current_value : Int
  limit : Int
deriving DecidableEq

/-- Result of a call of `numinc_t<T>::next`: the value returned, the exception, or undefined
behaviour (overflow of a signed addition). -/
inductive numinc_outcome where
  | ok (value : Int) (state : numinc_t)
  | throws (state : numinc_t)
  | undefined
deriving DecidableEq

/-- Constructor `numinc_t(T initial, T max_value)` (numinc.hpp 32). -/
def numinc_t.ctor (initial max_value : Int) : numinc_t :=
  { current_value := initial, limit := max_value }

/-- Constructor `numinc_t(T initial = 0)` (numinc.hpp 31). -/
def numinc_t.ctor_default (T : integral_t) (initial : Int) : numinc_t :=
  { current_value := initial, limit := T.max }

/-- The expression `current_value + 1` after the usual arithmetic conversions: a type
narrower than `int` is promoted to `int` and the sum is exact; a signed type of 4 or 8 bytes
overflows past its maximum; an unsigned type of 4 or 8 bytes wraps. -/
def numinc_t.successor (T : integral_t) (v : Int) : Option Int :=
  if T.sizeof < 4 then some (v + 1)
  else if T.is_signed then (if v + 1 ≤ T.max then some (v + 1) else none)
  else some ((v + 1) % 2 ^ (8 * T.sizeof))

/-- Member `numinc_t<T>::next` (numinc.hpp 21-27). The test compares `current_value + 1`
with `limit`; `++current_value` stores that sum converted back to `T`. -/
def numinc_t.next (T : integral_t) (c : numinc_t) : numinc_outcome :=
  match numinc_t.successor T c.current_value with
  | none => numinc_outcome.undefined
  | some sum =>
    if sum = c.limit then numinc_outcome.throws c
    else numinc_outcome.ok (T.convert sum) { c with current_value := T.convert sum }

/-- The counter after `n` calls of `next`, each returning or throwing; `none` once a call
has undefined behaviour. -/
def numinc_t.after (T : integral_t) : Nat → numinc_t → Option numinc_t
  | 0, c => some c
  | n + 1, c =>
    match numinc_t.next T c with
    | numinc_outcome.ok _ c1 => numinc_t.after T n c1
    | numinc_outcome.throws c1 => numinc_t.after T n c1
    | numinc_outcome.undefined => none

end util

/-!
# A shallow embedding of `strutil` (strutil.hpp)

A `std::string` is a list of characters. A position returned by a `find` member is
`some i`, and `std::string::npos` is `none`. The library calls `std::to_chars`,
`std::from_chars` and `std::isalpha` are modelled after the C++ standard, for the "C"
locale.
-/

namespace strutil

/-- The argument `" \t\v\f\n\r"` of the `find` calls. -/
def whitespace : List Char := [' ', '\t', '\x0b', '\x0c', '\n', '\r']

/-- The value of `std::string::npos`. -/
def npos : Nat := 2 ^ 64 - 1

/-- Index of the first character that satisfies `p`. -/
def first_index (p : Char → Bool) : List Char → Option Nat
  | [] => none
  | c :: cs => if p c then some 0 else (first_index p cs).map (fun i => i + 1)

/-- The call `value.find_first_of(chars, pos)`. -/
def find_first_of (value chars : List Char) (pos : Nat) : Option Nat :=
  (first_index (fun c => chars.contains c) (value.drop pos)).map (fun i => pos + i)

/-- The call `value.find_first_not_of(chars, pos)`. -/
def find_first_not_of (value chars : List Char) (pos : Nat) : Option Nat :=
  (first_index (fun c => !chars.contains c) (value.drop pos)).map (fun i => pos + i)

/-- The call `value.find_last_not_of(chars)`. -/
def find_last_not_of (value chars : List Char) : Option Nat :=
  (first_index (fun c => !chars.contains c) value.reverse).map
    (fun i => value.length - 1 - i)

/-- The call `value.substr(pos, count)`, for `pos <= value.size()`. -/
def substr (value : List Char) (pos count : Nat) : List Char :=
  (value.drop pos).take count

/-- The call `value.replace(pos, len, str)`, for `pos <= value.size()`: the
`min(len, size - pos)` characters from `pos` on are replaced by `str`. -/
def replace (value : List Char) (pos len : Nat) (str : List Char) : List Char :=
  value.take pos ++ str ++ value.drop (pos + min len (value.length - pos))

/-- Function `strutil::ltrim` (strutil.hpp 37-47). -/
def ltrim (value : List Char) : List Char :=
  if !value.isEmpty then
    match find_first_not_of value whitespace 0 with
    | none => []
    | some loc => value.drop loc
  else value

/-- Function `strutil::rtrim` (strutil.hpp 49-59). -/
def rtrim (value : List Char) : List Char :=
  if !value.isEmpty then
    match find_last_not_of value whitespace with
    | none => value
    | some loc => substr value 0 (loc + 1)
  else value

/-- Function `strutil::trim` (strutil.hpp 61-64). -/
def trim (value : List Char) : List Char :=
  rtrim (ltrim value)

/-- The `while` loop of `strutil::simplify` (strutil.hpp 74-79), entered with `working` and
`startloc`; one unit of fuel per test of the loop condition, `none` when the fuel runs out.
Both searches start at `startloc`, so `endloc - startloc` does not wrap. -/
def simplify_loop : Nat → List Char → Option Nat → Option (List Char)
  | 0, _, _ => none
  | fuel + 1, working, startloc =>
    match startloc with
    | none => some working
    | some start =>
      if start < working.length then
        let endloc := find_first_not_of working whitespace start
        let amount :=
          match endloc with
          | some e => e - start
          | none => npos - start
        let working1 := replace working start amount [' ']
        simplify_loop fuel working1 (find_first_of working1 whitespace (start + 1))
      else some working

/-- Function `strutil::simplify` (strutil.hpp 66-83). The loop is given one unit of fuel per
character of the trimmed string, and one more. -/
def simplify (value : List Char) : Option (List Char) :=
  let working := trim value
  if !working.isEmpty then
    simplify_loop (working.length + 1) working (find_first_of working whitespace 0)
  else some working

/-- The enumeration `radix_t` (strutil.hpp 238). -/
inductive radix_t where
  | dec
  | oct
  | hex
  | bin
deriving DecidableEq

/-- The value `static_cast<int>(radix)`. -/
def radix_t.base : radix_t → Nat
  | radix_t.dec => 10
  | radix_t.oct => 8
  | radix_t.hex => 16
  | radix_t.bin => 2

/-- The constant `max_characters_in_number` (strutil.hpp 242). -/
def max_characters_in_number : Nat := 12

/-- The value of `INT_MAX` for a 32-bit `int`. -/
def int_max : Int := 2 ^ 31 - 1

/-- The digit character `std::to_chars` writes for the digit value `d`: `0`-`9`, then
`a`-`z`. -/
def digit_char (d : Nat) : Char :=
  Char.ofNat (if d < 10 then 48 + d else 87 + d)

/-- The digits of `n` in base `base`, most significant first, without leading zeros; `fuel`
bounds the number of digits. -/
def to_digits (base : Nat) : Nat → Nat → List Char
  | 0, _ => []
  | fuel + 1, n =>
    if n < base then [digit_char n]
    else to_digits base fuel (n / base) ++ [digit_char (n % base)]

/-- The characters `std::to_chars` produces for a value of at most 64 bits: a minus sign for
a negative value, then the digits of the magnitude. -/
def representation (value : Int) (base : Nat) : List Char :=
  (if value < 0 then ['-'] else []) ++ to_digits base 64 value.natAbs

/-- The call `std::to_chars(first, first + capacity, value, base)`: the characters written,
or `none` for `std::errc::value_too_large`. -/
def to_chars (capacity : Nat) (value : Int) (base : Nat) : Option (List Char) :=
  if (representation value base).length ≤ capacity then some (representation value base)
  else none

/-- The call `std::copy(first, last, dst.begin() + index)`, for a span inside `dst`. -/
def overwrite (dst : List Char) (index : Nat) (src : List Char) : List Char :=
  dst.take index ++ src ++ dst.drop (index + src.length)

/-- Function template `strutil::ntos` for a non-bool integral type (strutil.hpp 259-312).
`size` is an `int`; the result is `none` when `sizeofstring += 2` overflows `int`. -/
def ntos (value : Int) (radix : radix_t) (prefixed : Bool) (size : Int) (pad : Char) :
    Option (List Char) :=
  match to_chars max_characters_in_number value radix.base with
  | some str =>
    let numchars : Int := str.length
    let sizeofstring := max numchars size
    let index := sizeofstring - numchars
    if prefixed then
      if sizeofstring + 2 ≤ int_max then
        let rvalue := overwrite (List.replicate (sizeofstring + 2).toNat pad)
          (index + 2).toNat str
        match radix with
        | radix_t.dec => some rvalue
        | radix_t.hex => some ((rvalue.set 0 '0').set 1 'x')
        | radix_t.oct => some ((rvalue.set 0 '0').set 1 'o')
        | radix_t.bin => some ((rvalue.set 0 '0').set 1 'b')
      else none
    else some (overwrite (List.replicate sizeofstring.toNat pad) index.toNat str)
  | none => some []

/-- The call `std::isalpha(c)` in the "C" locale. -/
def isalpha (c : Char) : Bool :=
  (65 ≤ c.toNat && c.toNat ≤ 90) || (97 ≤ c.toNat && c.toNat ≤ 122)

/-- The digit value `std::from_chars` gives a character: `0`-`9`, and `a`-`z` or `A`-`Z`
for ten and above. -/
def digit_value (c : Char) : Option Nat :=
  if 48 ≤ c.toNat ∧ c.toNat ≤ 57 then some (c.toNat - 48)
  else if 97 ≤ c.toNat ∧ c.toNat ≤ 122 then some (c.toNat - 87)
  else if 65 ≤ c.toNat ∧ c.toNat ≤ 90 then some (c.toNat - 55)
  else none

/-- The leading characters of `str` that are digits of base `base`, as digit values. -/
def leading_digits (base : Nat) : List Char → List Nat
  | [] => []
  | c :: cs =>
    match digit_value c with
    | some d => if d < base then d :: leading_digits base cs else []
    | none => []

/-- The number written by the digit values `ds`, most significant first. -/
def digits_value (base : Nat) (ds : List Nat) : Nat :=
  ds.foldl (fun acc d => acc * base + d) 0

/-- Result of `std::from_chars`: the value parsed, or one of the two error codes, in which
case the destination is left untouched. -/
inductive from_chars_result where
  | ok (value : Int)
  | invalid_argument
  | result_out_of_range
deriving DecidableEq

/-- The call `std::from_chars(first, last, value, base)` for a destination of type `T`: an
optional minus sign (signed types only), then the longest run of digits of the base. -/
def from_chars (T : util.integral_t) (str : List Char) (base : Nat) : from_chars_result :=
  let negative := T.is_signed && str.head? == some '-'
  let ds := leading_digits base (if negative then str.drop 1 else str)
  if ds = [] then from_chars_result.invalid_argument
  else
    let v : Int := if negative then -(digits_value base ds : Int) else (digits_value base ds : Int)
    if T.in_range v then from_chars_result.ok v else from_chars_result.result_out_of_range

/-- Result of `strutil::ston`: the value returned, or a `std::runtime_error`. -/
inductive conversion where
  | returns (value : Int)
  | throws
deriving DecidableEq

/-- The value left in `value`, initialised to 0, by a `std::from_chars` call whose error
code is ignored. -/
def from_chars_result.value_or_zero : from_chars_result → Int
  | from_chars_result.ok v => v
  | _ => 0

/-- Function template `strutil::ston` for a non-bool integral type (strutil.hpp 314-367). -/
def ston (T : util.integral_t) (str_value : List Char) (radix : radix_t) : conversion :=
  if !str_value.isEmpty then
    if str_value.length < 2 then
      conversion.returns (from_chars T str_value radix.base).value_or_zero
    else if isalpha (str_value.getD 1 ' ') then
      if str_value.getD 1 ' ' = 'b' ∨ str_value.getD 1 ' ' = 'B' then
        conversion.returns (from_chars T (str_value.drop 2) radix_t.bin.base).value_or_zero
      else if str_value.getD 1 ' ' = 'x' ∨ str_value.getD 1 ' ' = 'X' then
        conversion.returns (from_chars T (str_value.drop 2) radix_t.hex.base).value_or_zero
      else if str_value.getD 1 ' ' = 'o' ∨ str_value.getD 1 ' ' = 'O' then
        conversion.returns (from_chars T (str_value.drop 2) radix_t.oct.base).value_or_zero
      else conversion.returns 0
    else
      match from_chars T str_value radix.base with
      | from_chars_result.invalid_argument => conversion.throws
      | from_chars_result.result_out_of_range => conversion.throws
      | from_chars_result.ok v => conversion.returns v
  else conversion.returns 0

/-- Whether `c` is one of the six whitespace characters. -/
def is_whitespace (c : Char) : Bool := whitespace.contains c

/-- Specification of the claims about `simplify`: the maximal runs of non-whitespace
characters of a string, in order, where `current` is the run being read. -/
def split_words (current : List Char) : List Char → List (List Char)
  | [] => if current.isEmpty then [] else [current]
  | c :: cs =>
    if is_whitespace c then
      (if current.isEmpty then split_words [] cs else current :: split_words [] cs)
    else split_words (current ++ [c]) cs

/-- Specification: the maximal runs of non-whitespace characters of `s`, in order. -/
def words (s : List Char) : List (List Char) := split_words [] s

/-- Specification: the words written one after the other with one space in between. -/
def join_words : List (List Char) → List Char
  | [] => []
  | [w] => w
  | w :: v :: rest => w ++ ' ' :: join_words (v :: rest)

end strutil

namespace util

theorem le_bytes_length (n u : Nat) : (le_bytes n u).length = n := by
  induction n generalizing u with
  | zero => rfl
  | succ k ih => simp [le_bytes, ih]

theorem le_value_le_bytes (n u : Nat) : le_value (le_bytes n u) = u % 256 ^ n := by
  induction n generalizing u with
  | zero => simp [le_bytes, le_value, Nat.mod_one]
  | succ k ih =>
    simp only [le_bytes, le_value, ih]
    rw [Nat.pow_succ, Nat.mul_comm (256 ^ k) 256, Nat.mod_mul]

theorem object_value_object_bytes (T : integral_t) (v : Int) (h : T.in_range v) :
    object_value T (object_bytes T v) = v := by
  cases T <;>
    simp only [integral_t.in_range, integral_t.is_signed, integral_t.sizeof] at h <;>
    simp only [object_value, object_bytes, le_value_le_bytes, integral_t.is_signed,
      integral_t.sizeof] <;>
    norm_num at h ⊢ <;>
    omega

theorem splice_length (mem src : List byte) (off : Nat) (h : off + src.length ≤ mem.length) :
    (splice mem off src).length = mem.length := by
  simp only [splice, List.length_append, List.length_take, List.length_drop]
  omega

theorem drop_take_splice (mem src : List byte) (off : Nat) (h : off + src.length ≤ mem.length) :
    ((splice mem off src).drop off).take src.length = src := by
  have h1 : (mem.take off).length = off := by
    rw [List.length_take]; omega
  unfold splice
  rw [List.append_assoc, List.drop_append_of_le_length (by omega)]
  rw [List.drop_of_length_le (by omega), List.nil_append, List.take_left']
  rfl

theorem store_fields (s s1 : buffer_t) (p : pointer_t) (off : Nat) (src : List byte)
    (h : store s p off src = some s1) :
    s1.read_data = s.read_data ∧ s1.write_data = s.write_data ∧
    s1.current_position = s.current_position ∧ s1.length = s.length ∧
    s1.owning = s.owning ∧ s1.is_expandable = s.is_expandable ∧
    s1.data.has_capacity = s.data.has_capacity := by
  unfold store at h
  split at h
  · cases p <;> simp at h <;> subst h <;> simp
  · simp at h

theorem store_region (s s1 : buffer_t) (p : pointer_t) (off : Nat) (src : List byte)
    (h : store s p off src = some s1) :
    off + src.length ≤ (region s p).length ∧ region s1 p = splice (region s p) off src := by
  unfold store at h
  split at h
  · rename_i hle
    refine ⟨hle, ?_⟩
    cases p <;> simp at h <;> subst h <;> simp [region]
  · simp at h

theorem load_store (s s1 : buffer_t) (p : pointer_t) (off : Nat) (src : List byte)
    (h : store s p off src = some s1) : load s1 p off src.length = some src := by
  obtain ⟨hle, hreg⟩ := store_region s s1 p off src h
  unfold load
  rw [hreg, splice_length _ _ _ hle, if_pos hle, drop_take_splice _ _ _ hle]

theorem max_size_lt : max_size < size_modulus := by
  norm_num [max_size, size_modulus]

theorem wf_length_lt (s : buffer_t) (hwf : s.wf) : s.length < size_modulus :=
  lt_of_le_of_lt hwf.2.1 max_size_lt

theorem wf_read_eq_write (s : buffer_t) (hwf : s.wf) (hw : s.write_data ≠ pointer_t.null) :
    s.read_data = s.write_data := by
  obtain ⟨_, _, _, h⟩ := hwf
  split at h
  · rw [h.1, h.2.1]
  · obtain ⟨_, h1, h2, _⟩ := h
    rcases h1 with h1 | h1
    · exact absurd h1 hw
    · rw [h1, h2 h1]

theorem load_congr (s t : buffer_t) (p : pointer_t) (off n : Nat)
    (h1 : s.caller_memory = t.caller_memory) (h2 : s.data = t.data) :
    load s p off n = load t p off n := by
  cases p <;> simp [load, region, h1, h2]

theorem load_fields (s : buffer_t) (a b p : pointer_t) (c d off n : Nat) (e f : Bool) :
    load ⟨a, b, c, d, e, s.data, f, s.caller_memory⟩ p off n = load s p off n :=
  load_congr _ _ _ _ _ rfl rfl

theorem write_check_fit (n : Nat) (s : buffer_t) (hwf : s.wf)
    (hfit : s.current_position + n < s.length) : buffer_t.write_check n s = outcome.ok () s := by
  have hM := (wf_length_lt _ hwf)
  unfold buffer_t.write_check
  rw [Nat.mod_eq_of_lt (by omega), if_neg (by omega)]

/-- C1 (amended): integer round trip. For every integral type `T`, every value `v` of `T`,
every reverse flag `r` and every consistent buffer state with cursor `p` in which
`write<T>(v, r)` returns without growing the buffer, that is with
`position + sizeof(T) < length` before the call, `at(p)` returns and `read<T>(r)` then
returns `v`, leaving the buffer in the state the write left it in. -/
theorem integral_round_trip_without_growth (T : integral_t) (v : Int) (r : Bool) (s s1 : buffer_t)
    (hwf : s.wf) (hv : T.in_range v) (hfit : s.current_position + T.sizeof < s.length)
    (hw : buffer_t.write_integral T v r s = outcome.ok () s1) :
    buffer_t.at_set s.current_position s1
      = outcome.ok () { s1 with current_position := s.current_position } ∧
    buffer_t.read_integral T r { s1 with current_position := s.current_position }
      = outcome.ok v s1 := by
  have hM := (wf_length_lt _ hwf)
  unfold buffer_t.write_integral at hw
  split at hw
  · simp at hw
  · rename_i hnull
    have hrw := wf_read_eq_write s hwf hnull
    simp only [write_check_fit T.sizeof s hwf hfit] at hw
    split at hw
    · simp at hw
    · rename_i s2 hst
      have hf := store_fields _ _ _ _ _ hst
      have hld := load_store _ _ _ _ _ hst
      have hlen : (if r = true then (object_bytes T v).reverse else object_bytes T v).length
          = T.sizeof := by
        split <;> simp [object_bytes, le_bytes_length]
      rw [hlen] at hld
      simp only [outcome.ok.injEq, true_and] at hw
      subst hw
      constructor
      · simp only [buffer_t.at_set]
        rw [if_neg (by simp only [hf.2.2.2.1]; omega)]
      · simp only [buffer_t.read_integral, hf.1, hf.2.2.1, hf.2.2.2.1, hrw]
        rw [if_neg hnull, Nat.mod_eq_of_lt (by omega), if_neg (by omega)]
        rw [load_fields, hld]
        cases r <;> simp [object_value_object_bytes T v hv]

theorem write_check_throws (n : Nat) (s s1 : buffer_t) (e : exception_t)
    (h : buffer_t.write_check n s = outcome.throws e s1) :
    s1 = s ∧ (s.current_position + n) % size_modulus ≥ s.length ∧
      ((e = exception_t.out_of_range ∧ ¬ (s.owning = true ∧ s.is_expandable = true)) ∨
       (e = exception_t.length_error ∧ s.owning = true ∧ s.is_expandable = true ∧
         max_size < (s.current_position + n) % size_modulus)) := by
  unfold buffer_t.write_check buffer_t.resize vector_t.resize at h
  split_ifs at h with h1 h2 h3 h4 <;> simp_all

theorem read_integral_throws (T : integral_t) (r : Bool) (s s1 : buffer_t) (e : exception_t)
    (h : buffer_t.read_integral T r s = outcome.throws e s1) : s1 = s := by
  simp only [buffer_t.read_integral] at h
  repeat' split at h
  all_goals simp_all

theorem read_string_throws (amount : Nat) (s s1 : buffer_t) (e : exception_t)
    (h : buffer_t.read_string amount s = outcome.throws e s1) : s1 = s := by
  simp only [buffer_t.read_string] at h
  repeat' split at h
  all_goals simp_all

theorem read_array_throws (bytesize amount : Nat) (s s1 : buffer_t) (e : exception_t)
    (h : buffer_t.read_array bytesize amount s = outcome.throws e s1) : s1 = s := by
  simp only [buffer_t.read_array] at h
  repeat' split at h
  all_goals simp_all

theorem read_bytes_throws (amount : Nat) (s s1 : buffer_t) (e : exception_t)
    (h : buffer_t.read_bytes amount s = outcome.throws e s1) : s1 = s := by
  simp only [buffer_t.read_bytes] at h
  repeat' split at h
  all_goals simp_all

theorem write_integral_throws (T : integral_t) (v : Int) (r : Bool) (s s1 : buffer_t)
    (e : exception_t) (h : buffer_t.write_integral T v r s = outcome.throws e s1) : s1 = s := by
  simp only [buffer_t.write_integral] at h
  split at h
  · simp_all
  · split at h
    · rename_i hc
      simp only [outcome.throws.injEq] at h
      rw [← h.2]
      exact (write_check_throws _ _ _ _ hc).1
    · simp at h
    · repeat' split at h
      all_goals simp at h

theorem store_zeros_throws (s s1 : buffer_t) (p : pointer_t) (off n : Nat) (e : exception_t)
    (h : store_zeros s p off n = outcome.throws e s1) :
    s1 = s ∧ e = exception_t.length_error ∧ max_size < n := by
  unfold store_zeros at h
  split at h
  · rename_i hn
    simp only [outcome.throws.injEq] at h
    exact ⟨h.2.symm, h.1.symm, hn⟩
  · split at h
    · split at h <;> simp at h
    · simp at h

/-- A throwing text `write` leaves the object as it was, unless the exception is the
`std::length_error` of the padding vector: then the bounds test has passed (with or without
growth), the text has been copied, and the amount exceeds `max_size`. -/
theorem write_string_throws (value : List byte) (amount : Nat) (s s1 : buffer_t)
    (e : exception_t) (h : buffer_t.write_string value amount s = outcome.throws e s1) :
    s1 = s ∨
    (e = exception_t.length_error ∧ max_size < amount ∧ s.write_data ≠ pointer_t.null ∧
      ∃ s0, buffer_t.write_check amount s = outcome.ok () s0 ∧
        store s0 s0.write_data s0.current_position
          (value.take (if amount > value.length then value.length else amount)) = some s1) := by
  simp only [buffer_t.write_string] at h
  split at h
  · simp_all
  · rename_i hnn
    split at h
    · rename_i hc
      simp only [outcome.throws.injEq] at h
      left
      rw [← h.2]
      exact (write_check_throws _ _ _ _ hc).1
    · simp at h
    · rename_i u s0 hc
      split at h
      · simp at h
      · rename_i s2 hst
        split at h
        · rename_i e2 s3 hpad
          simp only [outcome.throws.injEq] at h
          obtain ⟨he, hs⟩ := h
          subst he
          subst hs
          split at hpad
          · obtain ⟨h1, h2, h3⟩ := store_zeros_throws _ _ _ _ _ _ hpad
            right
            subst h1
            refine ⟨h2, by omega, hnn, s0, ?_, hst⟩
            cases u
            exact hc
          · simp at hpad
        · simp at h
        · simp at h

theorem write_array_throws (bytesize : Nat) (value : List byte) (amount : Nat) (s s1 : buffer_t)
    (e : exception_t) (h : buffer_t.write_array bytesize value amount s = outcome.throws e s1) :
    s1 = s := by
  simp only [buffer_t.write_array] at h
  split at h
  · simp_all
  · split at h
    · rename_i hc
      simp only [outcome.throws.injEq] at h
      rw [← h.2]
      exact (write_check_throws _ _ _ _ hc).1
    · simp at h
    · repeat' split at h
      all_goals simp at h

theorem write_bytes_throws (value : List byte) (amount : Nat) (s s1 : buffer_t)
    (e : exception_t) (h : buffer_t.write_bytes value amount s = outcome.throws e s1) :
    s1 = s := by
  simp only [buffer_t.write_bytes] at h
  split at h
  · simp_all
  · split at h
    · rename_i hc
      simp only [outcome.throws.injEq] at h
      rw [← h.2]
      exact (write_check_throws _ _ _ _ hc).1
    · simp at h
    · repeat' split at h
      all_goals simp at h

theorem discard_throws {α : Type} (o : outcome α) (e : exception_t) (s1 : buffer_t)
    (h : o.discard = outcome.throws e s1) : o = outcome.throws e s1 := by
  cases o <;> simp_all [outcome.discard]

/-- A throwing call leaves the object as it was, with one exception: the text `write` whose
padding vector throws `std::length_error` after the text has been copied. -/
theorem run_throws_state (op : operation) (s s1 : buffer_t) (e : exception_t)
    (h : op.run s = outcome.throws e s1) :
    s1 = s ∨
    (e = exception_t.length_error ∧ s.write_data ≠ pointer_t.null ∧
      ∃ value amount s0, op = operation.write_string value amount ∧ max_size < amount ∧
        buffer_t.write_check amount s = outcome.ok () s0 ∧
        store s0 s0.write_data s0.current_position
          (value.take (if amount > value.length then value.length else amount)) = some s1) := by
  cases op with
  | read_integral T r =>
    exact Or.inl (read_integral_throws T r s s1 e (discard_throws _ _ _ h))
  | read_string amount =>
    exact Or.inl (read_string_throws amount s s1 e (discard_throws _ _ _ h))
  | read_array b amount =>
    exact Or.inl (read_array_throws b amount s s1 e (discard_throws _ _ _ h))
  | read_bytes amount =>
    exact Or.inl (read_bytes_throws amount s s1 e (discard_throws _ _ _ h))
  | write_integral T v r => exact Or.inl (write_integral_throws T v r s s1 e h)
  | write_string v amount =>
    rcases write_string_throws v amount s s1 e h with h1 | ⟨h1, h2, h3, s0, h4, h5⟩
    · exact Or.inl h1
    · exact Or.inr ⟨h1, h3, v, amount, s0, rfl, h2, h4, h5⟩
  | write_array b v amount => exact Or.inl (write_array_throws b v amount s s1 e h)
  | write_bytes v amount => exact Or.inl (write_bytes_throws v amount s s1 e h)
  | at_set p =>
    simp only [operation.run, buffer_t.at_set] at h
    split_ifs at h
    simp_all
  | resize n =>
    simp only [operation.run, buffer_t.resize] at h
    split at h
    · simp_all
    · split at h <;> simp_all
  | expandable b => simp [operation.run, buffer_t.expandable] at h

theorem vector_resize_some (v d : vector_t) (k : Nat) (h : v.resize k = some d) :
    k ≤ max_size ∧
    d.elems = v.elems.take k ++ List.replicate (k - v.elems.length) 0 ∧
    d.has_capacity = (v.has_capacity || decide (0 < k)) ∧ d.elems.length = k := by
  unfold vector_t.resize at h
  split at h
  · simp at h
  · rename_i hk
    simp only [Option.some.injEq] at h
    subst h
    refine ⟨by omega, rfl, rfl, ?_⟩
    simp only [List.length_append, List.length_take, List.length_replicate]
    omega

theorem vector_resize_of_le (v : vector_t) (k : Nat) (hk : k ≤ max_size) :
    v.resize k = some ⟨v.elems.take k ++ List.replicate (k - v.elems.length) 0,
      v.has_capacity || decide (0 < k)⟩ := by
  unfold vector_t.resize
  rw [if_neg (by omega)]

theorem vector_resize_length (v d : vector_t) (k : Nat) (h : v.resize k = some d) :
    d.elems.length = k :=
  (vector_resize_some v d k h).2.2.2

theorem resize_ok (k : Nat) (s s0 : buffer_t) (h : buffer_t.resize k s = outcome.ok () s0) :
    s.owning = true ∧ s0.owning = true ∧ s0.is_expandable = s.is_expandable ∧
    s.data.resize k = some s0.data ∧ s0.length = k ∧ s0.data.elems.length = k ∧
    s0.current_position = min s.current_position k ∧
    s0.write_data = s0.data.data_ptr ∧ s0.read_data = s0.data.data_ptr ∧
    s0.caller_memory = s.caller_memory := by
  simp only [buffer_t.resize] at h
  split at h
  · simp at h
  · rename_i hown
    split at h
    · simp at h
    · rename_i d hd
      have hlen := vector_resize_length _ _ _ hd
      simp only [outcome.ok.injEq, true_and] at h
      subst h
      refine ⟨by simpa using hown, by simpa using hown, rfl, hd, ?_, hlen, ?_, rfl, rfl, rfl⟩
      · simp [vector_t.size, hlen]
      · simp only [vector_t.size, hlen]
        split <;> omega

theorem resize_le_max_size (k : Nat) (s s0 : buffer_t)
    (h : buffer_t.resize k s = outcome.ok () s0) : k ≤ max_size :=
  (vector_resize_some _ _ _ (resize_ok k s s0 h).2.2.2.1).1

theorem resize_data (k : Nat) (s s0 : buffer_t) (h : buffer_t.resize k s = outcome.ok () s0) :
    s0.data.elems = s.data.elems.take k ++ List.replicate (k - s.data.elems.length) 0 ∧
    s0.data.has_capacity = (s.data.has_capacity || decide (0 < k)) :=
  ⟨(vector_resize_some _ _ _ (resize_ok k s s0 h).2.2.2.1).2.1,
   (vector_resize_some _ _ _ (resize_ok k s s0 h).2.2.2.1).2.2.1⟩

theorem write_check_ok (n : Nat) (s s0 : buffer_t)
    (h : buffer_t.write_check n s = outcome.ok () s0) :
    (s0 = s ∧ (s.current_position + n) % size_modulus < s.length) ∨
    (s.length ≤ (s.current_position + n) % size_modulus ∧ s.owning = true ∧
      s.is_expandable = true ∧
      buffer_t.resize ((s.current_position + n) % size_modulus) s = outcome.ok () s0) := by
  simp only [buffer_t.write_check] at h
  split at h
  · rename_i hge
    split at h
    · rename_i hoe
      simp only [Bool.and_eq_true] at hoe
      exact Or.inr ⟨hge, hoe.1, hoe.2, h⟩
    · simp at h
  · rename_i hlt
    simp only [outcome.ok.injEq, true_and] at h
    exact Or.inl ⟨h.symm, by omega⟩

theorem store_region_length (s s1 : buffer_t) (p q : pointer_t) (off : Nat) (src : List byte)
    (h : store s p off src = some s1) : (region s1 q).length = (region s q).length := by
  unfold store at h
  split at h
  · rename_i hle
    cases p <;> simp at h <;> subst h <;> cases q <;>
      simp only [region] at hle ⊢ <;> rw [splice_length _ _ _ hle]
  · simp at h

theorem store_not_null (s s1 : buffer_t) (p : pointer_t) (off : Nat) (src : List byte)
    (h : store s p off src = some s1) : p ≠ pointer_t.null := by
  intro hp
  subst hp
  unfold store at h
  split at h <;> simp at h

theorem store_zeros_eq (s s1 : buffer_t) (p : pointer_t) (off n : Nat) (u : Unit)
    (h : store_zeros s p off n = outcome.ok u s1) :
    store s p off (List.replicate n (0 : byte)) = some s1 := by
  unfold store_zeros at h
  split at h
  · simp at h
  · split at h
    · split at h
      · rename_i t ht
        simp only [outcome.ok.injEq] at h
        rw [ht, h.2]
      · simp at h
    · simp at h

/-- What a returning `write` of `n` bytes has done, in terms of the state `s0` after the
bounds test. -/
theorem write_integral_ok (T : integral_t) (v : Int) (r : Bool) (s s1 : buffer_t)
    (h : buffer_t.write_integral T v r s = outcome.ok () s1) :
    s.write_data ≠ pointer_t.null ∧
    ∃ s0, buffer_t.write_check T.sizeof s = outcome.ok () s0 ∧
      s0.write_data ≠ pointer_t.null ∧
      s0.current_position + T.sizeof ≤ (region s0 s0.write_data).length ∧
      s1.current_position = (s0.current_position + T.sizeof) % size_modulus ∧
      s1.length = s0.length ∧ s1.owning = s0.owning ∧ s1.is_expandable = s0.is_expandable ∧
      s1.read_data = s0.read_data ∧ s1.write_data = s0.write_data := by
  simp only [buffer_t.write_integral] at h
  split at h
  · simp at h
  · rename_i hnull
    refine ⟨hnull, ?_⟩
    split at h
    · simp at h
    · simp at h
    · rename_i u s0 hc
      split at h
      · simp at h
      · rename_i s2 hst
        have hf := store_fields _ _ _ _ _ hst
        have hr := (store_region _ _ _ _ _ hst).1
        have hlen : (if r = true then (object_bytes T v).reverse else object_bytes T v).length
            = T.sizeof := by
          split <;> simp [object_bytes, le_bytes_length]
        rw [hlen] at hr
        simp only [outcome.ok.injEq, true_and] at h
        subst h
        exact ⟨s0, hc, store_not_null _ _ _ _ _ hst, hr, by simp [hf.2.2.1], hf.2.2.2.1,
          hf.2.2.2.2.1, hf.2.2.2.2.2.1, hf.1, hf.2.1⟩

theorem write_string_ok (value : List byte) (amount : Nat) (s s1 : buffer_t)
    (h : buffer_t.write_string value amount s = outcome.ok () s1) :
    s.write_data ≠ pointer_t.null ∧
    ∃ s0, buffer_t.write_check amount s = outcome.ok () s0 ∧
      s0.write_data ≠ pointer_t.null ∧
      s0.current_position + amount ≤ (region s0 s0.write_data).length ∧
      s1.current_position = (s0.current_position + amount) % size_modulus ∧
      s1.length = s0.length ∧ s1.owning = s0.owning ∧ s1.is_expandable = s0.is_expandable ∧
      s1.read_data = s0.read_data ∧ s1.write_data = s0.write_data := by
  simp only [buffer_t.write_string] at h
  have hw1 : (if amount > value.length then value.length else amount) ≤ amount := by
    split <;> omega
  have hw2 : (if amount > value.length then value.length else amount) ≤ value.length := by
    split <;> omega
  generalize (if amount > value.length then value.length else amount) = writesize at h hw1 hw2
  split at h
  · simp at h
  · rename_i hnull
    refine ⟨hnull, ?_⟩
    split at h
    · simp at h
    · simp at h
    · rename_i u s0 hc
      split at h
      · simp at h
      · rename_i s2 hst
        have hf := store_fields _ _ _ _ _ hst
        have hr := (store_region _ _ _ _ _ hst).1
        have hrl := store_region_length _ _ _ s0.write_data _ _ hst
        simp only [List.length_take, Nat.min_eq_left hw2] at hr
        split at h
        · simp at h
        · simp at h
        · rename_i u3 s3 hst3
          simp only [outcome.ok.injEq, true_and] at h
          subst h
          by_cases hlt : writesize < amount
          · rw [if_pos hlt] at hst3
            have hz := store_zeros_eq _ _ _ _ _ _ hst3
            have hf3 := store_fields _ _ _ _ _ hz
            have hr3 := (store_region _ _ _ _ _ hz).1
            simp only [List.length_replicate, hf.2.1, hf.2.2.1, hrl] at hr3
            refine ⟨s0, hc, store_not_null _ _ _ _ _ hst, by omega, ?_, ?_, ?_, ?_, ?_, ?_⟩
            · simp [hf3.2.2.1, hf.2.2.1]
            · simp [hf3.2.2.2.1, hf.2.2.2.1]
            · simp [hf3.2.2.2.2.1, hf.2.2.2.2.1]
            · simp [hf3.2.2.2.2.2.1, hf.2.2.2.2.2.1]
            · simp [hf3.1, hf.1]
            · simp [hf3.2.1, hf.2.1]
          · rw [if_neg hlt] at hst3
            simp only [outcome.ok.injEq, true_and] at hst3
            subst hst3
            exact ⟨s0, hc, store_not_null _ _ _ _ _ hst, by omega, by simp [hf.2.2.1],
              hf.2.2.2.1, hf.2.2.2.2.1, hf.2.2.2.2.2.1, hf.1, hf.2.1⟩

theorem write_bytes_eq (value : List byte) (amount : Nat) (s : buffer_t) :
    buffer_t.write_bytes value amount s = buffer_t.write_array 1 value amount s := rfl

theorem read_bytes_eq (amount : Nat) (s : buffer_t) :
    buffer_t.read_bytes amount s = buffer_t.read_array 1 amount s := rfl

theorem write_array_ok (bytesize : Nat) (value : List byte) (amount : Nat) (s s1 : buffer_t)
    (h : buffer_t.write_array bytesize value amount s = outcome.ok () s1) :
    s.write_data ≠ pointer_t.null ∧
    ∃ s0, buffer_t.write_check ((bytesize * amount) % size_modulus) s = outcome.ok () s0 ∧
      s0.write_data ≠ pointer_t.null ∧
      s0.current_position + (bytesize * amount) % size_modulus
        ≤ (region s0 s0.write_data).length ∧
      s1.current_position
        = (s0.current_position + (bytesize * amount) % size_modulus) % size_modulus ∧
      s1.length = s0.length ∧ s1.owning = s0.owning ∧ s1.is_expandable = s0.is_expandable ∧
      s1.read_data = s0.read_data ∧ s1.write_data = s0.write_data := by
  simp only [buffer_t.write_array] at h
  split at h
  · simp at h
  · rename_i hnull
    refine ⟨hnull, ?_⟩
    split at h
    · simp at h
    · simp at h
    · rename_i u s0 hc
      split at h
      · rename_i hsrc
        split at h
        · simp at h
        · rename_i s2 hst
          have hf := store_fields _ _ _ _ _ hst
          have hr := (store_region _ _ _ _ _ hst).1
          simp only [List.length_take, Nat.min_eq_left hsrc] at hr
          simp only [outcome.ok.injEq, true_and] at h
          subst h
          exact ⟨s0, hc, store_not_null _ _ _ _ _ hst, hr, by simp [hf.2.2.1], hf.2.2.2.1,
            hf.2.2.2.2.1, hf.2.2.2.2.2.1, hf.1, hf.2.1⟩
      · simp at h

/-- What a returning `read` has done. -/
theorem read_integral_ok (T : integral_t) (r : Bool) (s s1 : buffer_t) (v : Int)
    (h : buffer_t.read_integral T r s = outcome.ok v s1) :
    s.read_data ≠ pointer_t.null ∧
    (s.current_position + T.sizeof) % size_modulus < s.length ∧
    s.current_position + T.sizeof ≤ (region s s.read_data).length ∧
    s1 = { s with current_position := (s.current_position + T.sizeof) % size_modulus } := by
  simp only [buffer_t.read_integral] at h
  split at h
  · simp at h
  · rename_i hnull
    split at h
    · simp at h
    · rename_i hlt
      split at h
      · simp at h
      · rename_i bytes hld
        simp only [outcome.ok.injEq] at h
        refine ⟨hnull, by omega, ?_, h.2.symm⟩
        unfold load at hld
        split at hld
        · assumption
        · simp at hld

theorem read_string_ok (amount : Nat) (s s1 : buffer_t) (v : List byte)
    (h : buffer_t.read_string amount s = outcome.ok v s1) :
    s.read_data ≠ pointer_t.null ∧
    (s.current_position + amount) % size_modulus < s.length ∧
    s.current_position + amount ≤ (region s s.read_data).length ∧
    s1 = { s with current_position := (s.current_position + amount) % size_modulus } := by
  simp only [buffer_t.read_string] at h
  split at h
  · simp at h
  · rename_i hnull
    split at h
    · simp at h
    · rename_i hlt
      split at h
      · simp at h
      · rename_i hms
        split at h
        · simp at h
        · rename_i bytes hld
          split at h
          · simp only [outcome.ok.injEq] at h
            refine ⟨hnull, by omega, ?_, h.2.symm⟩
            unfold load at hld
            split at hld
            · assumption
            · simp at hld
          · simp at h

theorem read_array_ok (bytesize amount : Nat) (s s1 : buffer_t) (v : List byte)
    (h : buffer_t.read_array bytesize amount s = outcome.ok v s1) :
    s.read_data ≠ pointer_t.null ∧
    (s.current_position + (bytesize * amount) % size_modulus) % size_modulus < s.length ∧
    s.current_position + (bytesize * amount) % size_modulus ≤ (region s s.read_data).length ∧
    s1 = { s with current_position :=
      (s.current_position + (bytesize * amount) % size_modulus) % size_modulus } := by
  simp only [buffer_t.read_array] at h
  split at h
  · simp at h
  · rename_i hnull
    split at h
    · simp at h
    · rename_i hlt
      split at h
      · simp at h
      · rename_i bytes hld
        simp only [outcome.ok.injEq] at h
        refine ⟨hnull, by omega, ?_, h.2.symm⟩
        unfold load at hld
        split at hld
        · assumption
        · simp at hld

theorem discard_ok {α : Type} (o : outcome α) (s1 : buffer_t)
    (h : o.discard = outcome.ok () s1) : ∃ v, o = outcome.ok v s1 := by
  cases o <;> simp_all [outcome.discard]

theorem wf_region_lt (s : buffer_t) (hwf : s.wf) (p : pointer_t) :
    (region s p).length < size_modulus := by
  obtain ⟨_, h2, h3, h⟩ := hwf
  have hm := max_size_lt
  cases p
  · simp [region, size_modulus]
  · exact h3
  · simp only [region]
    split at h
    · omega
    · rw [h.1]; simp [size_modulus]

theorem read_run_ok (op : operation) (s s1 : buffer_t) (hr : op.is_read = true)
    (h : op.run s = outcome.ok () s1) :
    s.read_data ≠ pointer_t.null ∧
    ∃ m, (op.valid → op.byte_count = some m) ∧
      (s.current_position + m) % size_modulus < s.length ∧
      s.current_position + m ≤ (region s s.read_data).length ∧
      s1 = { s with current_position := (s.current_position + m) % size_modulus } := by
  cases op with
  | read_integral T r =>
    obtain ⟨v, hv⟩ := discard_ok _ _ h
    obtain ⟨h1, h2, h3, h4⟩ := read_integral_ok T r s s1 v hv
    exact ⟨h1, T.sizeof, fun _ => rfl, h2, h3, h4⟩
  | read_string amount =>
    obtain ⟨v, hv⟩ := discard_ok _ _ h
    obtain ⟨h1, h2, h3, h4⟩ := read_string_ok amount s s1 v hv
    exact ⟨h1, amount, fun _ => rfl, h2, h3, h4⟩
  | read_array b amount =>
    obtain ⟨v, hv⟩ := discard_ok _ _ h
    obtain ⟨h1, h2, h3, h4⟩ := read_array_ok b amount s s1 v hv
    exact ⟨h1, _, fun _ => rfl, h2, h3, h4⟩
  | read_bytes amount =>
    obtain ⟨v, hv⟩ := discard_ok _ _ h
    obtain ⟨h1, h2, h3, h4⟩ := read_array_ok 1 amount s s1 v hv
    refine ⟨h1, _, fun hval => ?_, h2, h3, h4⟩
    simp only [operation.valid] at hval
    simp only [operation.byte_count, Nat.one_mul, Nat.mod_eq_of_lt hval]
  | write_integral _ _ _ => simp [operation.is_read] at hr
  | write_string _ _ => simp [operation.is_read] at hr
  | write_array _ _ _ => simp [operation.is_read] at hr
  | write_bytes _ _ => simp [operation.is_read] at hr
  | at_set _ => simp [operation.is_read] at hr
  | resize _ => simp [operation.is_read] at hr
  | expandable _ => simp [operation.is_read] at hr

theorem write_run_ok (op : operation) (s s1 : buffer_t) (hw : op.is_write = true)
    (h : op.run s = outcome.ok () s1) :
    s.write_data ≠ pointer_t.null ∧
    ∃ m s0, (op.valid → op.byte_count = some m) ∧
      buffer_t.write_check m s = outcome.ok () s0 ∧
      s0.write_data ≠ pointer_t.null ∧
      s0.current_position + m ≤ (region s0 s0.write_data).length ∧
      s1.current_position = (s0.current_position + m) % size_modulus ∧
      s1.length = s0.length ∧ s1.owning = s0.owning ∧ s1.is_expandable = s0.is_expandable ∧
      s1.read_data = s0.read_data ∧ s1.write_data = s0.write_data := by
  cases op with
  | write_integral T v r =>
    obtain ⟨h1, s0, h2⟩ := write_integral_ok T v r s s1 h
    exact ⟨h1, T.sizeof, s0, fun _ => rfl, h2⟩
  | write_string v amount =>
    obtain ⟨h1, s0, h2⟩ := write_string_ok v amount s s1 h
    exact ⟨h1, amount, s0, fun _ => rfl, h2⟩
  | write_array b v amount =>
    obtain ⟨h1, s0, h2⟩ := write_array_ok b v amount s s1 h
    exact ⟨h1, _, s0, fun _ => rfl, h2⟩
  | write_bytes v amount =>
    obtain ⟨h1, s0, h2⟩ := write_array_ok 1 v amount s s1 h
    refine ⟨h1, _, s0, fun hval => ?_, h2⟩
    simp only [operation.valid] at hval
    simp only [operation.byte_count, Nat.one_mul, Nat.mod_eq_of_lt hval]
  | read_integral _ _ => simp [operation.is_write] at hw
  | read_string _ => simp [operation.is_write] at hw
  | read_array _ _ => simp [operation.is_write] at hw
  | read_bytes _ => simp [operation.is_write] at hw
  | at_set _ => simp [operation.is_write] at hw
  | resize _ => simp [operation.is_write] at hw
  | expandable _ => simp [operation.is_write] at hw

theorem byte_count_cases (op : operation) (n : Nat) (h : op.byte_count = some n) :
    op.is_read = true ∨ op.is_write = true := by
  cases op <;> simp_all [operation.byte_count, operation.is_read, operation.is_write]

theorem data_ptr_storage (v : vector_t) (h : v.data_ptr ≠ pointer_t.null) :
    v.data_ptr = pointer_t.storage := by
  unfold vector_t.data_ptr at h ⊢
  split
  · rfl
  · rename_i hc
    rw [if_neg hc] at h
    exact absurd rfl h

/-- After the bounds test of a `write` has passed and the copy stayed inside the block, the
span end did not wrap and the cursor is as before the test. -/
theorem write_check_exact (m : Nat) (s s0 : buffer_t) (hwf : s.wf)
    (hc : buffer_t.write_check m s = outcome.ok () s0)
    (hnn : s0.write_data ≠ pointer_t.null)
    (hreg : s0.current_position + m ≤ (region s0 s0.write_data).length) :
    s0.current_position = s.current_position ∧ s.current_position + m < size_modulus ∧
    s.current_position + m ≤ s0.length := by
  have hM := (wf_length_lt _ hwf)
  have hpos := hwf.1
  rcases write_check_ok m s s0 hc with ⟨h1, h2⟩ | ⟨h1, h2, h3, h4⟩
  · subst h1
    have := wf_region_lt s0 hwf s0.write_data
    refine ⟨rfl, by omega, ?_⟩
    rw [Nat.mod_eq_of_lt (by omega)] at h2
    omega
  · obtain ⟨_, _, _, _, hlen, hdl, hp, hwd, _, _⟩ := resize_ok _ _ _ h4
    have hst : s0.write_data = pointer_t.storage := by
      rw [hwd] at hnn ⊢
      exact data_ptr_storage _ hnn
    rw [hst] at hreg
    simp only [region, hdl] at hreg
    have hmod : (s.current_position + m) % size_modulus ≤ s.current_position + m :=
      Nat.mod_le _ _
    have hmlt : (s.current_position + m) % size_modulus < size_modulus :=
      Nat.mod_lt _ (by simp [size_modulus])
    rcases Nat.lt_or_ge (s.current_position + m) size_modulus with hlt | hge
    · rw [Nat.mod_eq_of_lt hlt] at hreg hp hlen
      refine ⟨by omega, hlt, by omega⟩
    · exfalso
      have hm0 : m = 0 := by omega
      subst hm0
      omega

theorem write_check_position (m : Nat) (s s0 : buffer_t)
    (hinv : s.current_position ≤ s.length)
    (hc : buffer_t.write_check m s = outcome.ok () s0) :
    s0.current_position ≤ s0.length := by
  rcases write_check_ok m s s0 hc with ⟨h1, _⟩ | ⟨_, _, _, h4⟩
  · subst h1
    exact hinv
  · obtain ⟨_, _, _, _, hlen, _, hp, _⟩ := resize_ok _ _ _ h4
    rw [hp, hlen]
    exact Nat.min_le_right _ _

theorem step_keeps_position (op : operation) (s t : buffer_t)
    (hinv : s.current_position ≤ s.length) (h : (op.run s).state = some t) :
    t.current_position ≤ t.length := by
  cases hrun : op.run s with
  | undefined => rw [hrun] at h; simp [outcome.state] at h
  | throws e s1 =>
    rw [hrun] at h
    simp only [outcome.state, Option.some.injEq] at h
    subst h
    rcases run_throws_state op s s1 e hrun with h1 | ⟨_, _, v, a, s0, _, _, hc, hst⟩
    · rw [h1]
      exact hinv
    · have hf := store_fields _ _ _ _ _ hst
      rw [hf.2.2.1, hf.2.2.2.1]
      exact write_check_position a s s0 hinv hc
  | ok u s1 =>
    rw [hrun] at h
    simp only [outcome.state, Option.some.injEq] at h
    subst h
    by_cases hr : op.is_read = true
    · obtain ⟨_, m, _, hlt, _, hs1⟩ := read_run_ok op s s1 hr hrun
      subst hs1
      exact Nat.le_of_lt hlt
    · by_cases hw : op.is_write = true
      · obtain ⟨_, m, s0, _, hc, hnn, hreg, hp, hl, _⟩ := write_run_ok op s s1 hw hrun
        rw [hp, hl]
        rcases write_check_ok m s s0 hc with ⟨h1, h2⟩ | ⟨h1, h2, h3, h4⟩
        · subst h1
          exact Nat.le_of_lt h2
        · obtain ⟨_, _, _, _, hlen, hdl, _, hwd, _, _⟩ := resize_ok _ _ _ h4
          have hst : s0.write_data = pointer_t.storage := by
            rw [hwd] at hnn ⊢
            exact data_ptr_storage _ hnn
          rw [hst] at hreg
          simp only [region, hdl] at hreg
          rw [hlen]
          exact Nat.le_trans (Nat.mod_le _ _) hreg
      · cases op with
        | at_set p =>
          simp only [operation.run, buffer_t.at_set] at hrun
          split at hrun
          · simp at hrun
          · simp only [outcome.ok.injEq, true_and] at hrun
            subst hrun
            simp only
            omega
        | resize k =>
          obtain ⟨_, _, _, _, hlen, _, hp, _⟩ := resize_ok k s s1 hrun
          rw [hp, hlen]
          exact Nat.min_le_right _ _
        | expandable b =>
          simp only [operation.run, buffer_t.expandable, outcome.ok.injEq, true_and] at hrun
          subst hrun
          exact hinv
        | read_integral _ _ => simp [operation.is_read] at hr
        | read_string _ => simp [operation.is_read] at hr
        | read_array _ _ => simp [operation.is_read] at hr
        | read_bytes _ => simp [operation.is_read] at hr
        | write_integral _ _ _ => simp [operation.is_write] at hw
        | write_string _ _ => simp [operation.is_write] at hw
        | write_array _ _ _ => simp [operation.is_write] at hw
        | write_bytes _ _ => simp [operation.is_write] at hw

/-- C6: position invariant. In every state reachable from one of the four constructors by
a finite sequence of reads, writes, `at(pos)`, `resize(size)` and `expandable(flag)` calls,
returning or throwing, `position <= length` holds. -/
theorem position_le_length (s : buffer_t) (h : reachable s) :
    s.current_position ≤ s.length := by
  induction h with
  | default_ctor => simp [buffer_t.default_ctor]
  | const_ctor ptr size consume s hs =>
    unfold buffer_t.const_ctor at hs
    split at hs
    · simp at hs
    · split at hs
      · simp at hs
      · split at hs
        · split at hs
          · simp only [construction.ok.injEq] at hs
            subst hs
            simp [buffer_t.default_ctor]
          · split at hs <;> simp at hs
        · simp only [construction.ok.injEq] at hs
          subst hs
          simp [buffer_t.default_ctor]
  | mutable_ctor ptr size consume s hs =>
    unfold buffer_t.mutable_ctor at hs
    split at hs
    · simp at hs
    · split at hs
      · simp at hs
      · split at hs
        · split at hs
          · simp only [construction.ok.injEq] at hs
            subst hs
            simp [buffer_t.default_ctor]
          · split at hs <;> simp at hs
        · simp only [construction.ok.injEq] at hs
          subst hs
          simp [buffer_t.default_ctor]
  | sized_ctor size s hs =>
    unfold buffer_t.sized_ctor at hs
    split at hs
    · simp at hs
    · simp only [construction.ok.injEq] at hs
      subst hs
      simp [buffer_t.default_ctor]
  | call op s t _ hstep ih => exact step_keeps_position op s t ih hstep

/-- C5: cursor accounting. In every consistent buffer state `remaining() == size() - at()`,
and every returning read or write that transfers `n` bytes (`sizeof(T)` for the integral
forms, `amount` for the text and raw forms, the `std::size_t` product
`sizeof(element) * amount` for the typed-array forms) leaves `at()` at its previous value
plus exactly `n`. -/
theorem cursor_accounting (s : buffer_t) (hwf : s.wf) :
    s.remaining = s.size - s.at_const ∧
    ∀ (op : operation) (n : Nat) (s1 : buffer_t), op.valid → op.byte_count = some n →
      op.run s = outcome.ok () s1 → s1.at_const = s.at_const + n := by
  have hM := (wf_length_lt _ hwf)
  have hpos := hwf.1
  constructor
  · simp only [buffer_t.remaining, buffer_t.size, buffer_t.at_const]
    have : s.length + size_modulus - s.current_position
        = (s.length - s.current_position) + size_modulus := by omega
    rw [this, Nat.add_mod_right, Nat.mod_eq_of_lt (by omega)]
  · intro op n s1 hval hn hrun
    simp only [buffer_t.at_const]
    rcases byte_count_cases op n hn with hr | hw
    · obtain ⟨_, m, hm, hlt, hreg, hs1⟩ := read_run_ok op s s1 hr hrun
      have hmn : m = n := by
        have := hm hval
        rw [hn] at this
        exact (Option.some.inj this).symm
      subst hmn
      have := wf_region_lt s hwf s.read_data
      subst hs1
      simp only
      rw [Nat.mod_eq_of_lt (by omega)]
    · obtain ⟨_, m, s0, hm, hc, hnn, hreg, hp, _⟩ := write_run_ok op s s1 hw hrun
      have hmn : m = n := by
        have := hm hval
        rw [hn] at this
        exact (Option.some.inj this).symm
      subst hmn
      obtain ⟨h1, h2, _⟩ := write_check_exact m s s0 hwf hc hnn hreg
      rw [hp, h1, Nat.mod_eq_of_lt h2]

theorem wf_read_region (s : buffer_t) (hwf : s.wf) (hnn : s.read_data ≠ pointer_t.null) :
    s.length ≤ (region s s.read_data).length := by
  obtain ⟨_, _, _, h⟩ := hwf
  split at h
  · obtain ⟨h1, _, h3, _⟩ := h
    rw [h1] at hnn
    rw [h1, data_ptr_storage _ hnn]
    simp only [region]
    omega
  · obtain ⟨_, _, _, h4⟩ := h
    rcases h4 with ⟨h5, _⟩ | ⟨h5, h6⟩
    · exact absurd h5 hnn
    · rw [h5]
      exact h6

theorem load_some (s : buffer_t) (p : pointer_t) (off n : Nat)
    (h : off + n ≤ (region s p).length) :
    load s p off n = some (((region s p).drop off).take n) := by
  unfold load
  rw [if_pos h]

theorem write_throws_iff (op : operation) (s s1 : buffer_t) (e : exception_t)
    (hw : op.is_write = true) (hnn : s.write_data ≠ pointer_t.null)
    (he : e ≠ exception_t.length_error) :
    ∃ m, (op.valid → op.byte_count = some m) ∧
      (op.run s = outcome.throws e s1 ↔ buffer_t.write_check m s = outcome.throws e s1) := by
  cases op with
  | write_integral T v r =>
    refine ⟨T.sizeof, fun _ => rfl, ?_⟩
    simp only [operation.run, buffer_t.write_integral, if_neg hnn]
    cases hc : buffer_t.write_check T.sizeof s with
    | throws e2 s2 => simp
    | undefined => simp
    | ok u s0 =>
      simp only
      split <;> simp
  | write_string v amount =>
    refine ⟨amount, fun _ => rfl, ?_⟩
    simp only [operation.run, buffer_t.write_string, if_neg hnn]
    cases hc : buffer_t.write_check amount s with
    | throws e2 s2 => simp
    | undefined => simp
    | ok u s0 =>
      simp only
      split
      · simp
      · split
        · rename_i e2 s2 heq
          have he2 : e2 = exception_t.length_error := by
            split at heq
            · exact (store_zeros_throws _ _ _ _ _ _ heq).2.1
            · simp at heq
          simp only [outcome.throws.injEq, reduceCtorEq, iff_false, not_and]
          intro h
          rw [← h] at he
          exact absurd he2 he
        · simp
        · simp
  | write_array b v amount =>
    refine ⟨_, fun _ => rfl, ?_⟩
    simp only [operation.run, buffer_t.write_array, if_neg hnn]
    cases hc : buffer_t.write_check ((b * amount) % size_modulus) s with
    | throws e2 s2 => simp
    | undefined => simp
    | ok u s0 =>
      simp only
      split
      · split <;> simp
      · simp
  | write_bytes v amount =>
    refine ⟨(1 * amount) % size_modulus, fun hval => ?_, ?_⟩
    · simp only [operation.valid] at hval
      simp only [operation.byte_count, Nat.one_mul, Nat.mod_eq_of_lt hval]
    · simp only [operation.run, buffer_t.write_bytes, if_neg hnn]
      cases hc : buffer_t.write_check ((1 * amount) % size_modulus) s with
      | throws e2 s2 => simp
      | undefined => simp
      | ok u s0 =>
        simp only
        split
        · split <;> simp
        · simp
  | read_integral _ _ => simp [operation.is_write] at hw
  | read_string _ => simp [operation.is_write] at hw
  | read_array _ _ => simp [operation.is_write] at hw
  | read_bytes _ => simp [operation.is_write] at hw
  | at_set _ => simp [operation.is_write] at hw
  | resize _ => simp [operation.is_write] at hw
  | expandable _ => simp [operation.is_write] at hw

theorem write_null (op : operation) (s : buffer_t) (hw : op.is_write = true)
    (hnull : s.write_data = pointer_t.null) :
    op.run s = outcome.throws exception_t.runtime_error s := by
  cases op with
  | write_integral T v r => simp only [operation.run, buffer_t.write_integral, if_pos hnull]
  | write_string v amount => simp only [operation.run, buffer_t.write_string, if_pos hnull]
  | write_array b v amount => simp only [operation.run, buffer_t.write_array, if_pos hnull]
  | write_bytes v amount => simp only [operation.run, buffer_t.write_bytes, if_pos hnull]
  | read_integral _ _ => simp [operation.is_write] at hw
  | read_string _ => simp [operation.is_write] at hw
  | read_array _ _ => simp [operation.is_write] at hw
  | read_bytes _ => simp [operation.is_write] at hw
  | at_set _ => simp [operation.is_write] at hw
  | resize _ => simp [operation.is_write] at hw
  | expandable _ => simp [operation.is_write] at hw

theorem read_null (op : operation) (s : buffer_t) (hr : op.is_read = true)
    (hnull : s.read_data = pointer_t.null) :
    op.run s = outcome.throws exception_t.runtime_error s := by
  cases op with
  | read_integral T r =>
    simp only [operation.run, buffer_t.read_integral, if_pos hnull, outcome.discard]
  | read_string amount =>
    simp only [operation.run, buffer_t.read_string, if_pos hnull, outcome.discard]
  | read_array b amount =>
    simp only [operation.run, buffer_t.read_array, if_pos hnull, outcome.discard]
  | read_bytes amount =>
    simp only [operation.run, buffer_t.read_bytes, if_pos hnull, outcome.discard]
  | write_integral _ _ _ => simp [operation.is_read] at hr
  | write_string _ _ => simp [operation.is_read] at hr
  | write_array _ _ _ => simp [operation.is_read] at hr
  | write_bytes _ _ => simp [operation.is_read] at hr
  | at_set _ => simp [operation.is_read] at hr
  | resize _ => simp [operation.is_read] at hr
  | expandable _ => simp [operation.is_read] at hr

theorem read_array_checked (b amount : Nat) (s : buffer_t)
    (hnn : s.read_data ≠ pointer_t.null) :
    ((s.current_position + (b * amount) % size_modulus) % size_modulus ≥ s.length →
      buffer_t.read_array b amount s = outcome.throws exception_t.out_of_range s) ∧
    ((s.current_position + (b * amount) % size_modulus) % size_modulus < s.length →
      s.current_position + (b * amount) % size_modulus ≤ (region s s.read_data).length →
      ∃ v, buffer_t.read_array b amount s = outcome.ok v
        { s with current_position :=
          (s.current_position + (b * amount) % size_modulus) % size_modulus }) ∧
    ((s.current_position + (b * amount) % size_modulus) % size_modulus < s.length →
      ¬ s.current_position + (b * amount) % size_modulus ≤ (region s s.read_data).length →
      buffer_t.read_array b amount s = outcome.undefined) := by
  refine ⟨?_, ?_, ?_⟩
  · intro h
    simp only [buffer_t.read_array, if_neg hnn, if_pos h]
  · intro h h2
    simp only [buffer_t.read_array, if_neg hnn, if_neg (Nat.not_le.mpr h),
      load_some _ _ _ _ h2]
    exact ⟨_, rfl⟩
  · intro h h2
    simp only [buffer_t.read_array, if_neg hnn, if_neg (Nat.not_le.mpr h), load, if_neg h2]

theorem read_integral_checked (T : integral_t) (r : Bool) (s : buffer_t)
    (hnn : s.read_data ≠ pointer_t.null) :
    ((s.current_position + T.sizeof) % size_modulus ≥ s.length →
      buffer_t.read_integral T r s = outcome.throws exception_t.out_of_range s) ∧
    ((s.current_position + T.sizeof) % size_modulus < s.length →
      s.current_position + T.sizeof ≤ (region s s.read_data).length →
      ∃ v, buffer_t.read_integral T r s = outcome.ok v
        { s with current_position := (s.current_position + T.sizeof) % size_modulus }) ∧
    ((s.current_position + T.sizeof) % size_modulus < s.length →
      ¬ s.current_position + T.sizeof ≤ (region s s.read_data).length →
      buffer_t.read_integral T r s = outcome.undefined) := by
  refine ⟨?_, ?_, ?_⟩
  · intro h
    simp only [buffer_t.read_integral, if_neg hnn, if_pos h]
  · intro h h2
    simp only [buffer_t.read_integral, if_neg hnn, if_neg (Nat.not_le.mpr h),
      load_some _ _ _ _ h2]
    exact ⟨_, rfl⟩
  · intro h h2
    simp only [buffer_t.read_integral, if_neg hnn, if_neg (Nat.not_le.mpr h), load, if_neg h2]

theorem read_string_checked (amount : Nat) (s : buffer_t)
    (hnn : s.read_data ≠ pointer_t.null) :
    ((s.current_position + amount) % size_modulus ≥ s.length →
      buffer_t.read_string amount s = outcome.throws exception_t.out_of_range s) ∧
    ((s.current_position + amount) % size_modulus < s.length →
      s.current_position + amount ≤ (region s s.read_data).length →
      (region s s.read_data).length < size_modulus → s.length ≤ max_size →
      ∃ v, buffer_t.read_string amount s = outcome.ok v
        { s with current_position := (s.current_position + amount) % size_modulus }) ∧
    ((s.current_position + amount) % size_modulus < s.length →
      ¬ s.current_position + amount ≤ (region s s.read_data).length →
      buffer_t.read_string amount s = outcome.undefined ∨
      buffer_t.read_string amount s = outcome.throws exception_t.length_error s) := by
  refine ⟨?_, ?_, ?_⟩
  · intro h
    simp only [buffer_t.read_string, if_neg hnn, if_pos h]
  · intro h h2 h3 hL
    have hm := max_size_lt
    have hmod : (s.current_position + amount) % size_modulus = s.current_position + amount :=
      Nat.mod_eq_of_lt (by omega)
    rw [hmod] at h
    have hone : (amount + 1) % size_modulus = amount + 1 := Nat.mod_eq_of_lt (by omega)
    have hfit : amount ≤ (List.replicate ((amount + 1) % size_modulus) (0 : byte)).length := by
      rw [List.length_replicate, hone]
      omega
    have hms : ¬ (amount + 1) % size_modulus > max_size := by
      rw [hone]
      omega
    simp only [buffer_t.read_string, if_neg hnn, hmod, if_neg (Nat.not_le.mpr h),
      if_neg hms, load_some _ _ _ _ h2, if_pos hfit]
    exact ⟨_, rfl⟩
  · intro h h2
    by_cases hms : (amount + 1) % size_modulus > max_size
    · right
      simp only [buffer_t.read_string, if_neg hnn, if_neg (Nat.not_le.mpr h), if_pos hms]
    · left
      simp only [buffer_t.read_string, if_neg hnn, if_neg (Nat.not_le.mpr h), if_neg hms,
        load, if_neg h2]

/-- The outcome of a `read` on a buffer with a read pointer, by the two sides of its test. -/
theorem read_checked (op : operation) (s : buffer_t) (hr : op.is_read = true)
    (hnn : s.read_data ≠ pointer_t.null) :
    ∃ m, (op.valid → op.byte_count = some m) ∧
      ((s.current_position + m) % size_modulus ≥ s.length →
        op.run s = outcome.throws exception_t.out_of_range s) ∧
      ((s.current_position + m) % size_modulus < s.length →
        s.current_position + m ≤ (region s s.read_data).length →
        (region s s.read_data).length < size_modulus → s.length ≤ max_size →
        op.run s = outcome.ok ()
          { s with current_position := (s.current_position + m) % size_modulus }) ∧
      ((s.current_position + m) % size_modulus < s.length →
        ¬ s.current_position + m ≤ (region s s.read_data).length →
        op.run s = outcome.undefined ∨
        op.run s = outcome.throws exception_t.length_error s) := by
  cases op with
  | read_integral T r =>
    obtain ⟨h1, h2, h3⟩ := read_integral_checked T r s hnn
    refine ⟨T.sizeof, fun _ => rfl, ?_, ?_, ?_⟩
    · intro h
      simp only [operation.run, h1 h, outcome.discard]
    · intro h h4 _ _
      obtain ⟨v, hv⟩ := h2 h h4
      simp only [operation.run, hv, outcome.discard]
    · intro h h4
      left
      simp only [operation.run, h3 h h4, outcome.discard]
  | read_string amount =>
    obtain ⟨h1, h2, h3⟩ := read_string_checked amount s hnn
    refine ⟨amount, fun _ => rfl, ?_, ?_, ?_⟩
    · intro h
      simp only [operation.run, h1 h, outcome.discard]
    · intro h h4 h5 h6
      obtain ⟨v, hv⟩ := h2 h h4 h5 h6
      simp only [operation.run, hv, outcome.discard]
    · intro h h4
      rcases h3 h h4 with h5 | h5
      · left
        simp only [operation.run, h5, outcome.discard]
      · right
        simp only [operation.run, h5, outcome.discard]
  | read_array b amount =>
    obtain ⟨h1, h2, h3⟩ := read_array_checked b amount s hnn
    refine ⟨_, fun _ => rfl, ?_, ?_, ?_⟩
    · intro h
      simp only [operation.run, h1 h, outcome.discard]
    · intro h h4 _ _
      obtain ⟨v, hv⟩ := h2 h h4
      simp only [operation.run, hv, outcome.discard]
    · intro h h4
      left
      simp only [operation.run, h3 h h4, outcome.discard]
  | read_bytes amount =>
    obtain ⟨h1, h2, h3⟩ := read_array_checked 1 amount s hnn
    refine ⟨(1 * amount) % size_modulus, fun hval => ?_, ?_, ?_, ?_⟩
    · simp only [operation.valid] at hval
      simp only [operation.byte_count, Nat.one_mul, Nat.mod_eq_of_lt hval]
    · intro h
      simp only [operation.run, read_bytes_eq, h1 h, outcome.discard]
    · intro h h4 _ _
      obtain ⟨v, hv⟩ := h2 h h4
      simp only [operation.run, read_bytes_eq, hv, outcome.discard]
    · intro h h4
      left
      simp only [operation.run, read_bytes_eq, h3 h h4, outcome.discard]
  | write_integral _ _ _ => simp [operation.is_read] at hr
  | write_string _ _ => simp [operation.is_read] at hr
  | write_array _ _ _ => simp [operation.is_read] at hr
  | write_bytes _ _ => simp [operation.is_read] at hr
  | at_set _ => simp [operation.is_read] at hr
  | resize _ => simp [operation.is_read] at hr
  | expandable _ => simp [operation.is_read] at hr

theorem write_check_throws_of (n : Nat) (s : buffer_t)
    (h1 : (s.current_position + n) % size_modulus ≥ s.length)
    (h2 : ¬ (s.owning = true ∧ s.is_expandable = true)) :
    buffer_t.write_check n s = outcome.throws exception_t.out_of_range s := by
  simp only [buffer_t.write_check, if_pos h1]
  rw [if_neg]
  simpa using h2

/-- Reads whose span end is representable in `std::size_t` obey the bound of the test: the
call throws `std::out_of_range` exactly when `position + n >= length`, and returns exactly
when `position + n < length`. -/
theorem read_bounds_of_representable (op : operation) (s : buffer_t) (n : Nat)
    (hwf : s.wf) (hr : op.is_read = true) (hval : op.valid) (hn : op.byte_count = some n)
    (hnn : s.read_data ≠ pointer_t.null) (hrep : s.current_position + n < size_modulus) :
    (op.run s = outcome.throws exception_t.out_of_range s ↔ s.length ≤ s.current_position + n) ∧
    ((∃ s1, op.run s = outcome.ok () s1) ↔ s.current_position + n < s.length) := by
  obtain ⟨m, hm, h1, h2, _⟩ := read_checked op s hr hnn
  have hmn : m = n := by
    have := hm hval
    rw [hn] at this
    exact (Option.some.inj this).symm
  subst hmn
  rw [Nat.mod_eq_of_lt hrep] at h1 h2
  rcases Nat.lt_or_ge (s.current_position + m) s.length with hlt | hge
  · have hreg := wf_read_region s hwf hnn
    have hrun := h2 hlt (by omega) (wf_region_lt s hwf _) hwf.2.1
    rw [hrun]
    constructor
    · constructor
      · intro h; simp at h
      · intro h; omega
    · constructor
      · intro _; exact hlt
      · intro _; exact ⟨_, rfl⟩
  · rw [h1 hge]
    constructor
    · constructor
      · intro _; exact hge
      · intro _; rfl
    · constructor
      · intro ⟨s1, h⟩; simp at h
      · intro h; omega

/-- Writes whose span end is representable in `std::size_t` obey the bound of the test: the
call throws `std::out_of_range`, leaving the object as it was, exactly when
`position + n >= length` and the buffer is not both owning and expandable. -/
theorem write_bounds_of_representable (op : operation) (s : buffer_t) (n : Nat)
    (hw : op.is_write = true) (hval : op.valid) (hn : op.byte_count = some n)
    (hnn : s.write_data ≠ pointer_t.null) (hrep : s.current_position + n < size_modulus) :
    op.run s = outcome.throws exception_t.out_of_range s ↔
      (s.length ≤ s.current_position + n ∧ ¬ (s.owning = true ∧ s.is_expandable = true)) := by
  obtain ⟨m, hm, hiff⟩ :=
    write_throws_iff op s s exception_t.out_of_range hw hnn (by decide)
  have hmn : m = n := by
    have := hm hval
    rw [hn] at this
    exact (Option.some.inj this).symm
  subst hmn
  rw [hiff]
  constructor
  · intro h
    obtain ⟨_, h3, h4⟩ := write_check_throws _ _ _ _ h
    rw [Nat.mod_eq_of_lt hrep] at h3
    rcases h4 with ⟨_, h5⟩ | ⟨h5, _⟩
    · exact ⟨h3, h5⟩
    · exact absurd h5 (by decide)
  · intro ⟨h3, h4⟩
    exact write_check_throws_of m s (by rw [Nat.mod_eq_of_lt hrep]; exact h3) h4

/-- C7: seek. `at(pos)` returns if and only if `pos <= length`; when it returns, `at()` is
`pos` and size, contents and both flags are unchanged; when `pos > length` it throws
`std::out_of_range` and leaves the object as it was; seeking to exactly `length` returns. -/
theorem seek_spec (s : buffer_t) (position : Nat) :
    ((∃ s1, buffer_t.at_set position s = outcome.ok () s1) ↔ position ≤ s.length) ∧
    (position ≤ s.length →
      ∃ s1, buffer_t.at_set position s = outcome.ok () s1 ∧ s1.at_const = position ∧
        s1.size = s.size ∧ s1.contents = s.contents ∧ s1.owning = s.owning ∧
        s1.expandaable = s.expandaable) ∧
    (s.length < position →
      buffer_t.at_set position s = outcome.throws exception_t.out_of_range s) ∧
    (∃ s1, buffer_t.at_set s.length s = outcome.ok () s1 ∧ s1.at_const = s.length) := by
  have hok : ∀ p, p ≤ s.length →
      buffer_t.at_set p s = outcome.ok () { s with current_position := p } := by
    intro p hp
    simp only [buffer_t.at_set]
    rw [if_neg (by omega)]
  have hbad : ∀ p, s.length < p →
      buffer_t.at_set p s = outcome.throws exception_t.out_of_range s := by
    intro p hp
    simp only [buffer_t.at_set]
    rw [if_pos (by omega)]
  refine ⟨⟨?_, fun h => ⟨_, hok _ h⟩⟩, fun h => ⟨_, hok _ h, rfl, rfl, rfl, rfl, rfl⟩, hbad _,
    ⟨_, hok _ (Nat.le_refl _), rfl⟩⟩
  intro ⟨s1, h⟩
  by_contra hc
  rw [hbad _ (by omega)] at h
  simp at h

/-- C8 (amended): no transfer starts at the one-past-end position, except a growing write.
For every buffer whose position equals its length and every read or write of `n` bytes with
`position + n` inside the `std::size_t` range, the call throws and leaves the object as it
was, unless the call is a write and the buffer is both owning and expandable. -/
theorem no_transfer_at_end (s : buffer_t) (op : operation) (n : Nat)
    (hend : s.current_position = s.length) (hval : op.valid) (hn : op.byte_count = some n)
    (hrep : s.current_position + n < size_modulus)
    (hgrow : op.is_write = true → ¬ (s.owning = true ∧ s.is_expandable = true)) :
    ∃ e, op.run s = outcome.throws e s := by
  rcases byte_count_cases op n hn with hr | hw
  · by_cases hnull : s.read_data = pointer_t.null
    · exact ⟨_, read_null op s hr hnull⟩
    · obtain ⟨m, hm, h1, _⟩ := read_checked op s hr hnull
      have hmn : m = n := by
        have := hm hval
        rw [hn] at this
        exact (Option.some.inj this).symm
      subst hmn
      exact ⟨_, h1 (by rw [Nat.mod_eq_of_lt hrep]; omega)⟩
  · by_cases hnull : s.write_data = pointer_t.null
    · exact ⟨_, write_null op s hw hnull⟩
    · exact ⟨_, (write_bounds_of_representable op s n hw hval hn hnull hrep).mpr
        ⟨by omega, hgrow hw⟩⟩

/-- C10: resize of a non-owning buffer. For every non-owning buffer and every `new_size`,
`resize(new_size)` throws `std::runtime_error`, the object is as it was and `size()` is
unchanged; the default-constructed buffer and the views built with `consume = false` are
non-owning. -/
theorem resize_non_owning :
    (∀ (s : buffer_t) (new_size : Nat), s.owning = false →
      buffer_t.resize new_size s = outcome.throws exception_t.runtime_error s ∧
      ∀ t, (buffer_t.resize new_size s).state = some t → t.size = s.size) ∧
    buffer_t.default_ctor.owning = false ∧
    (∀ (ptr : Option (List byte)) (size : Nat) (s : buffer_t),
      buffer_t.const_ctor ptr size false = construction.ok s → s.owning = false) ∧
    (∀ (ptr : Option (List byte)) (size : Nat) (s : buffer_t),
      buffer_t.mutable_ctor ptr size false = construction.ok s → s.owning = false) := by
  refine ⟨?_, rfl, ?_, ?_⟩
  · intro s new_size h
    have hr : buffer_t.resize new_size s = outcome.throws exception_t.runtime_error s := by
      simp only [buffer_t.resize, h, Bool.not_false, if_true]
    refine ⟨hr, ?_⟩
    intro t ht
    rw [hr] at ht
    simp only [outcome.state, Option.some.injEq] at ht
    rw [ht]
  · intro ptr size s h
    unfold buffer_t.const_ctor at h
    split at h
    · simp at h
    · split at h
      · simp at h
      · simp only [Bool.false_eq_true, if_false, construction.ok.injEq] at h
        subst h
        rfl
  · intro ptr size s h
    unfold buffer_t.mutable_ctor at h
    split at h
    · simp at h
    · split at h
      · simp at h
      · simp only [Bool.false_eq_true, if_false, construction.ok.injEq] at h
        subst h
        rfl

theorem wf_owning_contents (s : buffer_t) (hwf : s.wf) (hown : s.owning = true) :
    s.contents = s.data.elems ∧ s.data.elems.length = s.length := by
  obtain ⟨_, _, _, h⟩ := hwf
  rw [if_pos hown] at h
  obtain ⟨h1, _, h3, h4⟩ := h
  refine ⟨?_, h3.symm⟩
  unfold buffer_t.contents
  rw [h1]
  unfold vector_t.data_ptr
  split
  · simp only [region]
    rw [h3, List.take_length]
  · rename_i hc
    have : s.data.elems = [] := by
      by_contra hne
      exact hc (h4 hne)
    simp [region, this]

theorem resize_contents (s s1 : buffer_t) (k : Nat)
    (h : buffer_t.resize k s = outcome.ok () s1) :
    s1.contents = s.data.elems.take k ++ List.replicate (k - s.data.elems.length) 0 := by
  obtain ⟨_, _, _, hd, hlen, hdl, _, _, hrd, _⟩ := resize_ok k s s1 h
  obtain ⟨hel, hcap⟩ := resize_data k s s1 h
  unfold buffer_t.contents
  rw [hrd, hlen]
  unfold vector_t.data_ptr
  split
  · simp only [region]
    rw [← hel, List.take_of_length_le (by omega)]
  · rename_i hc
    have hk : k = 0 := by
      by_contra hne
      apply hc
      rw [hcap]
      simp only [Bool.or_eq_true, decide_eq_true_eq]
      exact Or.inr (Nat.pos_of_ne_zero hne)
    subst hk
    simp [region]

/-- C9 (amended): resize of an owning buffer. For every consistent owning buffer with length
`L`, position `p` and contents `b`, and every `new_size` up to the vector's `max_size()`,
`resize(new_size)` returns; afterwards `size() == new_size`, byte `i` equals `b[i]` for
`i < min(L, new_size)`, byte `i` is zero for `L <= i < new_size`, the position is
`min(p, new_size)`, and the owning and expandable flags are unchanged. -/
theorem resize_owning (s : buffer_t) (new_size : Nat) (hwf : s.wf) (hown : s.owning = true)
    (hsize : new_size ≤ max_size) :
    ∃ s1, buffer_t.resize new_size s = outcome.ok () s1 ∧ s1.size = new_size ∧
      s1.contents.length = new_size ∧
      (∀ i, i < min s.length new_size → s1.contents[i]? = s.contents[i]?) ∧
      (∀ i, s.length ≤ i → i < new_size → s1.contents[i]? = some 0) ∧
      s1.at_const = min s.at_const new_size ∧
      s1.owning = s.owning ∧ s1.expandaable = s.expandaable := by
  have hrun : ∃ s1, buffer_t.resize new_size s = outcome.ok () s1 := by
    simp only [buffer_t.resize, hown, Bool.not_true, Bool.false_eq_true, if_false,
      vector_resize_of_le _ _ hsize]
    exact ⟨_, rfl⟩
  obtain ⟨s1, h⟩ := hrun
  obtain ⟨hc, hl⟩ := wf_owning_contents s hwf hown
  have hc1 := resize_contents s s1 new_size h
  obtain ⟨_, ho, he, _, hlen, _, hp, _⟩ := resize_ok new_size s s1 h
  refine ⟨s1, h, hlen, ?_, ?_, ?_, hp, ?_, he⟩
  · rw [hc1, List.length_append, List.length_take, List.length_replicate]
    omega
  · intro i hi
    rw [hc1, hc]
    rw [List.getElem?_append_left (by rw [List.length_take]; omega)]
    rw [List.getElem?_take_of_lt (by omega)]
  · intro i h1 h2
    rw [hc1]
    rw [List.getElem?_append_right (by rw [List.length_take]; omega)]
    rw [List.getElem?_replicate]
    rw [if_pos (by rw [List.length_take]; omega)]
  · rw [ho, hown]

theorem splice_splice (mem a b : List byte) (off : Nat)
    (h : off + a.length ≤ mem.length) :
    splice (splice mem off a) (off + a.length) b = splice mem off (a ++ b) := by
  have h1 : (mem.take off).length = off := by
    rw [List.length_take]; omega
  have h2 : (mem.take off ++ a).length = off + a.length := by
    rw [List.length_append, h1]
  unfold splice
  rw [List.take_left' h2]
  rw [show off + a.length + b.length = (mem.take off ++ a).length + b.length by rw [h2]]
  rw [List.drop_append, List.drop_drop, List.length_append]
  simp only [List.append_assoc]
  rw [Nat.add_assoc]

theorem store_append (s s2 s3 : buffer_t) (p : pointer_t) (off : Nat) (a b : List byte)
    (h1 : store s p off a = some s2) (h2 : store s2 p (off + a.length) b = some s3) :
    store s p off (a ++ b) = some s3 := by
  have hr1 := store_region _ _ _ _ _ h1
  have hr2 := store_region _ _ _ _ _ h2
  have hl := store_region_length _ _ _ p _ _ h1
  unfold store at h1 h2 ⊢
  rw [if_pos hr1.1] at h1
  rw [if_pos hr2.1] at h2
  rw [if_pos (by rw [List.length_append]; omega)]
  cases p with
  | null => simp at h1
  | caller =>
    simp only [Option.some.injEq] at h1 h2 ⊢
    subst h1
    subst h2
    simp only [region] at hr1
    simp only [splice_splice _ _ _ _ hr1.1]
  | storage =>
    simp only [Option.some.injEq] at h1 h2 ⊢
    subst h1
    subst h2
    simp only [region] at hr1
    simp only [splice_splice _ _ _ _ hr1.1]

/-- The bytes a `write` call stores at the cursor. -/
theorem write_run_stores (op : operation) (s s1 : buffer_t) (hw : op.is_write = true)
    (h : op.run s = outcome.ok () s1) :
    ∃ m s0 s2 bytes, (op.valid → op.byte_count = some m) ∧
      buffer_t.write_check m s = outcome.ok () s0 ∧ bytes.length = m ∧
      store s0 s0.write_data s0.current_position bytes = some s2 ∧
      s1 = { s2 with current_position := (s2.current_position + m) % size_modulus } := by
  cases op with
  | write_integral T v r =>
    simp only [operation.run, buffer_t.write_integral] at h
    split at h
    · simp at h
    · split at h
      · simp at h
      · simp at h
      · rename_i u s0 hc
        split at h
        · simp at h
        · rename_i s2 hst
          simp only [outcome.ok.injEq, true_and] at h
          refine ⟨T.sizeof, s0, s2, _, fun _ => rfl, hc, ?_, hst, h.symm⟩
          split <;> simp [object_bytes, le_bytes_length]
  | write_string value amount =>
    simp only [operation.run, buffer_t.write_string] at h
    have hw1 : (if amount > value.length then value.length else amount) ≤ amount := by
      split <;> omega
    have hw2 : (if amount > value.length then value.length else amount) ≤ value.length := by
      split <;> omega
    generalize (if amount > value.length then value.length else amount) = writesize
      at h hw1 hw2
    split at h
    · simp at h
    · split at h
      · simp at h
      · simp at h
      · rename_i u s0 hc
        split at h
        · simp at h
        · rename_i s2 hst
          have hf := store_fields _ _ _ _ _ hst
          split at h
          · simp at h
          · simp at h
          · rename_i u3 s3 hst3
            simp only [outcome.ok.injEq, true_and] at h
            have htl : (value.take writesize).length = writesize := by
              rw [List.length_take]; omega
            by_cases hlt : writesize < amount
            · rw [if_pos hlt] at hst3
              have hz := store_zeros_eq _ _ _ _ _ _ hst3
              rw [hf.2.1, hf.2.2.1] at hz
              have hz2 : store s2 s0.write_data
                  (s0.current_position + (value.take writesize).length)
                  (List.replicate (amount - writesize) (0 : byte)) = some s3 := by
                rw [htl]; exact hz
              have hcomb := store_append _ _ _ _ _ _ _ hst hz2
              refine ⟨amount, s0, s3, _, fun _ => rfl, hc, ?_, hcomb, h.symm⟩
              rw [List.length_append, htl, List.length_replicate]
              omega
            · rw [if_neg hlt] at hst3
              simp only [outcome.ok.injEq, true_and] at hst3
              subst hst3
              refine ⟨amount, s0, s2, _, fun _ => rfl, hc, ?_, hst, h.symm⟩
              rw [htl]; omega
  | write_array b value amount =>
    simp only [operation.run, buffer_t.write_array] at h
    split at h
    · simp at h
    · split at h
      · simp at h
      · simp at h
      · rename_i u s0 hc
        split at h
        · rename_i hsrc
          split at h
          · simp at h
          · rename_i s2 hst
            simp only [outcome.ok.injEq, true_and] at h
            refine ⟨_, s0, s2, _, fun _ => rfl, hc, ?_, hst, h.symm⟩
            rw [List.length_take]; omega
        · simp at h
  | write_bytes value amount =>
    simp only [operation.run, buffer_t.write_bytes] at h
    split at h
    · simp at h
    · split at h
      · simp at h
      · simp at h
      · rename_i u s0 hc
        split at h
        · rename_i hsrc
          split at h
          · simp at h
          · rename_i s2 hst
            simp only [outcome.ok.injEq, true_and] at h
            refine ⟨_, s0, s2, _, fun hval => ?_, hc, ?_, hst, h.symm⟩
            · simp only [operation.valid] at hval
              simp only [operation.byte_count, Nat.one_mul, Nat.mod_eq_of_lt hval]
            · rw [List.length_take]; omega
        · simp at h
  | read_integral _ _ => simp [operation.is_write] at hw
  | read_string _ => simp [operation.is_write] at hw
  | read_array _ _ => simp [operation.is_write] at hw
  | read_bytes _ => simp [operation.is_write] at hw
  | at_set _ => simp [operation.is_write] at hw
  | resize _ => simp [operation.is_write] at hw
  | expandable _ => simp [operation.is_write] at hw

theorem wf_set_position (s : buffer_t) (p : Nat) (h : s.wf) (hp : p ≤ s.length) :
    ({ s with current_position := p } : buffer_t).wf :=
  ⟨hp, h.2⟩

theorem wf_set_expandable (s : buffer_t) (b : Bool) (h : s.wf) :
    ({ s with is_expandable := b } : buffer_t).wf :=
  h

theorem wf_default_ctor : buffer_t.default_ctor.wf := by decide

theorem wf_sized_ctor (size : Nat) (s : buffer_t)
    (h : buffer_t.sized_ctor size = construction.ok s) : s.wf := by
  unfold buffer_t.sized_ctor at h
  split at h
  · simp at h
  · rename_i hsize
    simp only [construction.ok.injEq] at h
    subst h
    unfold buffer_t.wf
    simp [buffer_t.default_ctor, vector_t.size, vector_t.filled, size_modulus]
    omega

theorem wf_owned_copy (mem : List byte) (size : Nat) (hsize : size ≤ mem.length)
    (hpos : size ≠ 0) (hmem : mem.length ≤ max_size) :
    ({ buffer_t.default_ctor with
        owning := true,
        data := ⟨splice (vector_t.filled size).elems 0 (mem.take size),
          (vector_t.filled size).has_capacity⟩,
        write_data := (⟨splice (vector_t.filled size).elems 0 (mem.take size),
          (vector_t.filled size).has_capacity⟩ : vector_t).data_ptr,
        read_data := (⟨splice (vector_t.filled size).elems 0 (mem.take size),
          (vector_t.filled size).has_capacity⟩ : vector_t).data_ptr,
        length := (⟨splice (vector_t.filled size).elems 0 (mem.take size),
          (vector_t.filled size).has_capacity⟩ : vector_t).size,
        caller_memory := mem } : buffer_t).wf := by
  have hl : (splice (vector_t.filled size).elems 0 (mem.take size)).length = size := by
    rw [splice_length]
    · simp [vector_t.filled]
    · simp only [vector_t.filled, List.length_take, List.length_replicate]
      omega
  unfold buffer_t.wf
  simp only [vector_t.size, hl, buffer_t.default_ctor, if_true]
  refine ⟨Nat.zero_le _, by omega, lt_of_le_of_lt hmem max_size_lt, trivial, trivial, trivial,
    fun _ => ?_⟩
  simp only [vector_t.filled, decide_eq_true_eq]
  omega

theorem wf_const_ctor (mem : List byte) (size : Nat) (consume : Bool) (s : buffer_t)
    (hsize : size ≤ mem.length) (hmem : mem.length ≤ max_size)
    (h : buffer_t.const_ctor (some mem) size consume = construction.ok s) : s.wf := by
  simp only [buffer_t.const_ctor] at h
  split at h
  · simp at h
  · rename_i hpos
    split at h
    · simp only [if_pos hsize, construction.ok.injEq] at h
      subst h
      exact wf_owned_copy mem size hsize hpos hmem
    · simp only [construction.ok.injEq] at h
      subst h
      unfold buffer_t.wf
      simp only [buffer_t.default_ctor, Bool.false_eq_true, if_false]
      exact ⟨Nat.zero_le _, by omega, lt_of_le_of_lt hmem max_size_lt, trivial,
        Or.inl trivial, fun _ => trivial,
        Or.inr ⟨trivial, hsize⟩⟩

theorem wf_mutable_ctor (mem : List byte) (size : Nat) (consume : Bool) (s : buffer_t)
    (hsize : size ≤ mem.length) (hmem : mem.length ≤ max_size)
    (h : buffer_t.mutable_ctor (some mem) size consume = construction.ok s) : s.wf := by
  simp only [buffer_t.mutable_ctor] at h
  split at h
  · simp at h
  · rename_i hpos
    split at h
    · simp only [if_pos hsize, construction.ok.injEq] at h
      subst h
      exact wf_owned_copy mem size hsize hpos hmem
    · simp only [construction.ok.injEq] at h
      subst h
      unfold buffer_t.wf
      simp only [buffer_t.default_ctor, Bool.false_eq_true, if_false]
      exact ⟨Nat.zero_le _, by omega, lt_of_le_of_lt hmem max_size_lt, trivial,
        Or.inr trivial, fun _ => trivial,
        Or.inr ⟨trivial, hsize⟩⟩

theorem wf_resize (k : Nat) (s s1 : buffer_t) (hwf : s.wf)
    (h : buffer_t.resize k s = outcome.ok () s1) : s1.wf := by
  obtain ⟨_, ho, _, hd, hlen, hdl, hp, hwd, hrd, hcm⟩ := resize_ok k s s1 h
  refine ⟨by rw [hp, hlen]; exact Nat.min_le_right _ _,
    by rw [hlen]; exact resize_le_max_size k s s1 h,
    by rw [hcm]; exact hwf.2.2.1, ?_⟩
  rw [if_pos ho]
  refine ⟨hrd, hwd, by rw [hlen, hdl], ?_⟩
  intro hne
  rw [(resize_data k s s1 h).2]
  simp only [Bool.or_eq_true, decide_eq_true_eq]
  right
  rcases Nat.eq_zero_or_pos k with h0 | h0
  · subst h0
    exact absurd (List.eq_nil_of_length_eq_zero hdl) hne
  · exact h0

theorem wf_store (s s1 : buffer_t) (off : Nat) (src : List byte) (hwf : s.wf)
    (h : store s s.write_data off src = some s1) : s1.wf := by
  have hf := store_fields _ _ _ _ _ h
  have hcl := store_region_length _ _ _ pointer_t.caller _ _ h
  have hsl := store_region_length _ _ _ pointer_t.storage _ _ h
  simp only [region] at hcl hsl
  obtain ⟨h1, h2, h3, h4⟩ := hwf
  refine ⟨by rw [hf.2.2.1, hf.2.2.2.1]; exact h1, by rw [hf.2.2.2.1]; exact h2,
    by rw [hcl]; exact h3, ?_⟩
  rw [hf.2.2.2.2.1]
  split at h4
  · rename_i hown
    rw [if_pos hown]
    obtain ⟨a, b, c, d⟩ := h4
    refine ⟨?_, ?_, by rw [hf.2.2.2.1, hsl]; exact c, ?_⟩
    · rw [hf.1, a]; simp only [vector_t.data_ptr, hf.2.2.2.2.2.2]
    · rw [hf.2.1, b]; simp only [vector_t.data_ptr, hf.2.2.2.2.2.2]
    · intro hne
      rw [hf.2.2.2.2.2.2]
      apply d
      intro hnil
      apply hne
      apply List.eq_nil_of_length_eq_zero
      rw [hsl, hnil]
      rfl
  · rename_i hown
    rw [if_neg hown]
    obtain ⟨a, b, c, d⟩ := h4
    have hp : s.write_data = pointer_t.caller := by
      rcases b with b | b
      · exact absurd b (store_not_null _ _ _ _ _ h)
      · exact b
    have hdata : s1.data = s.data := by
      rw [hp] at h
      unfold store at h
      split at h
      · simp only [Option.some.injEq] at h
        subst h
        rfl
      · simp at h
    refine ⟨by rw [hdata]; exact a, by rw [hf.2.1]; exact b,
      by rw [hf.2.1, hf.1]; exact c, ?_⟩
    rw [hf.1, hf.2.1, hf.2.2.2.1, hcl]
    exact d

theorem wf_write_check (m : Nat) (s s0 : buffer_t) (hwf : s.wf)
    (hc : buffer_t.write_check m s = outcome.ok () s0) : s0.wf := by
  rcases write_check_ok m s s0 hc with ⟨h1, _⟩ | ⟨_, _, _, h4⟩
  · rw [h1]; exact hwf
  · exact wf_resize _ s s0 hwf h4

/-- Every call with `std::size_t` arguments keeps the members consistent. -/
theorem wf_step (op : operation) (s t : buffer_t) (hwf : s.wf) (hval : op.valid)
    (h : (op.run s).state = some t) : t.wf := by
  cases hrun : op.run s with
  | undefined => rw [hrun] at h; simp [outcome.state] at h
  | throws e s1 =>
    rw [hrun] at h
    simp only [outcome.state, Option.some.injEq] at h
    subst h
    rcases run_throws_state op s s1 e hrun with h1 | ⟨_, _, v, a, s0, _, _, hc, hst⟩
    · rw [h1]
      exact hwf
    · exact wf_store s0 s1 _ _ (wf_write_check a s s0 hwf hc) hst
  | ok u s1 =>
    rw [hrun] at h
    simp only [outcome.state, Option.some.injEq] at h
    subst h
    by_cases hr : op.is_read = true
    · obtain ⟨_, m, _, hlt, _, hs1⟩ := read_run_ok op s s1 hr hrun
      subst hs1
      exact wf_set_position s _ hwf (Nat.le_of_lt hlt)
    · by_cases hw : op.is_write = true
      · obtain ⟨m, s0, s2, bytes, _, hc, hbl, hst, hs1⟩ := write_run_stores op s s1 hw hrun
        have hreg := (store_region _ _ _ _ _ hst).1
        rw [hbl] at hreg
        have hnn := store_not_null _ _ _ _ _ hst
        obtain ⟨hp0, hnw, hle⟩ := write_check_exact m s s0 hwf hc hnn hreg
        have hwf0 : s0.wf := wf_write_check m s s0 hwf hc
        have hwf2 := wf_store s0 s2 _ _ hwf0 hst
        have hf := store_fields _ _ _ _ _ hst
        subst hs1
        apply wf_set_position s2 _ hwf2
        rw [hf.2.2.1, hf.2.2.2.1, hp0, Nat.mod_eq_of_lt hnw]
        exact hle
      · cases op with
        | at_set p =>
          simp only [operation.run, buffer_t.at_set] at hrun
          split at hrun
          · simp at hrun
          · simp only [outcome.ok.injEq, true_and] at hrun
            subst hrun
            exact wf_set_position s _ hwf (by omega)
        | resize k => exact wf_resize k s s1 hwf hrun
        | expandable b =>
          simp only [operation.run, buffer_t.expandable, outcome.ok.injEq, true_and] at hrun
          subst hrun
          exact wf_set_expandable s b hwf
        | read_integral _ _ => simp [operation.is_read] at hr
        | read_string _ => simp [operation.is_read] at hr
        | read_array _ _ => simp [operation.is_read] at hr
        | read_bytes _ => simp [operation.is_read] at hr
        | write_integral _ _ _ => simp [operation.is_write] at hw
        | write_string _ _ => simp [operation.is_write] at hw
        | write_array _ _ _ => simp [operation.is_write] at hw
        | write_bytes _ _ => simp [operation.is_write] at hw

/-- The converse of the round trip: after an integral `write` that had to grow the buffer,
the read-back at the same position throws `std::out_of_range`. -/
theorem round_trip_fails_of_growth (T : integral_t) (v : Int) (r : Bool) (s s1 : buffer_t)
    (hwf : s.wf) (hgrow : s.length ≤ s.current_position + T.sizeof)
    (hw : buffer_t.write_integral T v r s = outcome.ok () s1) :
    buffer_t.at_set s.current_position s1
      = outcome.ok () { s1 with current_position := s.current_position } ∧
    buffer_t.read_integral T r { s1 with current_position := s.current_position }
      = outcome.throws exception_t.out_of_range
          { s1 with current_position := s.current_position } := by
  obtain ⟨_, s0, hc, hnn, hreg, hp, hl, _, _, hrd, hwd⟩ := write_integral_ok T v r s s1 hw
  obtain ⟨hp0, hnw, hle⟩ := write_check_exact T.sizeof s s0 hwf hc hnn hreg
  have hlen : s0.length = s.current_position + T.sizeof := by
    rcases write_check_ok T.sizeof s s0 hc with ⟨h1, h2⟩ | ⟨_, _, _, h4⟩
    · subst h1
      rw [Nat.mod_eq_of_lt hnw] at h2
      omega
    · obtain ⟨_, _, _, _, hlen, _⟩ := resize_ok _ _ _ h4
      rw [hlen, Nat.mod_eq_of_lt hnw]
  have hrn : s0.read_data ≠ pointer_t.null := by
    rcases write_check_ok T.sizeof s s0 hc with ⟨h1, _⟩ | ⟨_, _, _, h4⟩
    · subst h1
      rw [wf_read_eq_write s0 hwf hnn]
      exact hnn
    · obtain ⟨_, _, _, _, _, _, _, hw0, hr0, _⟩ := resize_ok _ _ _ h4
      rw [hr0, ← hw0]
      exact hnn
  constructor
  · simp only [buffer_t.at_set]
    rw [if_neg (by rw [hl, hlen]; omega)]
  · have hnn1 : ({ s1 with current_position := s.current_position } : buffer_t).read_data
        ≠ pointer_t.null := by
      simp only [hrd]
      exact hrn
    exact (read_integral_checked T r _ hnn1).1
      (by simp only [hl, hlen, Nat.mod_eq_of_lt hnw]; exact Nat.le_refl _)

/-- Where the example objects come from: `buffer_t(10)`, and `buffer_t(ptr, 4, false)` over
the caller's bytes `1 2 3 4`; both are consistent. -/
theorem examples_built :
    buffer_t.sized_ctor 10 = construction.ok example_owned ∧ example_owned.wf ∧
    buffer_t.mutable_ctor (some [1, 2, 3, 4]) 4 false = construction.ok example_view ∧
    example_view.wf := by
  refine ⟨by decide, by decide, by decide, by decide⟩

/-- C1 (counterexample): a write that grows the buffer cannot be read back. On `buffer_t(4)`
the call `write<std::uint32_t>(0x01020304)` at position 0 returns after `resize(4)`, `at(0)`
returns, and `read<std::uint32_t>()` throws `std::out_of_range` because `0 + 4 >= 4`. -/
theorem integral_round_trip_fails_after_growth :
    buffer_t.sized_ctor 4 = construction.ok
      { example_owned with length := 4, data := ⟨List.replicate 4 0, true⟩ } ∧
    buffer_t.write_integral integral_t.uint32 0x01020304 false
        { example_owned with length := 4, data := ⟨List.replicate 4 0, true⟩ }
      = outcome.ok ()
        { example_owned with length := 4, data := ⟨[4, 3, 2, 1], true⟩, current_position := 4 } ∧
    buffer_t.at_set 0
        { example_owned with length := 4, data := ⟨[4, 3, 2, 1], true⟩, current_position := 4 }
      = outcome.ok () { example_owned with length := 4, data := ⟨[4, 3, 2, 1], true⟩ } ∧
    buffer_t.read_integral integral_t.uint32 false
        { example_owned with length := 4, data := ⟨[4, 3, 2, 1], true⟩ }
      = outcome.throws exception_t.out_of_range
        { example_owned with length := 4, data := ⟨[4, 3, 2, 1], true⟩ } := by
  refine ⟨by decide, by decide, by decide, by decide⟩

/-- C1 (witness): the scenario of the specification. On `buffer_t(10)`, writing
`0x01020304` as a 4-byte integer at position 0 and reading it back at position 0 gives
`0x01020304`, without reversal and with reversal on both calls. -/
theorem integral_round_trip_without_growth_witness :
    buffer_t.sized_ctor 10 = construction.ok example_owned ∧ example_owned.wf ∧
    integral_t.uint32.in_range 0x01020304 ∧
    (buffer_t.write_integral integral_t.uint32 0x01020304 false example_owned
      = outcome.ok () { example_owned with
        data := ⟨[4, 3, 2, 1, 0, 0, 0, 0, 0, 0], true⟩, current_position := 4 } ∧
     buffer_t.at_set 0 { example_owned with
        data := ⟨[4, 3, 2, 1, 0, 0, 0, 0, 0, 0], true⟩, current_position := 4 }
      = outcome.ok () { example_owned with data := ⟨[4, 3, 2, 1, 0, 0, 0, 0, 0, 0], true⟩ } ∧
     buffer_t.read_integral integral_t.uint32 false
        { example_owned with data := ⟨[4, 3, 2, 1, 0, 0, 0, 0, 0, 0], true⟩ }
      = outcome.ok 0x01020304 { example_owned with
        data := ⟨[4, 3, 2, 1, 0, 0, 0, 0, 0, 0], true⟩, current_position := 4 }) ∧
    (buffer_t.write_integral integral_t.uint32 0x01020304 true example_owned
      = outcome.ok () { example_owned with
        data := ⟨[1, 2, 3, 4, 0, 0, 0, 0, 0, 0], true⟩, current_position := 4 } ∧
     buffer_t.at_set 0 { example_owned with
        data := ⟨[1, 2, 3, 4, 0, 0, 0, 0, 0, 0], true⟩, current_position := 4 }
      = outcome.ok () { example_owned with data := ⟨[1, 2, 3, 4, 0, 0, 0, 0, 0, 0], true⟩ } ∧
     buffer_t.read_integral integral_t.uint32 true
        { example_owned with data := ⟨[1, 2, 3, 4, 0, 0, 0, 0, 0, 0], true⟩ }
      = outcome.ok 0x01020304 { example_owned with
        data := ⟨[1, 2, 3, 4, 0, 0, 0, 0, 0, 0], true⟩, current_position := 4 }) :=
  ⟨by decide, by decide, by decide,
   ⟨by decide,
    integral_round_trip_without_growth integral_t.uint32 0x01020304 false example_owned _
      (by decide) (by decide) (by decide) (by decide)⟩,
   ⟨by decide,
    integral_round_trip_without_growth integral_t.uint32 0x01020304 true example_owned _
      (by decide) (by decide) (by decide) (by decide)⟩⟩

/-- C2 (failing input): the read bound is lost when `position + n` wraps. On `buffer_t(10)`
moved to position 1, `read<std::string>(18446744073709551615)` has a non-null read pointer
and `position + n >= length`, yet the test computes `(1 + n) mod 2^64 = 0`, does not throw
`std::out_of_range`, and the copy leaves the buffer: the call has no defined outcome. -/
theorem read_bounds_wrap_accepted :
    buffer_t.at_set 1 example_owned
      = outcome.ok () { example_owned with current_position := 1 } ∧
    ({ example_owned with current_position := 1 } : buffer_t).read_data ≠ pointer_t.null ∧
    ({ example_owned with current_position := 1 } : buffer_t).length ≤ 1 + (2 ^ 64 - 1) ∧
    (1 + (2 ^ 64 - 1)) % size_modulus = 0 ∧
    buffer_t.read_string (2 ^ 64 - 1) { example_owned with current_position := 1 }
      ≠ outcome.throws exception_t.out_of_range { example_owned with current_position := 1 } ∧
    buffer_t.read_string (2 ^ 64 - 1) { example_owned with current_position := 1 }
      = outcome.undefined := by
  refine ⟨by decide, by decide, by decide, by decide, by decide, by decide⟩

/-- C3 (failing input): the write bound is lost when `position + n` wraps. On `buffer_t(10)`
made non-expandable and moved to position 1, `write<std::string>("hi", 18446744073709551615)`
has a non-null write pointer, `position + n >= length` and no permission to grow, yet the
bounds test passes because `(1 + n) mod 2^64 = 0`; no `std::out_of_range` is thrown, `"hi"`
is copied into bytes 1 and 2, and the padding vector of `n - 2` bytes then throws
`std::length_error`, with the two bytes written and the cursor where it was. -/
theorem write_bounds_wrap_accepted :
    ({ example_owned with current_position := 1, is_expandable := false } : buffer_t).write_data
      ≠ pointer_t.null ∧
    ({ example_owned with current_position := 1, is_expandable := false } : buffer_t).length
      ≤ 1 + (2 ^ 64 - 1) ∧
    buffer_t.write_check (2 ^ 64 - 1)
        { example_owned with current_position := 1, is_expandable := false }
      = outcome.ok () { example_owned with current_position := 1, is_expandable := false } ∧
    buffer_t.write_string [104, 105] (2 ^ 64 - 1)
        { example_owned with current_position := 1, is_expandable := false }
      ≠ outcome.throws exception_t.out_of_range
        { example_owned with current_position := 1, is_expandable := false } ∧
    buffer_t.write_string [104, 105] (2 ^ 64 - 1)
        { example_owned with current_position := 1, is_expandable := false }
      = outcome.throws exception_t.length_error
        { example_owned with
            current_position := 1, is_expandable := false,
            data := ⟨[0, 104, 105, 0, 0, 0, 0, 0, 0, 0], true⟩ } := by
  refine ⟨by decide, by decide, by decide, by decide, by decide⟩

/-- A throwing call leaves position, length, both flags and every byte of the contents as
they were, for every call except a text `write` whose `amount` exceeds the largest vector
size; such an amount passes the bounds test only when `position + amount` wraps. -/
theorem throw_keeps_state (op : operation) (s s1 : buffer_t) (e : exception_t)
    (hamount : ∀ value amount, op = operation.write_string value amount → amount ≤ max_size)
    (h : op.run s = outcome.throws e s1) :
    s1 = s ∧ s1.at_const = s.at_const ∧ s1.size = s.size ∧ s1.owning = s.owning ∧
      s1.expandaable = s.expandaable ∧ s1.contents = s.contents := by
  rcases run_throws_state op s s1 e h with hs | ⟨_, _, value, amount, _, hop, hlt, _⟩
  · subst hs
    exact ⟨rfl, rfl, rfl, rfl, rfl, rfl⟩
  · have := hamount value amount hop
    omega

/-- C4 (failing input): a throwing call that has changed the contents. On `buffer_t(10)` moved
to position 4, `write<std::string>("abc", 18446744073709551612)` passes the bounds test
because `(4 + n) mod 2^64 = 0 < 10`, copies `"abc"` into bytes 4 to 6 and then throws
`std::length_error` from the padding vector of `n - 3` bytes: the object at the throw differs
from the object before the call in three bytes of its contents. -/
theorem failure_not_atomic_after_wrap :
    buffer_t.sized_ctor 10 = construction.ok example_owned ∧
    buffer_t.at_set 4 example_owned
      = outcome.ok () { example_owned with current_position := 4 } ∧
    (4 + (2 ^ 64 - 4)) % size_modulus = 0 ∧
    (operation.write_string [97, 98, 99] (2 ^ 64 - 4)).run
        { example_owned with current_position := 4 }
      = outcome.throws exception_t.length_error
        { example_owned with
            current_position := 4, data := ⟨[0, 0, 0, 0, 97, 98, 99, 0, 0, 0], true⟩ } ∧
    ({ example_owned with current_position := 4 } : buffer_t).contents
      = [0, 0, 0, 0, 0, 0, 0, 0, 0, 0] ∧
    ({ example_owned with
        current_position := 4, data := ⟨[0, 0, 0, 0, 97, 98, 99, 0, 0, 0], true⟩ }
      : buffer_t).contents
      = [0, 0, 0, 0, 97, 98, 99, 0, 0, 0] := by
  refine ⟨by decide, by decide, by decide, by decide, by decide, by decide⟩

/-- C5 (witness): on `buffer_t(10)` the text write of `"hi"` with amount 5 moves the cursor
from 0 to 5, and ten bytes remain before it. -/
theorem cursor_accounting_witness :
    example_owned.wf ∧ example_owned.remaining = 10 - 0 ∧
    (operation.write_string [104, 105] 5).run example_owned
      = outcome.ok () { example_owned with
          data := ⟨[104, 105, 0, 0, 0, 0, 0, 0, 0, 0], true⟩, current_position := 5 } ∧
    ({ example_owned with
        data := ⟨[104, 105, 0, 0, 0, 0, 0, 0, 0, 0], true⟩, current_position := 5 }
      : buffer_t).at_const = example_owned.at_const + 5 :=
  ⟨by decide, (cursor_accounting example_owned (by decide)).1, by decide,
   (cursor_accounting example_owned (by decide)).2 (operation.write_string [104, 105] 5) 5 _
     (by decide) rfl (by decide)⟩

/-- C6 (witness): `buffer_t(10)` followed by `at(3)` is a reachable state, with position 3
and length 10. -/
theorem position_le_length_witness :
    reachable { example_owned with current_position := 3 } ∧
    ({ example_owned with current_position := 3 } : buffer_t).current_position
      ≤ ({ example_owned with current_position := 3 } : buffer_t).length :=
  ⟨reachable.call (operation.at_set 3) example_owned _
     (reachable.sized_ctor 10 example_owned (by decide)) (by decide),
   position_le_length _
     (reachable.call (operation.at_set 3) example_owned _
       (reachable.sized_ctor 10 example_owned (by decide)) (by decide))⟩

/-- C7 (witness): on `buffer_t(10)`, `at(10)` returns and `at(11)` throws. -/
theorem seek_spec_witness :
    (∃ s1, buffer_t.at_set 10 example_owned = outcome.ok () s1 ∧ s1.at_const = 10 ∧
      s1.size = example_owned.size ∧ s1.contents = example_owned.contents ∧
      s1.owning = example_owned.owning ∧ s1.expandaable = example_owned.expandaable) ∧
    buffer_t.at_set 11 example_owned
      = outcome.throws exception_t.out_of_range example_owned :=
  ⟨(seek_spec example_owned 10).2.1 (by decide),
   (seek_spec example_owned 11).2.2.1 (by decide)⟩

/-- C8 (counterexample): a write that starts at the one-past-end position of an owning,
expandable buffer returns. On `buffer_t(10)` moved to position 10, `write<std::int16_t>(-2)`
grows the buffer to 12 bytes and stores the value. -/
theorem write_at_end_grows :
    buffer_t.at_set 10 example_owned
      = outcome.ok () { example_owned with current_position := 10 } ∧
    ({ example_owned with current_position := 10 } : buffer_t).current_position
      = ({ example_owned with current_position := 10 } : buffer_t).length ∧
    buffer_t.write_integral integral_t.int16 (-2) false
        { example_owned with current_position := 10 }
      = outcome.ok () { example_owned with
          length := 12, data := ⟨[0, 0, 0, 0, 0, 0, 0, 0, 0, 0, 254, 255], true⟩,
          current_position := 12 } := by
  refine ⟨by decide, by decide, by decide⟩

/-- C8 (witness): at the end of a 4-byte view over caller memory a 2-byte write throws, and
so does a 1-byte read at the end of a non-expandable `buffer_t(10)`. -/
theorem no_transfer_at_end_witness :
    (∃ e, (operation.write_integral integral_t.uint16 513 false).run
        { example_view with current_position := 4 }
      = outcome.throws e { example_view with current_position := 4 }) ∧
    (∃ e, (operation.read_bytes 1).run
        { example_owned with current_position := 10, is_expandable := false }
      = outcome.throws e
        { example_owned with current_position := 10, is_expandable := false }) :=
  ⟨no_transfer_at_end { example_view with current_position := 4 }
     (operation.write_integral integral_t.uint16 513 false) 2 (by decide) (by decide) rfl
     (by decide) (by decide),
   no_transfer_at_end { example_owned with current_position := 10, is_expandable := false }
     (operation.read_bytes 1) 1 (by decide) (by decide) rfl (by decide) (by decide)⟩

/-- C9 (witness): `buffer_t(10)` moved to position 7 and resized to 3 has size 3 and
position 3; resized to the largest vector size it has that size and position 7. -/
theorem resize_owning_witness :
    ({ example_owned with current_position := 7 } : buffer_t).wf ∧
    3 ≤ max_size ∧ max_size ≤ max_size ∧
    (∃ s1, buffer_t.resize 3 { example_owned with current_position := 7 } = outcome.ok () s1 ∧
      s1.size = 3 ∧ s1.contents.length = 3 ∧
      (∀ i, i < min ({ example_owned with current_position := 7 } : buffer_t).length 3 →
        s1.contents[i]? = ({ example_owned with current_position := 7 } : buffer_t).contents[i]?) ∧
      (∀ i, ({ example_owned with current_position := 7 } : buffer_t).length ≤ i → i < 3 →
        s1.contents[i]? = some 0) ∧
      s1.at_const = min ({ example_owned with current_position := 7 } : buffer_t).at_const 3 ∧
      s1.owning = ({ example_owned with current_position := 7 } : buffer_t).owning ∧
      s1.expandaable = ({ example_owned with current_position := 7 } : buffer_t).expandaable) ∧
    (∃ s1, buffer_t.resize max_size { example_owned with current_position := 7 }
        = outcome.ok () s1 ∧
      s1.size = max_size ∧ s1.contents.length = max_size ∧
      (∀ i, i < min ({ example_owned with current_position := 7 } : buffer_t).length max_size →
        s1.contents[i]? = ({ example_owned with current_position := 7 } : buffer_t).contents[i]?) ∧
      (∀ i, ({ example_owned with current_position := 7 } : buffer_t).length ≤ i →
        i < max_size → s1.contents[i]? = some 0) ∧
      s1.at_const
        = min ({ example_owned with current_position := 7 } : buffer_t).at_const max_size ∧
      s1.owning = ({ example_owned with current_position := 7 } : buffer_t).owning ∧
      s1.expandaable = ({ example_owned with current_position := 7 } : buffer_t).expandaable) :=
  ⟨by decide, by decide, Nat.le_refl _,
   resize_owning { example_owned with current_position := 7 } 3 (by decide) rfl (by decide),
   resize_owning { example_owned with current_position := 7 } max_size (by decide) rfl
     (Nat.le_refl _)⟩

/-- C9 (counterexample): a `new_size` above the largest vector size. On `buffer_t(10)`,
`resize(9223372036854775808)` (2^63) does not return: the vector throws `std::length_error`
and the buffer is as it was; so does `resize(18446744073709551615)`. -/
theorem resize_beyond_max_size_throws :
    example_owned.wf ∧ example_owned.owning = true ∧
    buffer_t.resize (2 ^ 63) example_owned
      = outcome.throws exception_t.length_error example_owned ∧
    buffer_t.resize (2 ^ 64 - 1) example_owned
      = outcome.throws exception_t.length_error example_owned := by
  refine ⟨by decide, by decide, by decide, by decide⟩

/-- C10 (witness): resizing a 4-byte view over caller memory to 4 or to 8 bytes throws
`std::runtime_error`. -/
theorem resize_non_owning_witness :
    example_view.owning = false ∧
    buffer_t.resize 4 example_view = outcome.throws exception_t.runtime_error example_view ∧
    buffer_t.resize 8 example_view = outcome.throws exception_t.runtime_error example_view :=
  ⟨rfl, (resize_non_owning.1 example_view 4 rfl).1, (resize_non_owning.1 example_view 8 rfl).1⟩

theorem splice_getElem_lt (mem src : List byte) (off i : Nat) (h : i < off)
    (hoff : off ≤ mem.length) : (splice mem off src)[i]? = mem[i]? := by
  unfold splice
  rw [List.append_assoc, List.getElem?_append_left (by rw [List.length_take]; omega)]
  rw [List.getElem?_take_of_lt h]

theorem splice_getElem_mid (mem src : List byte) (off i : Nat) (h : i < src.length)
    (hoff : off ≤ mem.length) : (splice mem off src)[off + i]? = src[i]? := by
  have h1 : (mem.take off).length = off := by rw [List.length_take]; omega
  unfold splice
  rw [List.append_assoc, List.getElem?_append_right (by rw [h1]; omega), h1]
  rw [List.getElem?_append_left (by omega)]
  congr 1
  omega

theorem splice_getElem_ge (mem src : List byte) (off i : Nat) (h : off + src.length ≤ i)
    (hoff : off + src.length ≤ mem.length) : (splice mem off src)[i]? = mem[i]? := by
  have h1 : (mem.take off).length = off := by rw [List.length_take]; omega
  unfold splice
  rw [List.getElem?_append_right (by rw [List.length_append, h1]; omega)]
  rw [List.length_append, h1, List.getElem?_drop]
  congr 1
  omega

theorem take_splice (mem src : List byte) (off k : Nat) (h : off + src.length ≤ k)
    (hk : k ≤ mem.length) :
    (splice mem off src).take k = splice (mem.take k) off src := by
  have h1 : (mem.take off).length = off := by rw [List.length_take]; omega
  have e1 : (mem.take off).take k = mem.take off :=
    List.take_of_length_le (by omega)
  have e2 : src.take (k - off) = src := List.take_of_length_le (by omega)
  unfold splice
  rw [List.take_take, Nat.min_eq_left (by omega), List.drop_take]
  rw [List.append_assoc, List.append_assoc, List.take_append_eq_append_take, h1, e1]
  rw [List.take_append_eq_append_take, e2]
  congr 3
  omega

theorem store_some (s : buffer_t) (p : pointer_t) (off : Nat) (src : List byte)
    (hp : p ≠ pointer_t.null) (h : off + src.length ≤ (region s p).length) :
    ∃ s1, store s p off src = some s1 := by
  unfold store
  rw [if_pos h]
  cases p with
  | null => exact absurd rfl hp
  | caller => exact ⟨_, rfl⟩
  | storage => exact ⟨_, rfl⟩

theorem contents_store (s s1 : buffer_t) (off : Nat) (src : List byte) (hwf : s.wf)
    (h : store s s.write_data off src = some s1) (hlen : off + src.length ≤ s.length) :
    s1.contents = splice s.contents off src := by
  have hnn := store_not_null _ _ _ _ _ h
  have hrw := wf_read_eq_write s hwf hnn
  have hf := store_fields _ _ _ _ _ h
  have hr := (store_region _ _ _ _ _ h).2
  have hreg := wf_read_region s hwf (by rw [hrw]; exact hnn)
  rw [hrw] at hreg
  unfold buffer_t.contents
  rw [hf.1, hf.2.2.2.1, hrw, hr, take_splice _ _ _ _ hlen hreg]

theorem store_split (s s3 : buffer_t) (p : pointer_t) (off : Nat) (a b : List byte)
    (h : store s p off (a ++ b) = some s3) :
    ∃ s2, store s p off a = some s2 ∧ store s2 p (off + a.length) b = some s3 := by
  have hp := store_not_null _ _ _ _ _ h
  have hr := (store_region _ _ _ _ _ h).1
  rw [List.length_append] at hr
  obtain ⟨s2, h2⟩ := store_some s p off a hp (by omega)
  have hl := store_region_length _ _ _ p _ _ h2
  obtain ⟨s3x, h3⟩ := store_some s2 p (off + a.length) b hp (by rw [hl]; omega)
  have := store_append _ _ _ _ _ _ _ h2 h3
  rw [h] at this
  simp only [Option.some.injEq] at this
  subst this
  exact ⟨s2, h2, h3⟩

/-- A `write` whose bounds test has passed and whose span lies inside the block returns,
having stored its payload at the cursor. -/
theorem write_run_eq (op : operation) (s : buffer_t) (hw : op.is_write = true)
    (hnn : s.write_data ≠ pointer_t.null) :
    ∃ m, (op.valid → op.byte_count = some m) ∧
      ∀ s0 s2, buffer_t.write_check m s = outcome.ok () s0 → op.payload.length = m →
        store s0 s0.write_data s0.current_position op.payload = some s2 → m ≤ max_size →
        op.run s = outcome.ok ()
          { s2 with current_position := (s2.current_position + m) % size_modulus } := by
  cases op with
  | write_integral T v r =>
    refine ⟨T.sizeof, fun _ => rfl, ?_⟩
    intro s0 s2 hc _ hst _
    simp only [operation.payload] at hst
    simp only [operation.run, buffer_t.write_integral, if_neg hnn, hc, hst]
  | write_string value amount =>
    refine ⟨amount, fun _ => rfl, ?_⟩
    intro s0 s2 hc _ hst hmax
    simp only [operation.payload] at hst
    simp only [operation.run, buffer_t.write_string, if_neg hnn, hc]
    have hw1 : (if amount > value.length then value.length else amount) ≤ amount := by
      split <;> omega
    have hw2 : (if amount > value.length then value.length else amount) ≤ value.length := by
      split <;> omega
    generalize (if amount > value.length then value.length else amount) = writesize
      at hst hw1 hw2 ⊢
    have htl : (value.take writesize).length = writesize := by
      rw [List.length_take]; omega
    obtain ⟨sm, h1, h2⟩ := store_split _ _ _ _ _ _ hst
    have hf := store_fields _ _ _ _ _ h1
    rw [htl] at h2
    simp only [h1]
    by_cases hlt : writesize < amount
    · have hz : store_zeros sm sm.write_data (sm.current_position + writesize)
          (amount - writesize) = outcome.ok () s2 := by
        unfold store_zeros
        have hr := (store_region _ _ _ _ _ h2).1
        rw [List.length_replicate] at hr
        rw [if_neg (by omega), hf.2.1, hf.2.2.1, if_pos hr, h2]
      simp only [if_pos hlt, hz]
    · have hz : amount - writesize = 0 := by omega
      rw [hz] at h2
      have hsm : sm = s2 := by
        have hr := store_region _ _ _ _ _ h2
        have hf2 := store_fields _ _ _ _ _ h2
        unfold store at h2
        rw [if_pos hr.1] at h2
        cases hp : s0.write_data with
        | null => rw [hp] at h2; simp at h2
        | caller =>
          rw [hp] at h2
          simp only [Option.some.injEq] at h2
          rw [← h2]
          simp [splice]
        | storage =>
          rw [hp] at h2
          simp only [Option.some.injEq] at h2
          rw [← h2]
          simp [splice]
      subst hsm
      simp only [if_neg hlt]
  | write_array b value amount =>
    refine ⟨_, fun _ => rfl, ?_⟩
    intro s0 s2 hc hpl hst _
    simp only [operation.payload] at hst hpl
    have hsrc : (b * amount) % size_modulus ≤ value.length := by
      rw [List.length_take] at hpl
      omega
    simp only [operation.run, buffer_t.write_array, if_neg hnn, hc, if_pos hsrc, hst]
  | write_bytes value amount =>
    refine ⟨(1 * amount) % size_modulus, fun hval => ?_, ?_⟩
    · simp only [operation.valid] at hval
      simp only [operation.byte_count, Nat.one_mul, Nat.mod_eq_of_lt hval]
    · intro s0 s2 hc hpl hst _
      simp only [operation.payload] at hst hpl
      have hsrc : (1 * amount) % size_modulus ≤ value.length := by
        rw [List.length_take] at hpl
        omega
      simp only [operation.run, buffer_t.write_bytes, if_neg hnn, hc, if_pos hsrc, hst]
  | read_integral _ _ => simp [operation.is_write] at hw
  | read_string _ => simp [operation.is_write] at hw
  | read_array _ _ => simp [operation.is_write] at hw
  | read_bytes _ => simp [operation.is_write] at hw
  | at_set _ => simp [operation.is_write] at hw
  | resize _ => simp [operation.is_write] at hw
  | expandable _ => simp [operation.is_write] at hw

theorem resize_returns (k : Nat) (s : buffer_t) (hown : s.owning = true)
    (hk : k ≤ max_size) : ∃ s0, buffer_t.resize k s = outcome.ok () s0 := by
  simp only [buffer_t.resize, hown, Bool.not_true, Bool.false_eq_true, if_false,
    vector_resize_of_le _ _ hk]
  exact ⟨_, rfl⟩

theorem write_check_grow (n : Nat) (s : buffer_t) (hown : s.owning = true)
    (hexp : s.is_expandable = true)
    (hpast : s.length ≤ (s.current_position + n) % size_modulus) :
    buffer_t.write_check n s
      = buffer_t.resize ((s.current_position + n) % size_modulus) s := by
  simp only [buffer_t.write_check, hown, hexp, Bool.and_self, if_true]
  rw [if_pos hpast]

theorem wf_owning_capacity (s : buffer_t) (hwf : s.wf) (hown : s.owning = true)
    (hnn : s.write_data ≠ pointer_t.null) : s.data.has_capacity = true := by
  obtain ⟨_, _, _, h⟩ := hwf
  rw [if_pos hown] at h
  rw [h.2.1] at hnn
  unfold vector_t.data_ptr at hnn
  by_contra hc
  rw [if_neg hc] at hnn
  exact hnn rfl

/-- Growth on write, where it happens. For every consistent owning, expandable buffer with a
non-null write pointer, of any length `L`, with position `p` and contents `b`, and every
write of `n` bytes with `p + n >= L` and `p + n` at most the largest vector size, the write
returns; afterwards `size()` is exactly `p + n`, the cursor is `p + n`, bytes `[p, p + n)`
hold the written data, every byte `i < p` equals `b[i]`, and every byte with index `>= L`
before the write position is zero. -/
theorem growth_on_write (s : buffer_t) (op : operation) (n : Nat)
    (hwf : s.wf) (hown : s.owning = true) (hexp : s.is_expandable = true)
    (hnn : s.write_data ≠ pointer_t.null)
    (hw : op.is_write = true) (hval : op.valid) (hn : op.byte_count = some n)
    (hsrc : op.payload.length = n)
    (hpast : s.length ≤ s.current_position + n)
    (hrep : s.current_position + n ≤ max_size) :
    ∃ s1, op.run s = outcome.ok () s1 ∧ s1.size = s.current_position + n ∧
      s1.at_const = s.current_position + n ∧
      (∀ i, i < n → s1.contents[s.current_position + i]? = op.payload[i]?) ∧
      (∀ i, i < s.current_position → s1.contents[i]? = s.contents[i]?) ∧
      (∀ i, s.length ≤ i → i < s.current_position → s1.contents[i]? = some 0) := by
  have hpos := hwf.1
  obtain ⟨m, hm, heq⟩ := write_run_eq op s hw hnn
  have hmn : m = n := by
    have := hm hval
    rw [hn] at this
    exact (Option.some.inj this).symm
  subst hmn
  have hmod : (s.current_position + m) % size_modulus = s.current_position + m :=
    Nat.mod_eq_of_lt (lt_of_le_of_lt hrep max_size_lt)
  obtain ⟨s0, hrs⟩ := resize_returns (s.current_position + m) s hown hrep
  have hc : buffer_t.write_check m s = outcome.ok () s0 := by
    rw [write_check_grow m s hown hexp (by rw [hmod]; exact hpast), hmod, hrs]
  obtain ⟨_, _, _, hd, hlen, hdl, hp, hwd, _, _⟩ := resize_ok _ _ _ hrs
  have hwf0 := wf_resize _ s s0 hwf hrs
  have hp0 : s0.current_position = s.current_position := by
    rw [hp]; exact Nat.min_eq_left (by omega)
  have hcap : s0.data.has_capacity = true := by
    rw [(resize_data _ s s0 hrs).2]
    simp only [Bool.or_eq_true, decide_eq_true_eq]
    exact Or.inl (wf_owning_capacity s hwf hown hnn)
  have hst0 : s0.write_data = pointer_t.storage := by
    rw [hwd]
    simp only [vector_t.data_ptr, hcap, if_true]
  obtain ⟨s2, hst⟩ := store_some s0 s0.write_data s0.current_position op.payload
    (by rw [hst0]; exact fun h => by cases h)
    (by rw [hst0]; simp only [region]; rw [hdl, hsrc, hp0])
  have hrun := heq s0 s2 hc hsrc hst (by omega)
  have hf := store_fields _ _ _ _ _ hst
  have hcs := contents_store s0 s2 _ _ hwf0 hst (by rw [hsrc, hp0, hlen])
  have hc0 := resize_contents s s0 _ hrs
  obtain ⟨hcb, hcl⟩ := wf_owning_contents s hwf hown
  have hc0len : s0.contents.length = s.current_position + m := by
    rw [hc0, List.length_append, List.length_take, List.length_replicate]
    omega
  refine ⟨_, hrun, ?_, ?_, ?_, ?_, ?_⟩
  · simp only [buffer_t.size]
    rw [hf.2.2.2.1, hlen]
  · simp only [buffer_t.at_const]
    rw [hf.2.2.1, hp0, hmod]
  · intro i hi
    have : ({ s2 with current_position :=
        (s2.current_position + m) % size_modulus } : buffer_t).contents = s2.contents := rfl
    rw [this, hcs, hp0]
    exact splice_getElem_mid _ _ _ _ (by rw [hsrc]; exact hi) (by rw [hc0len]; omega)
  · intro i hi
    have : ({ s2 with current_position :=
        (s2.current_position + m) % size_modulus } : buffer_t).contents = s2.contents := rfl
    rw [this, hcs, hp0, splice_getElem_lt _ _ _ _ hi (by rw [hc0len]; omega)]
    rw [hc0, hcb]
    rw [List.getElem?_append_left (by rw [List.length_take]; omega)]
    rw [List.getElem?_take_of_lt (by omega)]
  · intro i h1 h2
    omega

theorem write_check_length (m n : Nat) (s s0 : buffer_t) (hmn : m ≤ n)
    (hc : buffer_t.write_check m s = outcome.ok () s0) :
    s0.length = s.length ∨
    (s.owning = true ∧ s.is_expandable = true ∧ s.length ≤ s.current_position + n) := by
  rcases write_check_ok m s s0 hc with ⟨h1, _⟩ | ⟨h1, h2, h3, _⟩
  · left; rw [h1]
  · right
    refine ⟨h2, h3, ?_⟩
    have := Nat.mod_le (s.current_position + m) size_modulus
    omega

theorem write_length_cases (op : operation) (s s1 : buffer_t) (hw : op.is_write = true)
    (h : op.run s = outcome.ok () s1) :
    s1.length = s.length ∨
    (s.owning = true ∧ s.is_expandable = true ∧
      ∃ n, op.byte_count = some n ∧ s.length ≤ s.current_position + n) := by
  cases op with
  | write_integral T v r =>
    obtain ⟨_, s0, hc, _, _, _, hl, _⟩ := write_integral_ok T v r s s1 h
    rcases write_check_length _ T.sizeof s s0 (Nat.le_refl _) hc with h1 | ⟨h1, h2, h3⟩
    · left; rw [hl, h1]
    · exact Or.inr ⟨h1, h2, _, rfl, h3⟩
  | write_string v amount =>
    obtain ⟨_, s0, hc, _, _, _, hl, _⟩ := write_string_ok v amount s s1 h
    rcases write_check_length _ amount s s0 (Nat.le_refl _) hc with h1 | ⟨h1, h2, h3⟩
    · left; rw [hl, h1]
    · exact Or.inr ⟨h1, h2, _, rfl, h3⟩
  | write_array b v amount =>
    obtain ⟨_, s0, hc, _, _, _, hl, _⟩ := write_array_ok b v amount s s1 h
    rcases write_check_length _ _ s s0 (Nat.le_refl _) hc with h1 | ⟨h1, h2, h3⟩
    · left; rw [hl, h1]
    · exact Or.inr ⟨h1, h2, _, rfl, h3⟩
  | write_bytes v amount =>
    obtain ⟨_, s0, hc, _, _, _, hl, _⟩ := write_array_ok 1 v amount s s1 h
    rcases write_check_length _ amount s s0
      (by rw [Nat.one_mul]; exact Nat.mod_le _ _) hc with h1 | ⟨h1, h2, h3⟩
    · left; rw [hl, h1]
    · exact Or.inr ⟨h1, h2, _, rfl, h3⟩
  | read_integral _ _ => simp [operation.is_write] at hw
  | read_string _ => simp [operation.is_write] at hw
  | read_array _ _ => simp [operation.is_write] at hw
  | read_bytes _ => simp [operation.is_write] at hw
  | at_set _ => simp [operation.is_write] at hw
  | resize _ => simp [operation.is_write] at hw
  | expandable _ => simp [operation.is_write] at hw

/-- The ways a call can leave the object: as it was after a throw, as returned, or, after
the `std::length_error` of the padding of a text `write`, with the text stored and nothing
else changed. -/
theorem state_cases (op : operation) (s t : buffer_t) (h : (op.run s).state = some t) :
    t = s ∨ op.run s = outcome.ok () t ∨
    (s.write_data ≠ pointer_t.null ∧
      ∃ value amount s0, op = operation.write_string value amount ∧ max_size < amount ∧
        buffer_t.write_check amount s = outcome.ok () s0 ∧
        store s0 s0.write_data s0.current_position
          (value.take (if amount > value.length then value.length else amount)) = some t) := by
  cases hrun : op.run s with
  | undefined => rw [hrun] at h; simp [outcome.state] at h
  | throws e s1 =>
    rw [hrun] at h
    simp only [outcome.state, Option.some.injEq] at h
    subst h
    rcases run_throws_state op s s1 e hrun with h1 | ⟨_, h2, h3⟩
    · exact Or.inl h1
    · exact Or.inr (Or.inr ⟨h2, h3⟩)
  | ok u s1 =>
    rw [hrun] at h
    simp only [outcome.state, Option.some.injEq] at h
    subst h
    exact Or.inr (Or.inl rfl)

/-- C12: growth is confined to the write path. Whenever `size()` after a call differs from
`size()` before it, the call is an explicit `resize` on an owning buffer, or a write of `n`
bytes on a buffer that is owning and expandable with `position + n >= length`. No read, no
`at(pos)`, no `expandable(flag)` call and no write on a non-owning or non-expandable buffer
changes `size()`. -/
theorem growth_confined (op : operation) (s t : buffer_t)
    (h : (op.run s).state = some t) :
    (t.size ≠ s.size →
      ((∃ k, op = operation.resize k) ∧ s.owning = true) ∨
      (op.is_write = true ∧ s.owning = true ∧ s.is_expandable = true ∧
        ∃ n, op.byte_count = some n ∧ s.length ≤ s.current_position + n)) ∧
    (op.is_read = true → t.size = s.size) ∧
    ((∃ p, op = operation.at_set p) → t.size = s.size) ∧
    ((∃ b, op = operation.expandable b) → t.size = s.size) ∧
    (op.is_write = true → ¬ (s.owning = true ∧ s.is_expandable = true) → t.size = s.size) := by
  have hmain : t.size ≠ s.size →
      ((∃ k, op = operation.resize k) ∧ s.owning = true) ∨
      (op.is_write = true ∧ s.owning = true ∧ s.is_expandable = true ∧
        ∃ n, op.byte_count = some n ∧ s.length ≤ s.current_position + n) := by
    intro hne
    simp only [buffer_t.size] at hne
    rcases state_cases op s t h with h1 | hrun | ⟨_, v, a, s0, hop, _, hc, hst⟩
    · rw [h1] at hne; exact absurd rfl hne
    rotate_left
    · have hf := store_fields _ _ _ _ _ hst
      rcases write_check_length a a s s0 (Nat.le_refl _) hc with h1 | ⟨h1, h2, h3⟩
      · rw [hf.2.2.2.1, h1] at hne
        exact absurd rfl hne
      · subst hop
        exact Or.inr ⟨rfl, h1, h2, a, rfl, h3⟩
    · by_cases hr : op.is_read = true
      · obtain ⟨_, m, _, _, _, hs1⟩ := read_run_ok op s t hr hrun
        rw [hs1] at hne
        exact absurd rfl hne
      · by_cases hw : op.is_write = true
        · rcases write_length_cases op s t hw hrun with h1 | ⟨h1, h2, h3⟩
          · exact absurd h1 hne
          · exact Or.inr ⟨hw, h1, h2, h3⟩
        · cases op with
          | at_set p =>
            simp only [operation.run, buffer_t.at_set] at hrun
            split at hrun
            · simp at hrun
            · simp only [outcome.ok.injEq, true_and] at hrun
              rw [← hrun] at hne
              exact absurd rfl hne
          | resize k =>
            exact Or.inl ⟨⟨k, rfl⟩, (resize_ok k s t hrun).1⟩
          | expandable b =>
            simp only [operation.run, buffer_t.expandable, outcome.ok.injEq, true_and] at hrun
            rw [← hrun] at hne
            exact absurd rfl hne
          | read_integral _ _ => simp [operation.is_read] at hr
          | read_string _ => simp [operation.is_read] at hr
          | read_array _ _ => simp [operation.is_read] at hr
          | read_bytes _ => simp [operation.is_read] at hr
          | write_integral _ _ _ => simp [operation.is_write] at hw
          | write_string _ _ => simp [operation.is_write] at hw
          | write_array _ _ _ => simp [operation.is_write] at hw
          | write_bytes _ _ => simp [operation.is_write] at hw
  refine ⟨hmain, ?_, ?_, ?_, ?_⟩
  · intro hr
    by_contra hne
    rcases hmain hne with ⟨⟨k, hk⟩, _⟩ | ⟨hw, _⟩
    · subst hk; simp [operation.is_read] at hr
    · cases op <;> simp [operation.is_read, operation.is_write] at hr hw
  · intro ⟨p, hp⟩
    by_contra hne
    rcases hmain hne with ⟨⟨k, hk⟩, _⟩ | ⟨hw, _⟩
    · subst hp; cases hk
    · subst hp; simp [operation.is_write] at hw
  · intro ⟨b, hb⟩
    by_contra hne
    rcases hmain hne with ⟨⟨k, hk⟩, _⟩ | ⟨hw, _⟩
    · subst hb; cases hk
    · subst hb; simp [operation.is_write] at hw
  · intro hw hno
    by_contra hne
    rcases hmain hne with ⟨⟨k, hk⟩, _⟩ | ⟨_, h1, h2, _⟩
    · subst hk; simp [operation.is_write] at hw
    · exact hno ⟨h1, h2⟩

theorem view_stays (op : operation) (s t : buffer_t) (hown : s.owning = false)
    (h : (op.run s).state = some t) :
    t.owning = false ∧ t.write_data = s.write_data ∧ t.read_data = s.read_data ∧
      t.length = s.length := by
  rcases state_cases op s t h with h1 | hrun | ⟨_, v, a, s0, _, _, hc, hst⟩
  · rw [h1]; exact ⟨hown, rfl, rfl, rfl⟩
  rotate_left
  · have hf := store_fields _ _ _ _ _ hst
    rcases write_check_ok a s s0 hc with ⟨h1, _⟩ | ⟨_, h2, _, _⟩
    · subst h1
      exact ⟨by rw [hf.2.2.2.2.1]; exact hown, hf.2.1, hf.1, hf.2.2.2.1⟩
    · rw [hown] at h2; cases h2
  · by_cases hr : op.is_read = true
    · obtain ⟨_, m, _, _, _, hs1⟩ := read_run_ok op s t hr hrun
      rw [hs1]; exact ⟨hown, rfl, rfl, rfl⟩
    · by_cases hw : op.is_write = true
      · obtain ⟨_, m, s0, _, hc, _, _, _, hl, ho, _, hrd, hwd⟩ := write_run_ok op s t hw hrun
        rcases write_check_ok m s s0 hc with ⟨h1, _⟩ | ⟨_, h2, _, _⟩
        · subst h1
          exact ⟨by rw [ho]; exact hown, hwd, hrd, hl⟩
        · rw [hown] at h2; cases h2
      · cases op with
        | at_set p =>
          simp only [operation.run, buffer_t.at_set] at hrun
          split at hrun
          · simp at hrun
          · simp only [outcome.ok.injEq, true_and] at hrun
            rw [← hrun]; exact ⟨hown, rfl, rfl, rfl⟩
        | resize k =>
          have := (resize_ok k s t hrun).1
          rw [hown] at this; cases this
        | expandable b =>
          simp only [operation.run, buffer_t.expandable, outcome.ok.injEq, true_and] at hrun
          rw [← hrun]; exact ⟨hown, rfl, rfl, rfl⟩
        | read_integral _ _ => simp [operation.is_read] at hr
        | read_string _ => simp [operation.is_read] at hr
        | read_array _ _ => simp [operation.is_read] at hr
        | read_bytes _ => simp [operation.is_read] at hr
        | write_integral _ _ _ => simp [operation.is_write] at hw
        | write_string _ _ => simp [operation.is_write] at hw
        | write_array _ _ _ => simp [operation.is_write] at hw
        | write_bytes _ _ => simp [operation.is_write] at hw

theorem run_all_cons (op : operation) (ops : List operation) (s t : buffer_t)
    (h : operation.run_all (op :: ops) s = some t) :
    ∃ u, (op.run s).state = some u ∧ operation.run_all ops u = some t := by
  simp only [operation.run_all] at h
  split at h
  · rename_i u hu
    exact ⟨u, hu, h⟩
  · simp at h

theorem view_stays_all (ops : List operation) (s t : buffer_t) (hown : s.owning = false)
    (h : operation.run_all ops s = some t) :
    t.owning = false ∧ t.write_data = s.write_data ∧ t.read_data = s.read_data ∧
      t.length = s.length := by
  induction ops generalizing s with
  | nil =>
    simp only [operation.run_all, Option.some.injEq] at h
    rw [← h]; exact ⟨hown, rfl, rfl, rfl⟩
  | cons op ops ih =>
    obtain ⟨u, hu, hrest⟩ := run_all_cons op ops s t h
    obtain ⟨h1, h2, h3, h4⟩ := view_stays op s u hown hu
    obtain ⟨k1, k2, k3, k4⟩ := ih u h1 hrest
    exact ⟨k1, by rw [k2, h2], by rw [k3, h3], by rw [k4, h4]⟩

theorem store_keeps_caller_memory (s s1 : buffer_t) (p : pointer_t) (off : Nat)
    (src : List byte) (hp : p ≠ pointer_t.caller) (h : store s p off src = some s1) :
    s1.caller_memory = s.caller_memory := by
  unfold store at h
  split at h
  · cases p with
    | null => simp at h
    | caller => exact absurd rfl hp
    | storage =>
      simp only [Option.some.injEq] at h
      rw [← h]
  · simp at h

theorem data_ptr_ne_caller (v : vector_t) : v.data_ptr ≠ pointer_t.caller := by
  unfold vector_t.data_ptr
  split <;> exact fun h => by cases h

/-- A buffer whose pointers do not point into the caller's block never touches that block,
and keeps pointing away from it. -/
theorem detached_step (op : operation) (s t : buffer_t)
    (hr : s.read_data ≠ pointer_t.caller) (hw : s.write_data ≠ pointer_t.caller)
    (h : (op.run s).state = some t) :
    t.caller_memory = s.caller_memory ∧ t.read_data ≠ pointer_t.caller ∧
      t.write_data ≠ pointer_t.caller := by
  rcases state_cases op s t h with h1 | hrun | ⟨_, v, a, s0, _, _, hc, hst⟩
  · rw [h1]; exact ⟨rfl, hr, hw⟩
  rotate_left
  · have hf := store_fields _ _ _ _ _ hst
    have h0 : s0.caller_memory = s.caller_memory ∧ s0.read_data ≠ pointer_t.caller ∧
        s0.write_data ≠ pointer_t.caller := by
      rcases write_check_ok a s s0 hc with ⟨h1, _⟩ | ⟨_, _, _, h4⟩
      · rw [h1]; exact ⟨rfl, hr, hw⟩
      · obtain ⟨_, _, _, _, _, _, _, hwd, hrd0, hcm⟩ := resize_ok _ _ _ h4
        exact ⟨hcm, by rw [hrd0]; exact data_ptr_ne_caller _,
          by rw [hwd]; exact data_ptr_ne_caller _⟩
    have hcm2 := store_keeps_caller_memory _ _ _ _ _ h0.2.2 hst
    exact ⟨by rw [hcm2, h0.1], by rw [hf.1]; exact h0.2.1, by rw [hf.2.1]; exact h0.2.2⟩
  · by_cases hrd : op.is_read = true
    · obtain ⟨_, m, _, _, _, hs1⟩ := read_run_ok op s t hrd hrun
      rw [hs1]; exact ⟨rfl, hr, hw⟩
    · by_cases hwr : op.is_write = true
      · obtain ⟨m, s0, s2, bytes, _, hc, _, hst, hs1⟩ := write_run_stores op s t hwr hrun
        have hf := store_fields _ _ _ _ _ hst
        have h0 : s0.caller_memory = s.caller_memory ∧ s0.read_data ≠ pointer_t.caller ∧
            s0.write_data ≠ pointer_t.caller := by
          rcases write_check_ok m s s0 hc with ⟨h1, _⟩ | ⟨_, _, _, h4⟩
          · rw [h1]; exact ⟨rfl, hr, hw⟩
          · obtain ⟨_, _, _, _, _, _, _, hwd, hrd0, hcm⟩ := resize_ok _ _ _ h4
            exact ⟨hcm, by rw [hrd0]; exact data_ptr_ne_caller _,
              by rw [hwd]; exact data_ptr_ne_caller _⟩
        have hcm2 := store_keeps_caller_memory _ _ _ _ _ h0.2.2 hst
        rw [hs1]
        exact ⟨by simp only [hcm2, h0.1], by simp only [hf.1]; exact h0.2.1,
          by simp only [hf.2.1]; exact h0.2.2⟩
      · cases op with
        | at_set p =>
          simp only [operation.run, buffer_t.at_set] at hrun
          split at hrun
          · simp at hrun
          · simp only [outcome.ok.injEq, true_and] at hrun
            rw [← hrun]; exact ⟨rfl, hr, hw⟩
        | resize k =>
          obtain ⟨_, _, _, _, _, _, _, hwd, hrd0, hcm⟩ := resize_ok k s t hrun
          exact ⟨hcm, by rw [hrd0]; exact data_ptr_ne_caller _,
            by rw [hwd]; exact data_ptr_ne_caller _⟩
        | expandable b =>
          simp only [operation.run, buffer_t.expandable, outcome.ok.injEq, true_and] at hrun
          rw [← hrun]; exact ⟨rfl, hr, hw⟩
        | read_integral _ _ => simp [operation.is_read] at hrd
        | read_string _ => simp [operation.is_read] at hrd
        | read_array _ _ => simp [operation.is_read] at hrd
        | read_bytes _ => simp [operation.is_read] at hrd
        | write_integral _ _ _ => simp [operation.is_write] at hwr
        | write_string _ _ => simp [operation.is_write] at hwr
        | write_array _ _ _ => simp [operation.is_write] at hwr
        | write_bytes _ _ => simp [operation.is_write] at hwr

theorem detached_all (ops : List operation) (s t : buffer_t)
    (hr : s.read_data ≠ pointer_t.caller) (hw : s.write_data ≠ pointer_t.caller)
    (h : operation.run_all ops s = some t) :
    t.caller_memory = s.caller_memory ∧ t.read_data ≠ pointer_t.caller ∧
      t.write_data ≠ pointer_t.caller := by
  induction ops generalizing s with
  | nil =>
    simp only [operation.run_all, Option.some.injEq] at h
    rw [← h]; exact ⟨rfl, hr, hw⟩
  | cons op ops ih =>
    obtain ⟨u, hu, hrest⟩ := run_all_cons op ops s t h
    obtain ⟨h1, h2, h3⟩ := detached_step op s u hr hw hu
    obtain ⟨k1, k2, k3⟩ := ih u h2 h3 hrest
    exact ⟨by rw [k1, h1], k2, k3⟩

/-- C17: not-writable precedes bounds. On every buffer without a write pointer (the
default-constructed buffer, a non-consuming view over immutable bytes, and every state such
a buffer is later brought into), every write of any kind, value and byte count throws
`std::runtime_error`, never `std::out_of_range`, whatever the position and the byte count,
and leaves the object as it was. -/
theorem not_writable_precedes_bounds :
    (∀ (s : buffer_t) (op : operation), op.is_write = true →
      s.write_data = pointer_t.null →
      op.run s = outcome.throws exception_t.runtime_error s ∧
      op.run s ≠ outcome.throws exception_t.out_of_range s) ∧
    buffer_t.default_ctor.write_data = pointer_t.null ∧
    (∀ (ptr : Option (List byte)) (size : Nat) (s : buffer_t),
      buffer_t.const_ctor ptr size false = construction.ok s →
      s.write_data = pointer_t.null) ∧
    (∀ (ops : List operation) (s t : buffer_t), s.owning = false →
      s.write_data = pointer_t.null → operation.run_all ops s = some t →
      t.write_data = pointer_t.null) := by
  refine ⟨?_, rfl, ?_, ?_⟩
  · intro s op hw hnull
    have h := write_null op s hw hnull
    refine ⟨h, ?_⟩
    rw [h]
    intro hc
    cases hc
  · intro ptr size s h
    unfold buffer_t.const_ctor at h
    split at h
    · simp at h
    · split at h
      · simp at h
      · simp only [Bool.false_eq_true, if_false, construction.ok.injEq] at h
        rw [← h]
        rfl
  · intro ops s t hown hnull h
    rw [(view_stays_all ops s t hown h).2.1, hnull]

theorem region_detached (s : buffer_t) (mem : List byte) (p : pointer_t)
    (hp : p ≠ pointer_t.caller) :
    region { s with caller_memory := mem } p = region s p := by
  cases p with
  | null => rfl
  | caller => exact absurd rfl hp
  | storage => rfl

theorem load_detached (s : buffer_t) (mem : List byte) (p : pointer_t) (off n : Nat)
    (hp : p ≠ pointer_t.caller) :
    load { s with caller_memory := mem } p off n = load s p off n := by
  unfold load
  rw [region_detached s mem p hp]

/-- What a buffer that does not point into the caller's block reads does not depend on the
contents of that block. -/
theorem detached_reads (s : buffer_t) (mem : List byte)
    (hr : s.read_data ≠ pointer_t.caller) :
    ({ s with caller_memory := mem } : buffer_t).contents = s.contents ∧
    (∀ T r, (buffer_t.read_integral T r { s with caller_memory := mem }).value
      = (buffer_t.read_integral T r s).value) ∧
    (∀ amount, (buffer_t.read_string amount { s with caller_memory := mem }).value
      = (buffer_t.read_string amount s).value) ∧
    (∀ bytesize amount,
      (buffer_t.read_array bytesize amount { s with caller_memory := mem }).value
      = (buffer_t.read_array bytesize amount s).value) ∧
    (∀ amount, (buffer_t.read_bytes amount { s with caller_memory := mem }).value
      = (buffer_t.read_bytes amount s).value) := by
  have harr : ∀ bytesize amount,
      (buffer_t.read_array bytesize amount { s with caller_memory := mem }).value
      = (buffer_t.read_array bytesize amount s).value := by
    intro b amount
    simp only [buffer_t.read_array, load_detached s mem _ _ _ hr]
    split
    · rfl
    · split
      · rfl
      · cases load s s.read_data s.current_position (b * amount % size_modulus) <;> rfl
  refine ⟨?_, ?_, ?_, harr, ?_⟩
  · unfold buffer_t.contents
    exact congrArg (fun l => l.take s.length) (region_detached s mem s.read_data hr)
  · intro T r
    simp only [buffer_t.read_integral, load_detached s mem _ _ _ hr]
    split
    · rfl
    · split
      · rfl
      · cases load s s.read_data s.current_position T.sizeof <;> rfl
  · intro amount
    simp only [buffer_t.read_string, load_detached s mem _ _ _ hr]
    split
    · rfl
    · split
      · rfl
      · split
        · rfl
        · cases load s s.read_data s.current_position amount with
          | none => rfl
          | some bytes =>
            simp only
            split <;> rfl
  · intro amount
    rw [read_bytes_eq, read_bytes_eq]
    exact harr 1 amount

theorem splice_filled (src : List byte) (n : Nat) (h : src.length = n) :
    splice (List.replicate n (0 : byte)) 0 src = src := by
  unfold splice
  rw [List.take_zero, List.nil_append, Nat.zero_add]
  rw [List.drop_of_length_le (by rw [List.length_replicate]; omega), List.append_nil]

theorem const_ctor_view (mem : List byte) (size : Nat) (hsize : size ≠ 0) :
    buffer_t.const_ctor (some mem) size false = construction.ok
      { buffer_t.default_ctor with
        read_data := pointer_t.caller, length := size, caller_memory := mem } := by
  simp only [buffer_t.const_ctor, if_neg hsize, Bool.false_eq_true, if_false]

theorem mutable_ctor_view (mem : List byte) (size : Nat) (hsize : size ≠ 0) :
    buffer_t.mutable_ctor (some mem) size false = construction.ok
      { buffer_t.default_ctor with
        write_data := pointer_t.caller, read_data := pointer_t.caller, length := size,
        caller_memory := mem } := by
  simp only [buffer_t.mutable_ctor, if_neg hsize, Bool.false_eq_true, if_false]

/-- The object both pointer constructors build with `consume = true`. -/
theorem ctor_consume (mem : List byte) (size : Nat) (hsize : size ≠ 0)
    (hlen : size ≤ mem.length) :
    buffer_t.const_ctor (some mem) size true = construction.ok
      { buffer_t.default_ctor with
        read_data := pointer_t.storage, write_data := pointer_t.storage, length := size,
        owning := true, data := ⟨mem.take size, true⟩, caller_memory := mem } ∧
    buffer_t.mutable_ctor (some mem) size true = construction.ok
      { buffer_t.default_ctor with
        read_data := pointer_t.storage, write_data := pointer_t.storage, length := size,
        owning := true, data := ⟨mem.take size, true⟩, caller_memory := mem } := by
  have hl : (mem.take size).length = size := by rw [List.length_take]; omega
  have hpos : 0 < size := Nat.pos_of_ne_zero hsize
  constructor
  · simp only [buffer_t.const_ctor, if_neg hsize, if_true, if_pos hlen, vector_t.filled,
      splice_filled _ _ hl, vector_t.data_ptr, vector_t.size, hl, decide_eq_true hpos]
  · simp only [buffer_t.mutable_ctor, if_neg hsize, if_true, if_pos hlen, vector_t.filled,
      splice_filled _ _ hl, vector_t.data_ptr, vector_t.size, hl, decide_eq_true hpos]

theorem readonly_step (op : operation) (s t : buffer_t)
    (hnull : s.write_data = pointer_t.null) (h : (op.run s).state = some t) :
    t.caller_memory = s.caller_memory ∧ t.data = s.data ∨ s.owning = true := by
  by_cases hown : s.owning = true
  · exact Or.inr hown
  · left
    rcases state_cases op s t h with h1 | hrun | ⟨hnn, _⟩
    · rw [h1]; exact ⟨rfl, rfl⟩
    rotate_left
    · exact absurd hnull hnn
    · by_cases hrd : op.is_read = true
      · obtain ⟨_, m, _, _, _, hs1⟩ := read_run_ok op s t hrd hrun
        rw [hs1]; exact ⟨rfl, rfl⟩
      · by_cases hwr : op.is_write = true
        · rw [write_null op s hwr hnull] at hrun
          cases hrun
        · cases op with
          | at_set p =>
            simp only [operation.run, buffer_t.at_set] at hrun
            split at hrun
            · simp at hrun
            · simp only [outcome.ok.injEq, true_and] at hrun
              rw [← hrun]; exact ⟨rfl, rfl⟩
          | resize k => exact absurd (resize_ok k s t hrun).1 hown
          | expandable b =>
            simp only [operation.run, buffer_t.expandable, outcome.ok.injEq, true_and] at hrun
            rw [← hrun]; exact ⟨rfl, rfl⟩
          | read_integral _ _ => simp [operation.is_read] at hrd
          | read_string _ => simp [operation.is_read] at hrd
          | read_array _ _ => simp [operation.is_read] at hrd
          | read_bytes _ => simp [operation.is_read] at hrd
          | write_integral _ _ _ => simp [operation.is_write] at hwr
          | write_string _ _ => simp [operation.is_write] at hwr
          | write_array _ _ _ => simp [operation.is_write] at hwr
          | write_bytes _ _ => simp [operation.is_write] at hwr

theorem readonly_all (ops : List operation) (s t : buffer_t) (hown : s.owning = false)
    (hnull : s.write_data = pointer_t.null) (h : operation.run_all ops s = some t) :
    t.caller_memory = s.caller_memory := by
  induction ops generalizing s with
  | nil =>
    simp only [operation.run_all, Option.some.injEq] at h
    rw [← h]
  | cons op ops ih =>
    obtain ⟨u, hu, hrest⟩ := run_all_cons op ops s t h
    obtain ⟨h1, h2, _, _⟩ := view_stays op s u hown hu
    rcases readonly_step op s u hnull hu with ⟨k1, _⟩ | k
    · rw [ih u h1 (by rw [h2, hnull]) hrest, k1]
    · rw [hown] at k; cases k

theorem const_ctor_throws_iff (ptr : Option (List byte)) (size : Nat) (consume : Bool) :
    buffer_t.const_ctor ptr size consume = construction.throws exception_t.runtime_error ↔
      (ptr = none ∨ size = 0) := by
  cases ptr with
  | none => simp [buffer_t.const_ctor]
  | some mem =>
    by_cases hs : size = 0
    · simp [buffer_t.const_ctor, hs]
    · simp only [buffer_t.const_ctor, if_neg hs]
      constructor
      · intro h
        split at h
        · split at h
          · cases h
          · split at h <;> cases h
        · cases h
      · intro h
        rcases h with h | h
        · cases h
        · exact absurd h hs

/-- C13: construct from immutable bytes. For every non-null pointer to a block `src` of at
least `size > 0` bytes, `buffer_t(const ptr, size, consume)` yields `length == size`,
`position == 0` and contents equal to the first `size` bytes of `src`. With
`consume = false` the buffer is non-owning and, in every later state, every write throws the
not-writable `std::runtime_error`, `resize` throws, and size, contents and `src` are as
constructed. With `consume = true` the buffer is owning with non-null read and write
pointers, and in every later state `src` is unchanged and what the buffer reads does not
depend on the bytes of `src`. Construction throws `std::runtime_error` if and only if the
pointer is null or `size == 0`. -/
theorem construct_from_immutable (mem : List byte) (size : Nat) (hsize : size ≠ 0)
    (hlen : size ≤ mem.length) :
    (∃ s, buffer_t.const_ctor (some mem) size false = construction.ok s ∧
      s.size = size ∧ s.at_const = 0 ∧ s.contents = mem.take size ∧ s.owning = false ∧
      ∀ ops t, operation.run_all ops s = some t →
        t.size = size ∧ t.contents = mem.take size ∧ t.caller_memory = mem ∧
        (∀ op : operation, op.is_write = true →
          op.run t = outcome.throws exception_t.runtime_error t) ∧
        (∀ k, buffer_t.resize k t = outcome.throws exception_t.runtime_error t)) ∧
    (∃ s, buffer_t.const_ctor (some mem) size true = construction.ok s ∧
      s.size = size ∧ s.at_const = 0 ∧ s.contents = mem.take size ∧ s.owning = true ∧
      s.read_data ≠ pointer_t.null ∧ s.write_data ≠ pointer_t.null ∧
      ∀ ops t, operation.run_all ops s = some t →
        t.caller_memory = mem ∧
        ∀ changed : List byte,
          ({ t with caller_memory := changed } : buffer_t).contents = t.contents ∧
          (∀ T r, (buffer_t.read_integral T r { t with caller_memory := changed }).value
            = (buffer_t.read_integral T r t).value) ∧
          (∀ amount, (buffer_t.read_string amount { t with caller_memory := changed }).value
            = (buffer_t.read_string amount t).value) ∧
          (∀ bytesize amount,
            (buffer_t.read_array bytesize amount { t with caller_memory := changed }).value
            = (buffer_t.read_array bytesize amount t).value) ∧
          (∀ amount, (buffer_t.read_bytes amount { t with caller_memory := changed }).value
            = (buffer_t.read_bytes amount t).value)) ∧
    (∀ (ptr : Option (List byte)) (sz : Nat) (consume : Bool),
      buffer_t.const_ctor ptr sz consume = construction.throws exception_t.runtime_error ↔
        (ptr = none ∨ sz = 0)) := by
  refine ⟨⟨_, const_ctor_view mem size hsize, rfl, rfl, ?_, rfl, ?_⟩,
    ⟨_, (ctor_consume mem size hsize hlen).1, rfl, rfl, ?_, rfl, ?_, ?_, ?_⟩,
    const_ctor_throws_iff⟩
  · simp only [buffer_t.contents, region]
  · intro ops t h
    obtain ⟨h1, h2, h3, h4⟩ := view_stays_all ops _ t rfl h
    have hcm := readonly_all ops _ t rfl rfl h
    simp only at h2 h3 h4 hcm
    refine ⟨h4, ?_, hcm, ?_, ?_⟩
    · unfold buffer_t.contents
      rw [h3, h4]
      simp only [region, hcm]
    · intro op hw
      exact write_null op t hw (by rw [h2]; rfl)
    · intro k
      simp only [buffer_t.resize, h1, Bool.not_false, if_true]
  · simp only [buffer_t.contents, region]
    rw [List.take_of_length_le (by rw [List.length_take]; omega)]
  · exact fun h => by cases h
  · exact fun h => by cases h
  · intro ops t h
    obtain ⟨h1, h2, _⟩ := detached_all ops _ t (fun h => by cases h) (fun h => by cases h) h
    exact ⟨h1, fun changed => detached_reads t changed h2⟩

theorem caller_memory_length_step (op : operation) (s t : buffer_t)
    (h : (op.run s).state = some t) :
    t.caller_memory.length = s.caller_memory.length := by
  rcases state_cases op s t h with h1 | hrun | ⟨_, v, a, s0, _, _, hc, hst⟩
  · rw [h1]
  rotate_left
  · have hl := store_region_length _ _ _ pointer_t.caller _ _ hst
    simp only [region] at hl
    have h0 : s0.caller_memory = s.caller_memory := by
      rcases write_check_ok a s s0 hc with ⟨h1, _⟩ | ⟨_, _, _, h4⟩
      · rw [h1]
      · exact (resize_ok _ _ _ h4).2.2.2.2.2.2.2.2.2
    rw [hl, h0]
  · by_cases hrd : op.is_read = true
    · obtain ⟨_, m, _, _, _, hs1⟩ := read_run_ok op s t hrd hrun
      rw [hs1]
    · by_cases hwr : op.is_write = true
      · obtain ⟨m, s0, s2, bytes, _, hc, _, hst, hs1⟩ := write_run_stores op s t hwr hrun
        have hl := store_region_length _ _ _ pointer_t.caller _ _ hst
        simp only [region] at hl
        have h0 : s0.caller_memory = s.caller_memory := by
          rcases write_check_ok m s s0 hc with ⟨h1, _⟩ | ⟨_, _, _, h4⟩
          · rw [h1]
          · exact (resize_ok _ _ _ h4).2.2.2.2.2.2.2.2.2
        rw [hs1]
        simp only [hl, h0]
      · cases op with
        | at_set p =>
          simp only [operation.run, buffer_t.at_set] at hrun
          split at hrun
          · simp at hrun
          · simp only [outcome.ok.injEq, true_and] at hrun
            rw [← hrun]
        | resize k => rw [(resize_ok k s t hrun).2.2.2.2.2.2.2.2.2]
        | expandable b =>
          simp only [operation.run, buffer_t.expandable, outcome.ok.injEq, true_and] at hrun
          rw [← hrun]
        | read_integral _ _ => simp [operation.is_read] at hrd
        | read_string _ => simp [operation.is_read] at hrd
        | read_array _ _ => simp [operation.is_read] at hrd
        | read_bytes _ => simp [operation.is_read] at hrd
        | write_integral _ _ _ => simp [operation.is_write] at hwr
        | write_string _ _ => simp [operation.is_write] at hwr
        | write_array _ _ _ => simp [operation.is_write] at hwr
        | write_bytes _ _ => simp [operation.is_write] at hwr

theorem caller_memory_length_all (ops : List operation) (s t : buffer_t)
    (h : operation.run_all ops s = some t) :
    t.caller_memory.length = s.caller_memory.length := by
  induction ops generalizing s with
  | nil =>
    simp only [operation.run_all, Option.some.injEq] at h
    rw [← h]
  | cons op ops ih =>
    obtain ⟨u, hu, hrest⟩ := run_all_cons op ops s t h
    rw [ih u hrest, caller_memory_length_step op s u hu]

/-- A write into a view over the caller's mutable block, with a span that ends before the
end of the view, returns and leaves its payload in the caller's block at the cursor. -/
theorem view_write_fits (op : operation) (t : buffer_t) (n : Nat)
    (hwd : t.write_data = pointer_t.caller) (hmem : t.length ≤ t.caller_memory.length)
    (hM : t.length ≤ max_size)
    (hw : op.is_write = true) (hval : op.valid) (hn : op.byte_count = some n)
    (hsrc : op.payload.length = n) (hfit : t.current_position + n < t.length) :
    ∃ t1, op.run t = outcome.ok () t1 ∧ t1.at_const = t.current_position + n ∧
      t1.size = t.size ∧
      ∀ i, i < n → t1.caller_memory[t.current_position + i]? = op.payload[i]? := by
  have hnn : t.write_data ≠ pointer_t.null := by rw [hwd]; exact fun h => by cases h
  obtain ⟨m, hm, heq⟩ := write_run_eq op t hw hnn
  have hmn : m = n := by
    have := hm hval
    rw [hn] at this
    exact (Option.some.inj this).symm
  subst hmn
  have hms := max_size_lt
  have hmod : (t.current_position + m) % size_modulus = t.current_position + m :=
    Nat.mod_eq_of_lt (by omega)
  have hc : buffer_t.write_check m t = outcome.ok () t := by
    simp only [buffer_t.write_check]
    rw [hmod, if_neg (by omega)]
  obtain ⟨s2, hst⟩ := store_some t t.write_data t.current_position op.payload hnn
    (by rw [hwd]; simp only [region]; omega)
  have hrun := heq t s2 hc hsrc hst (by omega)
  have hf := store_fields _ _ _ _ _ hst
  have hr := (store_region _ _ _ _ _ hst).2
  rw [hwd] at hr
  simp only [region] at hr
  refine ⟨_, hrun, ?_, ?_, ?_⟩
  · simp only [buffer_t.at_const]
    rw [hf.2.2.1, hmod]
  · simp only [buffer_t.size]
    exact hf.2.2.2.1
  · intro i hi
    simp only [hr]
    exact splice_getElem_mid _ _ _ _ (by omega) (by omega)

/-- The rest of what is said of the mutable-view constructor holds for spans that end
inside the `std::size_t` range, over a block that is one object (at most `max_size`
bytes): the view is non-owning, readable and writable; in every
later state a write that ends before `length` lands in the caller's block, a write with
`position + n >= length` throws `std::out_of_range` although the expandable flag is set,
and `resize` throws; with `consume = true` the constructor builds what the consuming
immutable constructor builds. -/
theorem mutable_view_spec (mem : List byte) (size : Nat) (hsize : size ≠ 0)
    (hlen : size ≤ mem.length) (hM : mem.length ≤ max_size) :
    (∃ s, buffer_t.mutable_ctor (some mem) size false = construction.ok s ∧
      s.size = size ∧ s.at_const = 0 ∧ s.owning = false ∧ s.expandaable = true ∧
      s.read_data ≠ pointer_t.null ∧ s.write_data ≠ pointer_t.null ∧
      s.contents = mem.take size ∧
      ∀ ops t, operation.run_all ops s = some t →
        t.size = size ∧
        (∀ k, buffer_t.resize k t = outcome.throws exception_t.runtime_error t) ∧
        ∀ (op : operation) (n : Nat), op.is_write = true → op.valid →
          op.byte_count = some n → op.payload.length = n →
          (t.current_position + n < t.length →
            ∃ t1, op.run t = outcome.ok () t1 ∧ t1.at_const = t.current_position + n ∧
              t1.size = t.size ∧
              ∀ i, i < n → t1.caller_memory[t.current_position + i]? = op.payload[i]?) ∧
          (t.length ≤ t.current_position + n → t.current_position + n < size_modulus →
            op.run t = outcome.throws exception_t.out_of_range t)) ∧
    buffer_t.mutable_ctor (some mem) size true = buffer_t.const_ctor (some mem) size true := by
  refine ⟨⟨_, mutable_ctor_view mem size hsize, rfl, rfl, rfl, rfl, ?_, ?_, ?_, ?_⟩, ?_⟩
  · exact fun h => by cases h
  · exact fun h => by cases h
  · simp only [buffer_t.contents, region]
  · intro ops t h
    obtain ⟨h1, h2, h3, h4⟩ := view_stays_all ops _ t rfl h
    have hcl := caller_memory_length_all ops _ t h
    simp only at h2 h3 h4 hcl
    refine ⟨h4, ?_, ?_⟩
    · intro k
      simp only [buffer_t.resize, h1, Bool.not_false, if_true]
    · intro op n hw hval hn hsrc
      constructor
      · intro hfit
        exact view_write_fits op t n h2 (by rw [h4, hcl]; exact hlen) (by rw [h4]; omega)
          hw hval hn hsrc hfit
      · intro hpast hrep
        exact (write_bounds_of_representable op t n hw hval hn
          (by rw [h2]; exact fun h => by cases h) hrep).mpr
          ⟨hpast, fun hc => by rw [h1] at hc; cases hc.1⟩
  · rw [(ctor_consume mem size hsize hlen).1, (ctor_consume mem size hsize hlen).2]

/-- What `buffer_t(size)` builds, for every size a vector can have: `size` zero bytes,
cursor 0, owning and expandable; the write pointer is non-null exactly when `size` is not 0.
For a larger size the vector throws `std::length_error`. -/
theorem sized_ctor_spec (size : Nat) :
    (size ≤ max_size →
      ∃ s, buffer_t.sized_ctor size = construction.ok s ∧ s.size = size ∧ s.at_const = 0 ∧
        s.contents = List.replicate size 0 ∧ s.owning = true ∧ s.expandaable = true ∧
        (s.write_data ≠ pointer_t.null ↔ size ≠ 0)) ∧
    (max_size < size →
      buffer_t.sized_ctor size = construction.throws exception_t.length_error) := by
  refine ⟨fun hsize => ?_, fun hsize => by unfold buffer_t.sized_ctor; rw [if_pos hsize]⟩
  have hc : buffer_t.sized_ctor size = construction.ok
      { buffer_t.default_ctor with
          data := vector_t.filled size, write_data := (vector_t.filled size).data_ptr,
          read_data := (vector_t.filled size).data_ptr,
          length := (vector_t.filled size).size, owning := true } := by
    unfold buffer_t.sized_ctor
    rw [if_neg (Nat.not_lt.mpr hsize)]
  refine ⟨_, hc, ?_, rfl, ?_, rfl, rfl, ?_⟩
  · simp [buffer_t.size, vector_t.size, vector_t.filled]
  · simp only [buffer_t.contents, vector_t.data_ptr, vector_t.filled, vector_t.size,
      List.length_replicate]
    by_cases h : 0 < size
    · simp only [decide_eq_true h, if_true, region]
      rw [List.take_of_length_le (by rw [List.length_replicate])]
    · have h0 : size = 0 := by omega
      subst h0
      simp
  · simp only [vector_t.data_ptr, vector_t.filled]
    by_cases h : 0 < size
    · simp only [decide_eq_true h, if_true]
      constructor
      · intro _; omega
      · intro _ hc; cases hc
    · have h0 : size = 0 := by omega
      subst h0
      simp

/-- The two constructor forms that take a pointer reject what they should. Constructing a
buffer from a null pointer (with any size, 0 included) or from a valid pointer with size 0
throws `std::runtime_error` in the immutable view and the mutable view, for either value of
`consume`; a valid pointer with a non-zero size is not rejected. -/
theorem pointer_ctors_reject (ptr : Option (List byte)) (size : Nat) (consume : Bool)
    (h : ptr = none ∨ size = 0) :
    buffer_t.const_ctor ptr size consume = construction.throws exception_t.runtime_error ∧
    buffer_t.mutable_ctor ptr size consume
      = construction.throws exception_t.runtime_error ∧
    (∀ (mem : List byte) (sz : Nat) (c : Bool), sz ≠ 0 →
      buffer_t.const_ctor (some mem) sz c ≠ construction.throws exception_t.runtime_error ∧
      buffer_t.mutable_ctor (some mem) sz c
        ≠ construction.throws exception_t.runtime_error) := by
  refine ⟨(const_ctor_throws_iff ptr size consume).mpr h, ?_, ?_⟩
  · rcases h with h | h
    · subst h; simp [buffer_t.mutable_ctor]
    · subst h
      cases ptr <;> simp [buffer_t.mutable_ctor]
  · intro mem sz c hsz
    constructor
    · intro hc
      rcases (const_ctor_throws_iff (some mem) sz c).mp hc with h1 | h1
      · cases h1
      · exact hsz h1
    · intro hc
      simp only [buffer_t.mutable_ctor, if_neg hsz] at hc
      split at hc
      · split at hc
        · cases hc
        · split at hc <;> cases hc
      · cases hc

/-- A returning `write` has passed its bounds test and stored its payload at the cursor. -/
theorem write_run_payload (op : operation) (s s1 : buffer_t) (hw : op.is_write = true)
    (h : op.run s = outcome.ok () s1) :
    ∃ m s0 s2, (op.valid → op.byte_count = some m) ∧
      buffer_t.write_check m s = outcome.ok () s0 ∧ op.payload.length = m ∧
      store s0 s0.write_data s0.current_position op.payload = some s2 ∧
      s1 = { s2 with current_position := (s2.current_position + m) % size_modulus } := by
  cases op with
  | write_integral T v r =>
    simp only [operation.run, buffer_t.write_integral] at h
    split at h
    · simp at h
    · split at h
      · simp at h
      · simp at h
      · rename_i u s0 hc
        split at h
        · simp at h
        · rename_i s2 hst
          simp only [outcome.ok.injEq, true_and] at h
          refine ⟨T.sizeof, s0, s2, fun _ => rfl, hc, ?_, hst, h.symm⟩
          simp only [operation.payload]
          split <;> simp [object_bytes, le_bytes_length]
  | write_string value amount =>
    simp only [operation.run, buffer_t.write_string] at h
    simp only [operation.payload]
    have hw1 : (if amount > value.length then value.length else amount) ≤ amount := by
      split <;> omega
    have hw2 : (if amount > value.length then value.length else amount) ≤ value.length := by
      split <;> omega
    generalize (if amount > value.length then value.length else amount) = writesize
      at h hw1 hw2 ⊢
    split at h
    · simp at h
    · split at h
      · simp at h
      · simp at h
      · rename_i u s0 hc
        split at h
        · simp at h
        · rename_i s2 hst
          have hf := store_fields _ _ _ _ _ hst
          split at h
          · simp at h
          · simp at h
          · rename_i u3 s3 hst3
            simp only [outcome.ok.injEq, true_and] at h
            have htl : (value.take writesize).length = writesize := by
              rw [List.length_take]; omega
            have hpl : (value.take writesize
                ++ List.replicate (amount - writesize) (0 : byte)).length = amount := by
              rw [List.length_append, htl, List.length_replicate]
              omega
            by_cases hlt : writesize < amount
            · rw [if_pos hlt] at hst3
              have hz := store_zeros_eq _ _ _ _ _ _ hst3
              rw [hf.2.1, hf.2.2.1] at hz
              have hz2 : store s2 s0.write_data
                  (s0.current_position + (value.take writesize).length)
                  (List.replicate (amount - writesize) (0 : byte)) = some s3 := by
                rw [htl]; exact hz
              have hcomb := store_append _ _ _ _ _ _ _ hst hz2
              exact ⟨amount, s0, s3, fun _ => rfl, hc, hpl, hcomb, h.symm⟩
            · rw [if_neg hlt] at hst3
              simp only [outcome.ok.injEq, true_and] at hst3
              subst hst3
              have hz : amount - writesize = 0 := by omega
              refine ⟨amount, s0, s2, fun _ => rfl, hc, hpl, ?_, h.symm⟩
              rw [hz, List.replicate_zero, List.append_nil]
              exact hst
  | write_array b value amount =>
    simp only [operation.run, buffer_t.write_array] at h
    split at h
    · simp at h
    · split at h
      · simp at h
      · simp at h
      · rename_i u s0 hc
        split at h
        · rename_i hsrc
          split at h
          · simp at h
          · rename_i s2 hst
            simp only [outcome.ok.injEq, true_and] at h
            refine ⟨_, s0, s2, fun _ => rfl, hc, ?_, hst, h.symm⟩
            simp only [operation.payload]
            rw [List.length_take]; omega
        · simp at h
  | write_bytes value amount =>
    simp only [operation.run, buffer_t.write_bytes] at h
    split at h
    · simp at h
    · split at h
      · simp at h
      · simp at h
      · rename_i u s0 hc
        split at h
        · rename_i hsrc
          split at h
          · simp at h
          · rename_i s2 hst
            simp only [outcome.ok.injEq, true_and] at h
            refine ⟨_, s0, s2, fun hval => ?_, hc, ?_, hst, h.symm⟩
            · simp only [operation.valid] at hval
              simp only [operation.byte_count, Nat.one_mul, Nat.mod_eq_of_lt hval]
            · simp only [operation.payload]
              rw [List.length_take]; omega
        · simp at h
  | read_integral _ _ => simp [operation.is_write] at hw
  | read_string _ => simp [operation.is_write] at hw
  | read_array _ _ => simp [operation.is_write] at hw
  | read_bytes _ => simp [operation.is_write] at hw
  | at_set _ => simp [operation.is_write] at hw
  | resize _ => simp [operation.is_write] at hw
  | expandable _ => simp [operation.is_write] at hw

theorem text_payload (value : List byte) (amount : Nat) :
    (operation.write_string value amount).payload
      = value.take amount ++ List.replicate (amount - value.length) (0 : byte) := by
  simp only [operation.payload]
  split
  · rename_i h
    rw [List.take_of_length_le (Nat.le_refl _), List.take_of_length_le (by omega)]
  · rename_i h
    have : amount - value.length = 0 := by omega
    rw [this, Nat.sub_self]

theorem wf_contents_length (s : buffer_t) (hwf : s.wf)
    (hnn : s.read_data ≠ pointer_t.null) : s.contents.length = s.length := by
  have := wf_read_region s hwf hnn
  unfold buffer_t.contents
  rw [List.length_take]
  omega

/-- The state in which a returning `write` stores: position as before the call, the span
inside the buffer. -/
theorem write_run_contents (op : operation) (s s1 : buffer_t) (hwf : s.wf)
    (hw : op.is_write = true) (h : op.run s = outcome.ok () s1) :
    ∃ m s0, (op.valid → op.byte_count = some m) ∧ op.payload.length = m ∧
      buffer_t.write_check m s = outcome.ok () s0 ∧ s0.wf ∧
      s0.current_position = s.current_position ∧
      s.current_position + m ≤ s0.length ∧ s.current_position + m < size_modulus ∧
      s0.contents.length = s0.length ∧
      s1.length = s0.length ∧ s1.current_position = s.current_position + m ∧
      s1.contents = splice s0.contents s.current_position op.payload := by
  obtain ⟨m, s0, s2, hm, hc, hpl, hst, hs1⟩ := write_run_payload op s s1 hw h
  have hreg := (store_region _ _ _ _ _ hst).1
  rw [hpl] at hreg
  have hnn := store_not_null _ _ _ _ _ hst
  obtain ⟨hp0, hnw, hle⟩ := write_check_exact m s s0 hwf hc hnn hreg
  have hwf0 : s0.wf := by
    rcases write_check_ok m s s0 hc with ⟨h1, _⟩ | ⟨_, _, _, h4⟩
    · rw [h1]; exact hwf
    · exact wf_resize _ s s0 hwf h4
  have hf := store_fields _ _ _ _ _ hst
  have hcs := contents_store s0 s2 _ _ hwf0 hst (by rw [hpl, hp0]; exact hle)
  refine ⟨m, s0, hm, hpl, hc, hwf0, hp0, hle, hnw, ?_, ?_, ?_, ?_⟩
  · exact wf_contents_length s0 hwf0 (by rw [wf_read_eq_write s0 hwf0 hnn]; exact hnn)
  · rw [hs1]; exact hf.2.2.2.1
  · rw [hs1]
    simp only [hf.2.2.1, hp0, Nat.mod_eq_of_lt hnw]
  · rw [hs1, ← hp0, ← hcs]
    rfl

/-- C18: fixed-length text write. In every consistent buffer state with cursor `p` in which
`write<std::string>(v, A)` returns, afterwards bytes `[p, p + min(|v|, A))` equal the first
`min(|v|, A)` bytes of `v`, bytes `[p + min(|v|, A), p + A)` are zero, and the position is
`p + A`. -/
theorem text_write_spec (value : List byte) (amount : Nat) (s s1 : buffer_t) (hwf : s.wf)
    (h : buffer_t.write_string value amount s = outcome.ok () s1) :
    (∀ i, i < min value.length amount →
      s1.contents[s.current_position + i]? = value[i]?) ∧
    (∀ i, min value.length amount ≤ i → i < amount →
      s1.contents[s.current_position + i]? = some 0) ∧
    s1.at_const = s.current_position + amount := by
  obtain ⟨m, s0, hm, hpl, _, hwf0, _, hle, _, hcl, _, hpos, hcs⟩ :=
    write_run_contents (operation.write_string value amount) s s1 hwf rfl h
  have hma : m = amount := by
    have := hm (by
      simp only [operation.valid]
      rw [text_payload, List.length_append, List.length_take, List.length_replicate] at hpl
      omega)
    simp only [operation.byte_count, Option.some.injEq] at this
    exact this.symm
  subst hma
  rw [text_payload] at hcs hpl
  have hc0 : s.current_position ≤ s0.contents.length := by
    rw [hcl]; omega
  refine ⟨?_, ?_, hpos⟩
  · intro i hi
    rw [hcs, splice_getElem_mid _ _ _ _ (by rw [hpl]; omega) hc0]
    rw [List.getElem?_append_left (by rw [List.length_take]; omega)]
    rw [List.getElem?_take_of_lt (by omega)]
  · intro i h1 h2
    rw [hcs, splice_getElem_mid _ _ _ _ (by rw [hpl]; omega) hc0]
    rw [List.getElem?_append_right (by rw [List.length_take]; omega)]
    rw [List.getElem?_replicate, if_pos (by rw [List.length_take]; omega)]

theorem takeWhile_append_zeros (a : List byte) (k : Nat) :
    (a ++ List.replicate (k + 1) (0 : byte)).takeWhile (fun b => b ≠ 0)
      = a.takeWhile (fun b => b ≠ 0) := by
  induction a with
  | nil => simp [List.replicate_succ, List.takeWhile]
  | cons x xs ih =>
    simp only [List.cons_append, List.takeWhile_cons]
    split
    · rw [ih]
    · rfl

/-- A C string ends at the first zero byte of its storage. -/
theorem takeWhile_nonzero_spec (l : List byte) :
    (l.takeWhile (fun b => b ≠ 0)).length ≤ l.length ∧
    (∀ i, i < (l.takeWhile (fun b => b ≠ 0)).length →
      (l.takeWhile (fun b => b ≠ 0))[i]? = l[i]? ∧ l[i]? ≠ some 0) ∧
    ((l.takeWhile (fun b => b ≠ 0)).length < l.length →
      l[(l.takeWhile (fun b => b ≠ 0)).length]? = some 0) := by
  induction l with
  | nil => simp
  | cons x xs ih =>
    by_cases hx : x = 0
    · subst hx
      simp [List.takeWhile]
    · have hd : decide (x ≠ 0) = true := by simpa using hx
      simp only [List.takeWhile_cons, hd, if_true, List.length_cons]
      obtain ⟨h1, h2, h3⟩ := ih
      refine ⟨by omega, ?_, ?_⟩
      · intro i hi
        cases i with
        | zero =>
          simp only [List.getElem?_cons_zero]
          refine ⟨trivial, ?_⟩
          intro hc
          exact hx (Option.some.inj hc)
        | succ j =>
          simp only [List.getElem?_cons_succ]
          exact h2 j (by omega)
      · intro hlt
        simp only [List.getElem?_cons_succ]
        exact h3 (by omega)

/-- The text a returning `read<std::string>` hands back, in terms of the span it copied. -/
theorem read_string_value (amount : Nat) (s s1 : buffer_t) (v : List byte) (hwf : s.wf)
    (h : buffer_t.read_string amount s = outcome.ok v s1) :
    s.current_position + amount < s.length ∧
    s1 = { s with current_position := s.current_position + amount } ∧
    v = (((region s s.read_data).drop s.current_position).take amount).takeWhile
      (fun b => b ≠ 0) ∧
    (((region s s.read_data).drop s.current_position).take amount).length = amount ∧
    ∀ i, i < amount →
      (((region s s.read_data).drop s.current_position).take amount)[i]?
        = s.contents[s.current_position + i]? := by
  obtain ⟨hnn, hlt, hreg, hs1⟩ := read_string_ok amount s s1 v h
  have hM := (wf_length_lt _ hwf)
  have hM2 := hwf.2.1
  have hRlt := wf_region_lt s hwf s.read_data
  have hmod : (s.current_position + amount) % size_modulus = s.current_position + amount :=
    Nat.mod_eq_of_lt (by omega)
  rw [hmod] at hlt hs1
  have hlen : (((region s s.read_data).drop s.current_position).take amount).length
      = amount := by
    rw [List.length_take, List.length_drop]
    omega
  refine ⟨hlt, hs1, ?_, hlen, ?_⟩
  · have h1 : (amount + 1) % size_modulus = amount + 1 := Nat.mod_eq_of_lt (by omega)
    have hms : ¬ amount + 1 > max_size := by omega
    simp only [buffer_t.read_string, if_neg hnn, hmod, if_neg (Nat.not_le.mpr hlt), h1,
      if_neg hms, load_some _ _ _ _ hreg, List.length_replicate] at h
    rw [if_pos (by omega)] at h
    simp only [outcome.ok.injEq] at h
    rw [← h.1]
    have hsp : splice (List.replicate (amount + 1) (0 : byte)) 0
        (((region s s.read_data).drop s.current_position).take amount)
        = ((region s s.read_data).drop s.current_position).take amount
          ++ List.replicate (0 + 1) (0 : byte) := by
      unfold splice
      rw [List.take_zero, List.nil_append, Nat.zero_add, hlen, List.drop_replicate]
      congr 2
      omega
    rw [hsp, takeWhile_append_zeros]
  · intro i hi
    unfold buffer_t.contents
    rw [List.getElem?_take_of_lt hi, List.getElem?_drop,
      List.getElem?_take_of_lt (by omega)]

/-- C19 (amended): fixed-length text read. In every consistent buffer state with cursor `p`
in which `read<std::string>(A)` returns, the cursor moves to `p + A` and the returned text
is the run of buffer bytes from `p` up to, and not including, the first zero byte among
bytes `[p, p + A)`: its length is at most `A`, its `i`-th byte equals buffer byte `p + i`,
none of its bytes is zero, and when it is shorter than `A` the buffer byte that follows it
is zero. -/
theorem text_read_spec (amount : Nat) (s s1 : buffer_t) (v : List byte) (hwf : s.wf)
    (h : buffer_t.read_string amount s = outcome.ok v s1) :
    s1.at_const = s.current_position + amount ∧ v.length ≤ amount ∧
    (∀ i, i < v.length → v[i]? = s.contents[s.current_position + i]? ∧ v[i]? ≠ some 0) ∧
    (v.length < amount → s.contents[s.current_position + v.length]? = some 0) ∧
    ((∀ i, i < amount → s.contents[s.current_position + i]? ≠ some 0) →
      v.length = amount) := by
  obtain ⟨_, hs1, hv, hlen, hidx⟩ := read_string_value amount s s1 v hwf h
  obtain ⟨k1, k2, k3⟩ := takeWhile_nonzero_spec
    (((region s s.read_data).drop s.current_position).take amount)
  rw [← hv, hlen] at k1 k3
  rw [← hv] at k2
  have hpart3 : v.length < amount → s.contents[s.current_position + v.length]? = some 0 := by
    intro hlt
    rw [← hidx _ hlt]
    exact k3 hlt
  refine ⟨by rw [hs1]; rfl, k1, ?_, hpart3, ?_⟩
  · intro i hi
    obtain ⟨a, b⟩ := k2 i hi
    rw [hidx i (by omega)] at a b
    exact ⟨a, by rw [a]; exact b⟩
  · intro hall
    by_contra hne
    have hlt : v.length < amount := by omega
    exact hall _ hlt (hpart3 hlt)

/-- C20 (amended): text write and read-back. In every consistent buffer state with cursor
`p` in which `write<std::string>(v, A)` returns without growing the buffer, that is with
`p + A < length` before the call, `at(p)` returns and `read<std::string>(A)` then returns
the first `min(|v|, A)` bytes of `v` cut at their first zero byte, leaving the buffer in the
state the write left it in. -/
theorem text_round_trip_without_growth (value : List byte) (amount : Nat) (s s1 : buffer_t)
    (hwf : s.wf) (hfit : s.current_position + amount < s.length)
    (hw : buffer_t.write_string value amount s = outcome.ok () s1) :
    buffer_t.at_set s.current_position s1
      = outcome.ok () { s1 with current_position := s.current_position } ∧
    buffer_t.read_string amount { s1 with current_position := s.current_position }
      = outcome.ok ((value.take amount).takeWhile (fun b => b ≠ 0)) s1 ∧
    ((value.take amount).takeWhile (fun b => b ≠ 0)).length ≤ min value.length amount ∧
    ((∀ b, b ∈ value → b ≠ 0) →
      (value.take amount).takeWhile (fun b => b ≠ 0) = value.take amount) := by
  have hM := (wf_length_lt _ hwf)
  have hM2 := hwf.2.1
  obtain ⟨m, s0, s2, hm, hc, hpl, hst, hs1⟩ :=
    write_run_payload (operation.write_string value amount) s s1 rfl hw
  have hma : m = amount := by
    have := hm (by simp only [operation.valid]; omega)
    simp only [operation.byte_count, Option.some.injEq] at this
    exact this.symm
  subst hma
  rw [write_check_fit m s hwf hfit] at hc
  simp only [outcome.ok.injEq, true_and] at hc
  subst hc
  have hnull := store_not_null _ _ _ _ _ hst
  have hrw := wf_read_eq_write s hwf hnull
  have hf := store_fields _ _ _ _ _ hst
  have hld := load_store _ _ _ _ _ hst
  rw [hpl] at hld
  have hmod : (s.current_position + m) % size_modulus = s.current_position + m :=
    Nat.mod_eq_of_lt (by omega)
  have h1 : (m + 1) % size_modulus = m + 1 := Nat.mod_eq_of_lt (by omega)
  have hsp : splice (List.replicate (m + 1) (0 : byte)) 0
      (operation.write_string value m).payload
      = value.take m ++ List.replicate (m - value.length + 1) (0 : byte) := by
    unfold splice
    rw [List.take_zero, List.nil_append, Nat.zero_add, hpl, List.drop_replicate]
    rw [text_payload, List.append_assoc, ← List.replicate_add]
    congr 2
    omega
  subst hs1
  refine ⟨?_, ?_, ?_, ?_⟩
  · simp only [buffer_t.at_set]
    rw [if_neg (by simp only [hf.2.2.2.1]; omega)]
  · simp only [buffer_t.read_string, hf.1, hf.2.2.1, hf.2.2.2.1, hrw]
    rw [if_neg hnull, hmod, if_neg (by omega), h1, if_neg (by omega), load_fields, hld]
    simp only [List.length_replicate]
    rw [if_pos (by omega), hsp, takeWhile_append_zeros]
  · have := (takeWhile_nonzero_spec (value.take m)).1
    rw [List.length_take] at this
    omega
  · intro hall
    rw [List.takeWhile_eq_self_iff]
    intro b hb
    simpa using hall b (List.mem_of_mem_take hb)

/-- C11 (failing input): an owning, expandable buffer of length 0 on which a write past the
end does not grow the buffer. `buffer_t(0)` is owning and expandable with length 0, its
vector has no storage and the write pointer is null: `write<std::uint32_t>(1)`, with
`p + n = 4 >= 0`, throws the not-writable `std::runtime_error` and the size stays 0. A second
input: on `buffer_t(10)` moved to position 1, `write<std::string>("hi", n)` with
`n = 18446744073709551615` has `p + n >= L`, but `p + n` wraps to 0, the bounds test passes
without growth, `"hi"` is stored and the padding vector throws `std::length_error`; the size
stays 10. -/
theorem growth_on_write_rejected :
    (buffer_t.sized_ctor 0 = construction.ok { buffer_t.default_ctor with owning := true } ∧
     ({ buffer_t.default_ctor with owning := true } : buffer_t).owning = true ∧
     ({ buffer_t.default_ctor with owning := true } : buffer_t).is_expandable = true ∧
     ({ buffer_t.default_ctor with owning := true } : buffer_t).length = 0 ∧
     ({ buffer_t.default_ctor with owning := true } : buffer_t).length
       ≤ ({ buffer_t.default_ctor with owning := true } : buffer_t).current_position + 4 ∧
     buffer_t.write_integral integral_t.uint32 1 false
         { buffer_t.default_ctor with owning := true }
       = outcome.throws exception_t.runtime_error
         { buffer_t.default_ctor with owning := true }) ∧
    (({ example_owned with current_position := 1 } : buffer_t).owning = true ∧
     ({ example_owned with current_position := 1 } : buffer_t).is_expandable = true ∧
     ({ example_owned with current_position := 1 } : buffer_t).length ≤ 1 + (2 ^ 64 - 1) ∧
     buffer_t.write_string [104, 105] (2 ^ 64 - 1)
         { example_owned with current_position := 1 }
       = outcome.throws exception_t.length_error
         { example_owned with
             current_position := 1, data := ⟨[0, 104, 105, 0, 0, 0, 0, 0, 0, 0], true⟩ } ∧
     ({ example_owned with
         current_position := 1, data := ⟨[0, 104, 105, 0, 0, 0, 0, 0, 0, 0], true⟩ }
       : buffer_t).size = 10) := by
  refine ⟨⟨by decide, by decide, by decide, by decide, by decide, by decide⟩,
    ⟨by decide, by decide, by decide, by decide, by decide⟩⟩

/-- Growth on write, an instance: on `buffer_t(10)` moved to position 10,
`write<std::int16_t>(-2)` returns and the buffer has 12 bytes, the last two holding the
value. -/
theorem growth_on_write_witness :
    ({ example_owned with current_position := 10 } : buffer_t).wf ∧
    ∃ s1, (operation.write_integral integral_t.int16 (-2) false).run
        { example_owned with current_position := 10 } = outcome.ok () s1 ∧
      s1.size = 12 ∧ s1.contents[10 + 0]? = some 254 ∧ s1.contents[10 + 1]? = some 255 :=
  ⟨by decide,
   let ⟨s1, h1, h2, _, h4, _⟩ := growth_on_write { example_owned with current_position := 10 }
     (operation.write_integral integral_t.int16 (-2) false) 2 (by decide) rfl rfl
     (by decide) rfl (by decide) rfl (by decide) (by decide) (by decide)
   ⟨s1, h1, h2, h4 0 (by decide), h4 1 (by decide)⟩⟩

/-- C12 (witness): the write of two bytes at position 10 of `buffer_t(10)` changes the size
from 10 to 12, and it is a write on an owning, expandable buffer with
`position + 2 >= length`. -/
theorem growth_confined_witness :
    (operation.write_integral integral_t.int16 (-2) false).is_write = true ∧
    ({ example_owned with current_position := 10 } : buffer_t).owning = true ∧
    ({ example_owned with current_position := 10 } : buffer_t).is_expandable = true ∧
    ∃ n, (operation.write_integral integral_t.int16 (-2) false).byte_count = some n ∧
      ({ example_owned with current_position := 10 } : buffer_t).length
        ≤ ({ example_owned with current_position := 10 } : buffer_t).current_position + n :=
  ((growth_confined (operation.write_integral integral_t.int16 (-2) false)
      { example_owned with current_position := 10 }
      { example_owned with
          length := 12, data := ⟨[0, 0, 0, 0, 0, 0, 0, 0, 0, 0, 254, 255], true⟩,
          current_position := 12 }
      (by decide)).1 (by decide)).resolve_left (by
        intro h
        obtain ⟨⟨k, hk⟩, _⟩ := h
        cases hk)

/-- C13 (witness): the two buffers built over the caller's bytes `1 2 3 4`. -/
theorem construct_from_immutable_witness :
    (∃ s, buffer_t.const_ctor (some [1, 2, 3, 4]) 4 false = construction.ok s ∧
      s.size = 4 ∧ s.at_const = 0 ∧ s.contents = [1, 2, 3, 4] ∧ s.owning = false) ∧
    (∃ s, buffer_t.const_ctor (some [1, 2, 3, 4]) 4 true = construction.ok s ∧
      s.size = 4 ∧ s.at_const = 0 ∧ s.contents = [1, 2, 3, 4] ∧ s.owning = true) :=
  let ⟨⟨s, a1, a2, a3, a4, a5, _⟩, ⟨t, b1, b2, b3, b4, b5, _⟩, _⟩ :=
    construct_from_immutable [1, 2, 3, 4] 4 (by decide) (by decide)
  ⟨⟨s, a1, a2, a3, a4, a5⟩, ⟨t, b1, b2, b3, b4, b5⟩⟩

/-- C14 (failing input): on the view `buffer_t(ptr, 4, false)` over mutable bytes, moved to
position 1, `write<std::string>("hi", 18446744073709551615)` has `position + n >= length`,
yet `position + n` wraps to 0, the bounds test passes, `std::out_of_range` is not thrown,
`"hi"` is copied into bytes 1 and 2 of the caller's block and the padding vector then throws
`std::length_error`. -/
theorem mutable_view_wrap_accepted :
    buffer_t.mutable_ctor (some [1, 2, 3, 4]) 4 false = construction.ok example_view ∧
    buffer_t.at_set 1 example_view
      = outcome.ok () { example_view with current_position := 1 } ∧
    ({ example_view with current_position := 1 } : buffer_t).length ≤ 1 + (2 ^ 64 - 1) ∧
    buffer_t.write_check (2 ^ 64 - 1) { example_view with current_position := 1 }
      = outcome.ok () { example_view with current_position := 1 } ∧
    buffer_t.write_string [104, 105] (2 ^ 64 - 1) { example_view with current_position := 1 }
      ≠ outcome.throws exception_t.out_of_range
          { example_view with current_position := 1 } ∧
    buffer_t.write_string [104, 105] (2 ^ 64 - 1) { example_view with current_position := 1 }
      = outcome.throws exception_t.length_error
          { example_view with current_position := 1, caller_memory := [1, 104, 105, 4] } := by
  refine ⟨by decide, by decide, by decide, by decide, by decide, by decide⟩

/-- C15 (failing input): `buffer_t(0)` is owning and expandable, but its vector has no
storage, both pointers are null, and `write<std::uint8_t>(1)` is rejected with the
not-writable `std::runtime_error`. -/
theorem empty_owned_not_writable :
    buffer_t.sized_ctor 0 = construction.ok { buffer_t.default_ctor with owning := true } ∧
    ({ buffer_t.default_ctor with owning := true } : buffer_t).size = 0 ∧
    ({ buffer_t.default_ctor with owning := true } : buffer_t).expandaable = true ∧
    ({ buffer_t.default_ctor with owning := true } : buffer_t).write_data = pointer_t.null ∧
    buffer_t.write_integral integral_t.uint8 1 false
        { buffer_t.default_ctor with owning := true }
      = outcome.throws exception_t.runtime_error
        { buffer_t.default_ctor with owning := true } := by
  refine ⟨by decide, by decide, by decide, by decide, by decide⟩

/-- C16 (failing input): the pre-sized constructor called with size 0 does not throw; it
returns an empty owning buffer, where the two pointer constructors called with size 0 throw
`std::runtime_error`. -/
theorem sized_ctor_accepts_zero :
    buffer_t.sized_ctor 0 = construction.ok { buffer_t.default_ctor with owning := true } ∧
    buffer_t.sized_ctor 0 ≠ construction.throws exception_t.runtime_error ∧
    buffer_t.const_ctor (some [1, 2, 3, 4]) 0 false
      = construction.throws exception_t.runtime_error ∧
    buffer_t.mutable_ctor (some [1, 2, 3, 4]) 0 false
      = construction.throws exception_t.runtime_error := by
  refine ⟨by decide, by decide, by decide, by decide⟩

/-- An instance of the rejection: a null pointer with size 0, and a valid pointer with
size 0, are rejected by both pointer constructors. -/
theorem pointer_ctors_reject_witness :
    (buffer_t.const_ctor none 0 false = construction.throws exception_t.runtime_error ∧
     buffer_t.mutable_ctor none 0 false = construction.throws exception_t.runtime_error) ∧
    (buffer_t.const_ctor (some [1, 2, 3, 4]) 0 true
       = construction.throws exception_t.runtime_error ∧
     buffer_t.mutable_ctor (some [1, 2, 3, 4]) 0 true
       = construction.throws exception_t.runtime_error) :=
  ⟨⟨(pointer_ctors_reject none 0 false (Or.inl rfl)).1,
    (pointer_ctors_reject none 0 false (Or.inl rfl)).2.1⟩,
   ⟨(pointer_ctors_reject (some [1, 2, 3, 4]) 0 true (Or.inr rfl)).1,
    (pointer_ctors_reject (some [1, 2, 3, 4]) 0 true (Or.inr rfl)).2.1⟩⟩

/-- C17 (witness): on a read-only view of four bytes, a one-byte write at position 0, which
would fit, and a text write of 100 bytes, which would not, both throw `std::runtime_error`. -/
theorem not_writable_precedes_bounds_witness :
    buffer_t.const_ctor (some [1, 2, 3, 4]) 4 false
      = construction.ok { example_view with write_data := pointer_t.null } ∧
    (operation.write_integral integral_t.uint8 7 false).run
        { example_view with write_data := pointer_t.null }
      = outcome.throws exception_t.runtime_error
          { example_view with write_data := pointer_t.null } ∧
    (operation.write_string [104, 105] 100).run
        { example_view with write_data := pointer_t.null }
      = outcome.throws exception_t.runtime_error
          { example_view with write_data := pointer_t.null } :=
  ⟨by decide,
   (not_writable_precedes_bounds.1 { example_view with write_data := pointer_t.null }
      (operation.write_integral integral_t.uint8 7 false) rfl rfl).1,
   (not_writable_precedes_bounds.1 { example_view with write_data := pointer_t.null }
      (operation.write_string [104, 105] 100) rfl rfl).1⟩

/-- C18 (witness): on `buffer_t(5)` the text write of `"hi"` with amount 5 at position 0
leaves the bytes `h i 0 0 0` and the cursor at 5. -/
theorem text_write_spec_witness :
    buffer_t.sized_ctor 5 = construction.ok
      { example_owned with length := 5, data := ⟨List.replicate 5 0, true⟩ } ∧
    ({ example_owned with length := 5, data := ⟨List.replicate 5 0, true⟩ } : buffer_t).wf ∧
    buffer_t.write_string [104, 105] 5
        { example_owned with length := 5, data := ⟨List.replicate 5 0, true⟩ }
      = outcome.ok () { example_owned with
          length := 5, data := ⟨[104, 105, 0, 0, 0], true⟩, current_position := 5 } ∧
    ({ example_owned with
        length := 5, data := ⟨[104, 105, 0, 0, 0], true⟩, current_position := 5 }
      : buffer_t).contents = [104, 105, 0, 0, 0] ∧
    ({ example_owned with
        length := 5, data := ⟨[104, 105, 0, 0, 0], true⟩, current_position := 5 }
      : buffer_t).at_const = 0 + 5 :=
  ⟨by decide, by decide, by decide, by decide,
   (text_write_spec [104, 105] 5
      { example_owned with length := 5, data := ⟨List.replicate 5 0, true⟩ }
      { example_owned with
        length := 5, data := ⟨[104, 105, 0, 0, 0], true⟩, current_position := 5 }
      (by decide) (by decide)).2.2⟩

/-- C19 (counterexample): a text read across zero bytes returns a shorter text. On a
10-byte owned buffer holding `h i 0 0 0 0 0 0 0 0`, `read<std::string>(5)` at position 0
returns the 2-byte text `hi`, not a 5-byte value. -/
theorem text_read_stops_at_zero :
    buffer_t.read_string 5
        { example_owned with data := ⟨[104, 105, 0, 0, 0, 0, 0, 0, 0, 0], true⟩ }
      = outcome.ok [104, 105]
          { example_owned with
            data := ⟨[104, 105, 0, 0, 0, 0, 0, 0, 0, 0], true⟩, current_position := 5 } ∧
    ([104, 105] : List byte).length ≠ 5 := by
  refine ⟨by decide, by decide⟩

/-- C19 (witness): on a 10-byte owned buffer holding `h i 0 0 0 0 0 0 0 0` the text read of
5 bytes moves the cursor to 5 and returns at most 5 bytes. -/
theorem text_read_spec_witness :
    ({ example_owned with data := ⟨[104, 105, 0, 0, 0, 0, 0, 0, 0, 0], true⟩ } : buffer_t).wf ∧
    ({ example_owned with
        data := ⟨[104, 105, 0, 0, 0, 0, 0, 0, 0, 0], true⟩, current_position := 5 }
      : buffer_t).at_const = 0 + 5 ∧
    ([104, 105] : List byte).length ≤ 5 :=
  ⟨by decide,
   (text_read_spec 5
      { example_owned with data := ⟨[104, 105, 0, 0, 0, 0, 0, 0, 0, 0], true⟩ }
      { example_owned with
        data := ⟨[104, 105, 0, 0, 0, 0, 0, 0, 0, 0], true⟩, current_position := 5 }
      [104, 105] (by decide) (by decide)).1,
   (text_read_spec 5
      { example_owned with data := ⟨[104, 105, 0, 0, 0, 0, 0, 0, 0, 0], true⟩ }
      { example_owned with
        data := ⟨[104, 105, 0, 0, 0, 0, 0, 0, 0, 0], true⟩, current_position := 5 }
      [104, 105] (by decide) (by decide)).2.1⟩

/-- C20 (counterexample): the scenario of the specification. On `buffer_t(5)` the text
write of `"hi"` with amount 5 at position 0 returns, `at(0)` returns, and
`read<std::string>(5)` throws `std::out_of_range` because `0 + 5 >= 5`. -/
theorem text_round_trip_fails :
    buffer_t.write_string [104, 105] 5
        { example_owned with length := 5, data := ⟨List.replicate 5 0, true⟩ }
      = outcome.ok () { example_owned with
          length := 5, data := ⟨[104, 105, 0, 0, 0], true⟩, current_position := 5 } ∧
    buffer_t.at_set 0 { example_owned with
          length := 5, data := ⟨[104, 105, 0, 0, 0], true⟩, current_position := 5 }
      = outcome.ok () { example_owned with
          length := 5, data := ⟨[104, 105, 0, 0, 0], true⟩ } ∧
    buffer_t.read_string 5 { example_owned with
          length := 5, data := ⟨[104, 105, 0, 0, 0], true⟩ }
      = outcome.throws exception_t.out_of_range { example_owned with
          length := 5, data := ⟨[104, 105, 0, 0, 0], true⟩ } := by
  refine ⟨by decide, by decide, by decide⟩

/-- C20 (witness): on `buffer_t(10)` the text write of `"hi"` with amount 5 at position 0
is read back as the 2-byte text `hi`. -/
theorem text_round_trip_without_growth_witness :
    example_owned.wf ∧
    buffer_t.write_string [104, 105] 5 example_owned
      = outcome.ok () { example_owned with
          data := ⟨[104, 105, 0, 0, 0, 0, 0, 0, 0, 0], true⟩, current_position := 5 } ∧
    buffer_t.read_string 5
        { example_owned with data := ⟨[104, 105, 0, 0, 0, 0, 0, 0, 0, 0], true⟩ }
      = outcome.ok [104, 105] { example_owned with
          data := ⟨[104, 105, 0, 0, 0, 0, 0, 0, 0, 0], true⟩, current_position := 5 } :=
  ⟨by decide, by decide,
   (text_round_trip_without_growth [104, 105] 5 example_owned
      { example_owned with
        data := ⟨[104, 105, 0, 0, 0, 0, 0, 0, 0, 0], true⟩, current_position := 5 }
      (by decide) (by decide) (by decide)).2.1⟩

theorem le_value_lt (bs : List byte) : le_value bs < 256 ^ bs.length := by
  induction bs with
  | nil => simp [le_value]
  | cons b bs ih =>
    have hb := b.isLt
    simp only [le_value, List.length_cons, Nat.pow_succ]
    omega

theorem le_bytes_le_value (bs : List byte) : le_bytes bs.length (le_value bs) = bs := by
  induction bs with
  | nil => rfl
  | cons b bs ih =>
    have hb := b.isLt
    simp only [le_value, List.length_cons, le_bytes]
    have h1 : (b.val + 256 * le_value bs) % 256 = b.val := by omega
    have h2 : (b.val + 256 * le_value bs) / 256 = le_value bs := by omega
    rw [h2, ih]
    congr 1
    exact Fin.ext h1

theorem object_bytes_object_value (T : integral_t) (bs : List byte)
    (h : bs.length = T.sizeof) : object_bytes T (object_value T bs) = bs := by
  have hlt := le_value_lt bs
  rw [h] at hlt
  have key : ((object_value T bs) % (2 ^ (8 * T.sizeof) : Int)).toNat = le_value bs := by
    have h256 : (256 : Nat) ^ T.sizeof = 2 ^ (8 * T.sizeof) := by
      rw [show (256 : Nat) = 2 ^ 8 by norm_num, ← Nat.pow_mul]
    rw [h256] at hlt
    have hlt2 : (le_value bs : Int) < 2 ^ (8 * T.sizeof) := by exact_mod_cast hlt
    have hnn : (0 : Int) ≤ le_value bs := Int.ofNat_nonneg _
    unfold object_value
    split
    · have e : ((le_value bs : Int) - 2 ^ (8 * T.sizeof)) % 2 ^ (8 * T.sizeof)
          = (le_value bs : Int) := by
        rw [Int.sub_emod, Int.emod_self, sub_zero, Int.emod_emod_of_dvd _ (dvd_refl _),
          Int.emod_eq_of_lt hnn hlt2]
      rw [e, Int.toNat_ofNat]
    · rw [Int.emod_eq_of_lt hnn hlt2, Int.toNat_ofNat]
  unfold object_bytes
  rw [key, ← h, le_bytes_le_value]

theorem object_bytes_length (T : integral_t) (v : Int) : (object_bytes T v).length = T.sizeof := by
  simp [object_bytes, le_bytes_length]

theorem load_length (s : buffer_t) (p : pointer_t) (off n : Nat) (bytes : List byte)
    (h : load s p off n = some bytes) : bytes.length = n := by
  unfold load at h
  split at h
  · simp only [Option.some.injEq] at h
    subst h
    rw [List.length_take, List.length_drop]
    omega
  · simp at h

theorem read_integral_value (T : integral_t) (r : Bool) (s s1 : buffer_t) (v : Int)
    (h : buffer_t.read_integral T r s = outcome.ok v s1) :
    ∃ bytes, load s s.read_data s.current_position T.sizeof = some bytes ∧
      bytes.length = T.sizeof ∧
      v = object_value T (if r then bytes.reverse else bytes) ∧
      s1 = { s with current_position := (s.current_position + T.sizeof) % size_modulus } ∧
      ∀ r2, buffer_t.read_integral T r2 s
        = outcome.ok (object_value T (if r2 then bytes.reverse else bytes)) s1 := by
  simp only [buffer_t.read_integral] at h ⊢
  split at h
  · simp at h
  · rename_i hnn
    split at h
    · simp at h
    · rename_i hlt
      split at h
      · simp at h
      · rename_i bytes hld
        simp only [outcome.ok.injEq] at h
        refine ⟨bytes, hld, load_length _ _ _ _ _ hld, h.1.symm, h.2.symm, ?_⟩
        intro r2
        rw [if_neg hnn, if_neg hlt, h.2]

theorem write_integral_flag (T : integral_t) (v : Int) (r r2 : Bool) (s s1 : buffer_t)
    (h : buffer_t.write_integral T v r s = outcome.ok () s1) :
    ∃ s2, buffer_t.write_integral T v r2 s = outcome.ok () s2 := by
  obtain ⟨m, s0, t, hm, hc, hpl, hst, _⟩ :=
    write_run_payload (operation.write_integral T v r) s s1 rfl h
  have hnn : s.write_data ≠ pointer_t.null := (write_integral_ok T v r s s1 h).1
  have hm1 : m = T.sizeof := by
    have := hm trivial
    simp only [operation.byte_count, Option.some.injEq] at this
    exact this.symm
  subst hm1
  obtain ⟨hreg, _⟩ := store_region _ _ _ _ _ hst
  have hnn0 := store_not_null _ _ _ _ _ hst
  have hl2 : (operation.write_integral T v r2).payload.length = T.sizeof := by
    simp only [operation.payload]
    split <;> simp [object_bytes_length]
  obtain ⟨t2, ht2⟩ := store_some s0 s0.write_data s0.current_position
    (operation.write_integral T v r2).payload hnn0 (by rw [hl2, ← hpl]; exact hreg)
  obtain ⟨m2, hm2, hrun⟩ := write_run_eq (operation.write_integral T v r2) s rfl hnn
  have hm3 : m2 = T.sizeof := by
    have := hm2 trivial
    simp only [operation.byte_count, Option.some.injEq] at this
    exact this.symm
  subst hm3
  exact ⟨_, hrun s0 t2 hc hl2 ht2 (by cases T <;> decide)⟩

theorem write_integral_window (T : integral_t) (v : Int) (r : Bool) (s s1 : buffer_t)
    (hwf : s.wf) (h : buffer_t.write_integral T v r s = outcome.ok () s1) :
    ∃ s0, buffer_t.write_check T.sizeof s = outcome.ok () s0 ∧
      s.current_position + T.sizeof ≤ s0.contents.length ∧
      s1.contents = splice s0.contents s.current_position
        (if r then (object_bytes T v).reverse else object_bytes T v) ∧
      (s1.contents.drop s.current_position).take T.sizeof
        = (if r then (object_bytes T v).reverse else object_bytes T v) := by
  obtain ⟨m, s0, hm, hpl, hc, _, _, hle, _, hcl, _, _, hcs⟩ :=
    write_run_contents (operation.write_integral T v r) s s1 hwf rfl h
  have hm1 : m = T.sizeof := by
    have := hm trivial
    simp only [operation.byte_count, Option.some.injEq] at this
    exact this.symm
  subst hm1
  simp only [operation.payload] at hpl hcs
  refine ⟨s0, hc, by omega, hcs, ?_⟩
  rw [hcs]
  have := drop_take_splice s0.contents
    (if r then (object_bytes T v).reverse else object_bytes T v) s.current_position
    (by rw [hpl]; omega)
  rw [hpl] at this
  exact this

theorem write_then_load (op : operation) (s s1 : buffer_t) (hwf : s.wf)
    (hw : op.is_write = true) (h : op.run s = outcome.ok () s1) :
    s1.read_data ≠ pointer_t.null ∧
    load s1 s1.read_data s.current_position op.payload.length = some op.payload ∧
    s.current_position + op.payload.length ≤ s1.length ∧
    s1.current_position = s.current_position + op.payload.length := by
  obtain ⟨m, s0, t, _, hc, hpl, hst, hs1⟩ := write_run_payload op s s1 hw h
  obtain ⟨m2, s02, _, hpl2, hc2, hwf0, hp0, hle, _, _, hlen1, hpos1, _⟩ :=
    write_run_contents op s s1 hwf hw h
  have hmm : m2 = m := by rw [← hpl, ← hpl2]
  subst hmm
  rw [hc] at hc2
  simp only [outcome.ok.injEq, true_and] at hc2
  subst hc2
  have hnn0 := store_not_null _ _ _ _ _ hst
  have hrw := wf_read_eq_write s0 hwf0 hnn0
  have hf := store_fields _ _ _ _ _ hst
  have hld := load_store _ _ _ _ _ hst
  subst hs1
  simp only [hf.1, hrw] at *
  refine ⟨hnn0, ?_, by omega, by omega⟩
  rw [load_fields, ← hp0]
  exact hld

theorem integral_write_read (T : integral_t) (v : Int) (r r2 : Bool) (s s1 : buffer_t)
    (hwf : s.wf) (hfit : s.current_position + T.sizeof < s.length)
    (hw : buffer_t.write_integral T v r s = outcome.ok () s1) :
    buffer_t.at_set s.current_position s1
      = outcome.ok () { s1 with current_position := s.current_position } ∧
    buffer_t.read_integral T r2 { s1 with current_position := s.current_position }
      = outcome.ok (object_value T
          (if r2 then (if r then (object_bytes T v).reverse else object_bytes T v).reverse
           else (if r then (object_bytes T v).reverse else object_bytes T v))) s1 := by
  have hM := (wf_length_lt _ hwf)
  obtain ⟨hnn, hld, hle, hpos⟩ :=
    write_then_load (operation.write_integral T v r) s s1 hwf rfl hw
  have hpl : (operation.write_integral T v r).payload.length = T.sizeof := by
    simp only [operation.payload]
    split <;> simp [object_bytes_length]
  rw [hpl] at hld hle hpos
  simp only [operation.payload] at hld
  obtain ⟨_, s0, hc, _, _, _, hlen, _⟩ := write_integral_ok T v r s s1 hw
  rw [write_check_fit T.sizeof s hwf hfit] at hc
  simp only [outcome.ok.injEq, true_and] at hc
  subst hc
  constructor
  · simp only [buffer_t.at_set]
    rw [if_neg (by omega)]
  · simp only [buffer_t.read_integral]
    rw [if_neg hnn, Nat.mod_eq_of_lt (by omega), if_neg (by omega), load_fields, hld]
    simp only
    rw [← hpos]

/-- C21: the reverse flag is a byte-order flip. From one consistent buffer state with cursor
`p`: `write<T>(v, true)` returns exactly when `write<T>(v, false)` does, and the
`sizeof(T)` bytes it leaves at `[p, p + sizeof(T))` are the reversal of those left by
`write<T>(v, false)`, which are the object representation of `v`; `read<T>(true)` returns
exactly when `read<T>(false)` does, with the same final state, and the object
representation of its result is the reversal of that of the result of `read<T>(false)`.
Hence whenever `write<T>(v, false)` is followed by `at(p)` and a `read<T>(true)` that
returns, the result is the byte-swapped `v`, and this read does return when the write did
not grow the buffer. For a one-byte `T` the flag changes neither call. -/
theorem reverse_flag_flips (T : integral_t) (v : Int) (s : buffer_t) (hwf : s.wf) :
    (∀ s1 s2, buffer_t.write_integral T v true s = outcome.ok () s1 →
      buffer_t.write_integral T v false s = outcome.ok () s2 →
      (s2.contents.drop s.current_position).take T.sizeof = object_bytes T v ∧
      (s1.contents.drop s.current_position).take T.sizeof
        = ((s2.contents.drop s.current_position).take T.sizeof).reverse) ∧
    ((∃ s1, buffer_t.write_integral T v true s = outcome.ok () s1) ↔
      (∃ s2, buffer_t.write_integral T v false s = outcome.ok () s2)) ∧
    (∀ v1 v2 s1 s2, buffer_t.read_integral T true s = outcome.ok v1 s1 →
      buffer_t.read_integral T false s = outcome.ok v2 s2 →
      object_bytes T v1 = (object_bytes T v2).reverse ∧ s1 = s2) ∧
    ((∃ v1 s1, buffer_t.read_integral T true s = outcome.ok v1 s1) ↔
      (∃ v2 s2, buffer_t.read_integral T false s = outcome.ok v2 s2)) ∧
    (∀ s1 s2 w, buffer_t.write_integral T v false s = outcome.ok () s1 →
      buffer_t.read_integral T true { s1 with current_position := s.current_position }
        = outcome.ok w s2 →
      object_bytes T w = (object_bytes T v).reverse) ∧
    (∀ s1, s.current_position + T.sizeof < s.length →
      buffer_t.write_integral T v false s = outcome.ok () s1 →
      buffer_t.at_set s.current_position s1
        = outcome.ok () { s1 with current_position := s.current_position } ∧
      ∃ w, buffer_t.read_integral T true { s1 with current_position := s.current_position }
          = outcome.ok w s1 ∧
        object_bytes T w = (object_bytes T v).reverse) ∧
    (T.sizeof = 1 → ∀ r,
      buffer_t.write_integral T v r s = buffer_t.write_integral T v false s ∧
      buffer_t.read_integral T r s = buffer_t.read_integral T false s) := by
  refine ⟨?_, ?_, ?_, ?_, ?_, ?_, ?_⟩
  · intro s1 s2 h1 h2
    obtain ⟨_, _, _, _, hw1⟩ := write_integral_window T v true s s1 hwf h1
    obtain ⟨_, _, _, _, hw2⟩ := write_integral_window T v false s s2 hwf h2
    rw [hw1, hw2]
    simp
  · constructor
    · rintro ⟨s1, h1⟩
      exact write_integral_flag T v true false s s1 h1
    · rintro ⟨s2, h2⟩
      exact write_integral_flag T v false true s s2 h2
  · intro v1 v2 s1 s2 h1 h2
    obtain ⟨bytes, _, hlen, hv1, _, hall⟩ := read_integral_value T true s s1 v1 h1
    have h3 := hall false
    rw [h2] at h3
    simp only [outcome.ok.injEq] at h3
    obtain ⟨hv2, hs⟩ := h3
    refine ⟨?_, hs.symm⟩
    rw [hv1, hv2]
    simp only [if_true, Bool.false_eq_true, if_false]
    rw [object_bytes_object_value T bytes hlen,
      object_bytes_object_value T bytes.reverse (by rw [List.length_reverse]; exact hlen)]
  · constructor
    · rintro ⟨v1, s1, h1⟩
      obtain ⟨bytes, _, _, _, _, hall⟩ := read_integral_value T true s s1 v1 h1
      exact ⟨_, _, hall false⟩
    · rintro ⟨v2, s2, h2⟩
      obtain ⟨bytes, _, _, _, _, hall⟩ := read_integral_value T false s s2 v2 h2
      exact ⟨_, _, hall true⟩
  · intro s1 s2 w h1 h2
    obtain ⟨_, hld, _, _⟩ := write_then_load (operation.write_integral T v false) s s1 hwf rfl h1
    simp only [operation.payload, Bool.false_eq_true, if_false, object_bytes_length] at hld
    obtain ⟨bytes, hb, hlen, hw, _, _⟩ := read_integral_value T true _ s2 w h2
    simp only [load_fields] at hb
    rw [hld] at hb
    simp only [Option.some.injEq] at hb
    subst hb
    rw [hw]
    simp only [if_true]
    rw [object_bytes_object_value T _ (by rw [List.length_reverse]; exact hlen)]
  · intro s1 hfit h1
    obtain ⟨ha, hr⟩ := integral_write_read T v false true s s1 hwf hfit h1
    refine ⟨ha, _, hr, ?_⟩
    simp only [if_true, Bool.false_eq_true, if_false]
    rw [object_bytes_object_value T _
      (by rw [List.length_reverse]; exact object_bytes_length T v)]
  · intro h1 r
    have hrev : ∀ bs : List byte, bs.length = 1 → bs.reverse = bs := by
      intro bs hbs
      match bs, hbs with
      | [b], _ => rfl
    cases r
    · exact ⟨rfl, rfl⟩
    · constructor
      · simp only [buffer_t.write_integral, if_true, Bool.false_eq_true, if_false]
        rw [hrev _ (by rw [object_bytes_length]; exact h1)]
      · simp only [buffer_t.read_integral, if_true, Bool.false_eq_true, if_false]
        split
        · rfl
        · split
          · rfl
          · cases hld : load s s.read_data s.current_position T.sizeof with
            | none => rfl
            | some bytes =>
              simp only
              rw [hrev bytes (by rw [load_length _ _ _ _ _ hld]; exact h1)]

/-- C21 (witness): on `buffer_t(10)` at position 0, `write<std::uint16_t>(0x0102, false)`
followed by `at(0)` and `read<std::uint16_t>(true)` returns `0x0201`. -/
theorem reverse_flag_flips_witness :
    example_owned.wf ∧
    buffer_t.write_integral integral_t.uint16 258 false example_owned
      = outcome.ok () { example_owned with
          data := ⟨[2, 1, 0, 0, 0, 0, 0, 0, 0, 0], true⟩, current_position := 2 } ∧
    buffer_t.read_integral integral_t.uint16 true
        { example_owned with data := ⟨[2, 1, 0, 0, 0, 0, 0, 0, 0, 0], true⟩ }
      = outcome.ok 513 { example_owned with
          data := ⟨[2, 1, 0, 0, 0, 0, 0, 0, 0, 0], true⟩, current_position := 2 } ∧
    object_bytes integral_t.uint16 513 = (object_bytes integral_t.uint16 258).reverse :=
  ⟨by decide, by decide, by decide,
   (reverse_flag_flips integral_t.uint16 258 example_owned (by decide)).2.2.2.2.1
     { example_owned with
        data := ⟨[2, 1, 0, 0, 0, 0, 0, 0, 0, 0], true⟩, current_position := 2 }
     { example_owned with
        data := ⟨[2, 1, 0, 0, 0, 0, 0, 0, 0, 0], true⟩, current_position := 2 }
     513 (by decide) (by decide)⟩

theorem take_drop_take (l : List byte) (len p n : Nat) (h : p + n ≤ len) :
    ((l.take len).drop p).take n = (l.drop p).take n := by
  rw [List.drop_take, List.take_take, Nat.min_eq_left (by omega)]

theorem write_window (op : operation) (s s1 : buffer_t) (hwf : s.wf)
    (hw : op.is_write = true) (h : op.run s = outcome.ok () s1) :
    (s1.contents.drop s.current_position).take op.payload.length = op.payload := by
  obtain ⟨m, s0, _, hpl, _, _, _, hle, _, hcl, _, _, hcs⟩ :=
    write_run_contents op s s1 hwf hw h
  rw [hcs]
  exact drop_take_splice s0.contents op.payload s.current_position (by omega)

theorem write_array_source (bytesize : Nat) (value : List byte) (amount : Nat)
    (s s1 : buffer_t)
    (h : buffer_t.write_array bytesize value amount s = outcome.ok () s1) :
    (bytesize * amount) % size_modulus ≤ value.length := by
  simp only [buffer_t.write_array] at h
  split at h
  · simp at h
  · split at h
    · simp at h
    · simp at h
    · split at h
      · assumption
      · simp at h

theorem read_array_value (bytesize amount : Nat) (s s1 : buffer_t) (v : List byte)
    (hwf : s.wf) (h : buffer_t.read_array bytesize amount s = outcome.ok v s1) :
    s.current_position + (bytesize * amount) % size_modulus < s.length ∧
    v = (s.contents.drop s.current_position).take ((bytesize * amount) % size_modulus) ∧
    v.length = (bytesize * amount) % size_modulus ∧
    s1 = { s with current_position :=
      s.current_position + (bytesize * amount) % size_modulus } := by
  obtain ⟨hnn, hlt, hreg, hs1⟩ := read_array_ok bytesize amount s s1 v h
  have hM : (region s s.read_data).length < size_modulus := by
    obtain ⟨_, h2, h3, h4⟩ := hwf
    cases hp : s.read_data with
    | null => exact absurd hp hnn
    | caller => simpa [region] using h3
    | storage =>
      split at h4
      · simp only [region]
        rw [← h4.2.2.1]
        exact lt_of_le_of_lt h2 max_size_lt
      · obtain ⟨h5, _⟩ := h4
        simp only [region, h5]
        simp [size_modulus]
  have hmod : (s.current_position + (bytesize * amount) % size_modulus) % size_modulus
      = s.current_position + (bytesize * amount) % size_modulus :=
    Nat.mod_eq_of_lt (by omega)
  rw [hmod] at hlt hs1
  have hv : v = ((region s s.read_data).drop s.current_position).take
      ((bytesize * amount) % size_modulus) := by
    simp only [buffer_t.read_array] at h
    rw [if_neg hnn, hmod, if_neg (by omega), load_some _ _ _ _ hreg] at h
    simp only [outcome.ok.injEq] at h
    exact h.1.symm
  refine ⟨hlt, ?_, ?_, hs1⟩
  · rw [hv]
    simp only [buffer_t.contents]
    rw [take_drop_take _ _ _ _ (by omega)]
  · rw [hv, List.length_take, List.length_drop]
    omega

theorem array_write_read (bytesize amount : Nat) (d : List byte) (s s1 : buffer_t)
    (hwf : s.wf) (h : buffer_t.write_array bytesize d amount s = outcome.ok () s1) :
    (s1.contents.drop s.current_position).take ((bytesize * amount) % size_modulus)
      = d.take ((bytesize * amount) % size_modulus) ∧
    buffer_t.at_set s.current_position s1
      = outcome.ok () { s1 with current_position := s.current_position } ∧
    (∀ v s2, buffer_t.read_array bytesize amount
        { s1 with current_position := s.current_position } = outcome.ok v s2 →
      v = d.take ((bytesize * amount) % size_modulus) ∧ s2 = s1) ∧
    (s.current_position + (bytesize * amount) % size_modulus < s1.length →
      buffer_t.read_array bytesize amount { s1 with current_position := s.current_position }
        = outcome.ok (d.take ((bytesize * amount) % size_modulus)) s1) := by
  have hsrc := write_array_source bytesize d amount s s1 h
  have hrun : (operation.write_array bytesize d amount).run s = outcome.ok () s1 := h
  have hpl : (operation.write_array bytesize d amount).payload.length
      = (bytesize * amount) % size_modulus := by
    simp only [operation.payload, List.length_take]
    omega
  have hwin := write_window (operation.write_array bytesize d amount) s s1 hwf rfl hrun
  obtain ⟨hnn, hld, hle, hpos⟩ := write_then_load (operation.write_array bytesize d amount) s s1 hwf rfl hrun
  obtain ⟨m, _, _, hpl2, _, _, _, _, hM, _⟩ := write_run_contents (operation.write_array bytesize d amount) s s1 hwf rfl hrun
  rw [hpl] at hwin hld hle hpos
  rw [hpl] at hpl2
  subst hpl2
  simp only [operation.payload] at hwin hld
  have hread : ∀ (hlt : s.current_position + (bytesize * amount) % size_modulus < s1.length),
      buffer_t.read_array bytesize amount { s1 with current_position := s.current_position }
        = outcome.ok (d.take ((bytesize * amount) % size_modulus)) s1 := by
    intro hlt
    simp only [buffer_t.read_array]
    rw [if_neg hnn, Nat.mod_eq_of_lt hM, if_neg (by omega), load_fields, hld]
    simp only
    rw [← hpos]
  refine ⟨hwin, ?_, ?_, hread⟩
  · simp only [buffer_t.at_set]
    rw [if_neg (by omega)]
  · intro v s2 hr
    obtain ⟨_, hlt, _, _⟩ := read_array_ok bytesize amount _ s2 v hr
    simp only at hlt
    rw [Nat.mod_eq_of_lt hM] at hlt
    rw [hread hlt] at hr
    simp only [outcome.ok.injEq] at hr
    exact ⟨hr.1.symm, hr.2.symm⟩

/-- C22: block copies are verbatim. In every consistent buffer state with cursor `p`: when
the raw write of a byte sequence `d` of `count` bytes returns, bytes `[p, p + count)` of the
buffer equal `d`; when the raw read of `count` bytes returns, the destination receives
buffer bytes `[p, p + count)` in order. The typed-array forms do the same with the
`sizeof(element) * count` bytes of the array, so a typed-array write that returns, followed
by `at(p)` and a typed-array read of the same count that returns, hands back the bytes of
the original elements; the read does return when the write ended before the last byte of
the buffer. -/
theorem block_copies_verbatim (s : buffer_t) (hwf : s.wf) :
    (∀ d s1, d.length < size_modulus →
      buffer_t.write_bytes d d.length s = outcome.ok () s1 →
      (s1.contents.drop s.current_position).take d.length = d) ∧
    (∀ count v s1, count < size_modulus →
      buffer_t.read_bytes count s = outcome.ok v s1 →
      v = (s.contents.drop s.current_position).take count ∧ v.length = count) ∧
    (∀ bytesize amount d s1, d.length = bytesize * amount → d.length < size_modulus →
      buffer_t.write_array bytesize d amount s = outcome.ok () s1 →
      (s1.contents.drop s.current_position).take (bytesize * amount) = d) ∧
    (∀ bytesize amount v s1, bytesize * amount < size_modulus →
      buffer_t.read_array bytesize amount s = outcome.ok v s1 →
      v = (s.contents.drop s.current_position).take (bytesize * amount) ∧
      v.length = bytesize * amount) ∧
    (∀ bytesize amount d s1, d.length = bytesize * amount → d.length < size_modulus →
      buffer_t.write_array bytesize d amount s = outcome.ok () s1 →
      buffer_t.at_set s.current_position s1
        = outcome.ok () { s1 with current_position := s.current_position } ∧
      (∀ v s2, buffer_t.read_array bytesize amount
          { s1 with current_position := s.current_position } = outcome.ok v s2 → v = d) ∧
      (s.current_position + bytesize * amount < s1.length →
        buffer_t.read_array bytesize amount
            { s1 with current_position := s.current_position } = outcome.ok d s1)) := by
  refine ⟨?_, ?_, ?_, ?_, ?_⟩
  · intro d s1 hd h
    rw [write_bytes_eq] at h
    have := (array_write_read 1 d.length d s s1 hwf h).1
    rw [Nat.one_mul, Nat.mod_eq_of_lt hd, List.take_length] at this
    exact this
  · intro count v s1 hc h
    rw [read_bytes_eq] at h
    obtain ⟨_, hv, hl, _⟩ := read_array_value 1 count s s1 v hwf h
    rw [Nat.one_mul, Nat.mod_eq_of_lt hc] at hv hl
    exact ⟨hv, hl⟩
  · intro bytesize amount d s1 hd hM h
    have := (array_write_read bytesize amount d s s1 hwf h).1
    rw [← hd, Nat.mod_eq_of_lt hM, List.take_length] at this
    rw [← hd]
    exact this
  · intro bytesize amount v s1 hM h
    obtain ⟨_, hv, hl, _⟩ := read_array_value bytesize amount s s1 v hwf h
    rw [Nat.mod_eq_of_lt hM] at hv hl
    exact ⟨hv, hl⟩
  · intro bytesize amount d s1 hd hM h
    obtain ⟨_, ha, hr, hex⟩ := array_write_read bytesize amount d s s1 hwf h
    rw [← hd, Nat.mod_eq_of_lt hM, List.take_length] at hr hex
    rw [← hd]
    exact ⟨ha, fun v s2 hv => (hr v s2 hv).1, hex⟩

/-- C22 (witness): on `buffer_t(10)` at position 0, the typed-array write of two 2-byte
elements with bytes `1 2 3 4`, followed by `at(0)` and the typed-array read of two
elements, hands back `1 2 3 4`. -/
theorem block_copies_verbatim_witness :
    example_owned.wf ∧
    buffer_t.write_array 2 [1, 2, 3, 4] 2 example_owned
      = outcome.ok () { example_owned with
          data := ⟨[1, 2, 3, 4, 0, 0, 0, 0, 0, 0], true⟩, current_position := 4 } ∧
    buffer_t.read_array 2 2
        { example_owned with data := ⟨[1, 2, 3, 4, 0, 0, 0, 0, 0, 0], true⟩ }
      = outcome.ok [1, 2, 3, 4] { example_owned with
          data := ⟨[1, 2, 3, 4, 0, 0, 0, 0, 0, 0], true⟩, current_position := 4 } :=
  ⟨by decide, by decide,
   ((block_copies_verbatim example_owned (by decide)).2.2.2.2 2 2 [1, 2, 3, 4]
      { example_owned with
          data := ⟨[1, 2, 3, 4, 0, 0, 0, 0, 0, 0], true⟩, current_position := 4 }
      (by decide) (by decide) (by decide)).2.2 (by decide)⟩

theorem write_check_keeps (m : Nat) (s s0 : buffer_t) (hwf : s.wf)
    (hc : buffer_t.write_check m s = outcome.ok () s0) :
    ∀ i, i < s.length → s0.contents[i]? = s.contents[i]? := by
  intro i hi
  rcases write_check_ok m s s0 hc with ⟨h1, _⟩ | ⟨h1, h2, _, h4⟩
  · rw [h1]
  · obtain ⟨hcb, hcl⟩ := wf_owning_contents s hwf h2
    rw [resize_contents s s0 _ h4, hcb]
    rw [List.getElem?_append_left (by rw [List.length_take]; omega)]
    rw [List.getElem?_take_of_lt (by omega)]

/-- C28: frame of successful transfers. In every consistent buffer state with cursor `p`,
for every read or write of `n` bytes that returns, every byte that existed before the call
at an index outside `[p, p + n)` has the same value afterwards; and a read that returns
leaves the whole object as it was except for the position: no byte, not the length, not
the owning flag and not the expandable flag changes. -/
theorem transfer_frame (op : operation) (s s1 : buffer_t) (hwf : s.wf) (hval : op.valid)
    (h : op.run s = outcome.ok () s1) :
    (∀ n, (op.is_read = true ∨ op.is_write = true) → op.byte_count = some n →
      ∀ i, i < s.length → (i < s.current_position ∨ s.current_position + n ≤ i) →
        s1.contents[i]? = s.contents[i]?) ∧
    (op.is_read = true →
      s1 = { s with current_position := s1.current_position } ∧
      s1.contents = s.contents ∧ s1.size = s.size ∧ s1.owning = s.owning ∧
      s1.expandaable = s.expandaable) := by
  have hread : op.is_read = true → s1 = { s with current_position := s1.current_position } := by
    intro hr
    obtain ⟨_, m, _, _, _, hs1⟩ := read_run_ok op s s1 hr h
    rw [hs1]
  constructor
  · intro n hrw hn i hi hout
    rcases hrw with hr | hw
    · rw [hread hr]
      rfl
    · obtain ⟨m, s0, hm, hpl, hc, _, _, hle, _, hcl, _, _, hcs⟩ :=
        write_run_contents op s s1 hwf hw h
      have hmn : m = n := by
        have := hm hval
        rw [hn] at this
        exact (Option.some.inj this).symm
      subst hmn
      rw [hcs, ← write_check_keeps m s s0 hwf hc i hi]
      rcases hout with h1 | h2
      · exact splice_getElem_lt _ _ _ _ h1 (by omega)
      · exact splice_getElem_ge _ _ _ _ (by omega) (by omega)
  · intro hr
    have := hread hr
    refine ⟨this, ?_, ?_, ?_, ?_⟩ <;> rw [this] <;> rfl

/-- C28 (witness): on `buffer_t(10)` holding `9 9 9 9 9 9 9 9 9 9` at position 2,
`write<std::uint16_t>(0x0102)` changes bytes 2 and 3 only. -/
theorem transfer_frame_witness :
    ({ example_owned with
        data := ⟨[9, 9, 9, 9, 9, 9, 9, 9, 9, 9], true⟩, current_position := 2 } : buffer_t).wf ∧
    (operation.write_integral integral_t.uint16 258 false).run
        { example_owned with
          data := ⟨[9, 9, 9, 9, 9, 9, 9, 9, 9, 9], true⟩, current_position := 2 }
      = outcome.ok () { example_owned with
          data := ⟨[9, 9, 2, 1, 9, 9, 9, 9, 9, 9], true⟩, current_position := 4 } ∧
    ({ example_owned with
        data := ⟨[9, 9, 2, 1, 9, 9, 9, 9, 9, 9], true⟩, current_position := 4 }
      : buffer_t).contents[4]?
      = ({ example_owned with
          data := ⟨[9, 9, 9, 9, 9, 9, 9, 9, 9, 9], true⟩, current_position := 2 }
        : buffer_t).contents[4]? :=
  ⟨by decide, by decide,
   (transfer_frame (operation.write_integral integral_t.uint16 258 false)
      { example_owned with
        data := ⟨[9, 9, 9, 9, 9, 9, 9, 9, 9, 9], true⟩, current_position := 2 }
      { example_owned with
        data := ⟨[9, 9, 2, 1, 9, 9, 9, 9, 9, 9], true⟩, current_position := 4 }
      (by decide) (by decide) (by decide)).1 2 (Or.inr rfl) rfl 4 (by decide)
      (Or.inr (by decide))⟩

theorem flag_read_integral (T : integral_t) (r b : Bool) (s : buffer_t) :
    buffer_t.read_integral T r { s with is_expandable := b }
      = match buffer_t.read_integral T r s with
        | outcome.ok v t => outcome.ok v { t with is_expandable := b }
        | outcome.throws e t => outcome.throws e { t with is_expandable := b }
        | outcome.undefined => outcome.undefined := by
  simp only [buffer_t.read_integral, load_fields]
  split
  · rfl
  · split
    · rfl
    · cases load s s.read_data s.current_position T.sizeof <;> rfl

theorem flag_read_string (amount : Nat) (b : Bool) (s : buffer_t) :
    buffer_t.read_string amount { s with is_expandable := b }
      = match buffer_t.read_string amount s with
        | outcome.ok v t => outcome.ok v { t with is_expandable := b }
        | outcome.throws e t => outcome.throws e { t with is_expandable := b }
        | outcome.undefined => outcome.undefined := by
  simp only [buffer_t.read_string, load_fields]
  split
  · rfl
  · split
    · rfl
    · split
      · rfl
      · cases load s s.read_data s.current_position amount with
        | none => rfl
        | some bytes =>
          simp only
          split <;> rfl

theorem flag_read_array (bytesize amount : Nat) (b : Bool) (s : buffer_t) :
    buffer_t.read_array bytesize amount { s with is_expandable := b }
      = match buffer_t.read_array bytesize amount s with
        | outcome.ok v t => outcome.ok v { t with is_expandable := b }
        | outcome.throws e t => outcome.throws e { t with is_expandable := b }
        | outcome.undefined => outcome.undefined := by
  simp only [buffer_t.read_array, load_fields]
  split
  · rfl
  · split
    · rfl
    · cases load s s.read_data s.current_position ((bytesize * amount) % size_modulus) <;> rfl

theorem flag_store (s : buffer_t) (b : Bool) (p : pointer_t) (off : Nat) (src : List byte) :
    store { s with is_expandable := b } p off src
      = match store s p off src with
        | some t => some { t with is_expandable := b }
        | none => none := by
  unfold store
  cases p <;> simp only [region] <;> split <;> rfl

theorem flag_write_check (n : Nat) (b : Bool) (s : buffer_t) (hown : s.owning = false) :
    buffer_t.write_check n { s with is_expandable := b }
      = match buffer_t.write_check n s with
        | outcome.ok v t => outcome.ok v { t with is_expandable := b }
        | outcome.throws e t => outcome.throws e { t with is_expandable := b }
        | outcome.undefined => outcome.undefined := by
  simp only [buffer_t.write_check, hown, Bool.false_and, Bool.false_eq_true, if_false]
  split <;> simp [hown]

theorem flag_write_tail (n : Nat) (b : Bool) (s : buffer_t) (src : List byte)
    (hown : s.owning = false) :
    (match buffer_t.write_check n { s with is_expandable := b } with
      | outcome.throws e s1 => outcome.throws e s1
      | outcome.undefined => outcome.undefined
      | outcome.ok _ s1 =>
        match store s1 s1.write_data s1.current_position src with
        | none => outcome.undefined
        | some s2 =>
          outcome.ok ()
            { s2 with current_position := (s2.current_position + n) % size_modulus })
      = match (match buffer_t.write_check n s with
          | outcome.throws e s1 => outcome.throws e s1
          | outcome.undefined => outcome.undefined
          | outcome.ok _ s1 =>
            match store s1 s1.write_data s1.current_position src with
            | none => outcome.undefined
            | some s2 =>
              outcome.ok ()
                { s2 with current_position := (s2.current_position + n) % size_modulus }) with
        | outcome.ok v t => outcome.ok v { t with is_expandable := b }
        | outcome.throws e t => outcome.throws e { t with is_expandable := b }
        | outcome.undefined => outcome.undefined := by
  rw [flag_write_check n b s hown]
  cases hc : buffer_t.write_check n s with
  | throws e t => rfl
  | undefined => rfl
  | ok u t =>
    simp only
    rw [flag_store]
    cases store t t.write_data t.current_position src <;> rfl

theorem flag_store_zeros (s : buffer_t) (b : Bool) (p : pointer_t) (off n : Nat) :
    store_zeros { s with is_expandable := b } p off n
      = match store_zeros s p off n with
        | outcome.ok v t => outcome.ok v { t with is_expandable := b }
        | outcome.throws e t => outcome.throws e { t with is_expandable := b }
        | outcome.undefined => outcome.undefined := by
  unfold store_zeros
  by_cases hn : n > max_size
  · simp only [if_pos hn]
  · simp only [if_neg hn]
    rw [flag_store]
    have hreg : region { s with is_expandable := b } p = region s p := by
      cases p <;> rfl
    rw [hreg]
    split
    · cases store s p off (List.replicate n 0) <;> rfl
    · rfl

theorem flag_write_integral (T : integral_t) (v : Int) (r b : Bool) (s : buffer_t)
    (hown : s.owning = false) :
    buffer_t.write_integral T v r { s with is_expandable := b }
      = match buffer_t.write_integral T v r s with
        | outcome.ok u t => outcome.ok u { t with is_expandable := b }
        | outcome.throws e t => outcome.throws e { t with is_expandable := b }
        | outcome.undefined => outcome.undefined := by
  unfold buffer_t.write_integral
  by_cases hnull : s.write_data = pointer_t.null
  · simp only [hnull, if_true]
  · simp only [hnull, if_false]
    exact flag_write_tail T.sizeof b s _ hown

theorem flag_write_array (bytesize : Nat) (value : List byte) (amount : Nat) (b : Bool)
    (s : buffer_t) (hown : s.owning = false) :
    buffer_t.write_array bytesize value amount { s with is_expandable := b }
      = match buffer_t.write_array bytesize value amount s with
        | outcome.ok u t => outcome.ok u { t with is_expandable := b }
        | outcome.throws e t => outcome.throws e { t with is_expandable := b }
        | outcome.undefined => outcome.undefined := by
  unfold buffer_t.write_array
  by_cases hnull : s.write_data = pointer_t.null
  · simp only [hnull, if_true]
  · simp only [hnull, if_false]
    rw [flag_write_check _ b s hown]
    cases hc : buffer_t.write_check ((bytesize * amount) % size_modulus) s with
    | throws e t => rfl
    | undefined => rfl
    | ok u t =>
      simp only
      by_cases hle : (bytesize * amount) % size_modulus ≤ value.length
      · simp only [hle, if_true]
        rw [flag_store]
        cases store t t.write_data t.current_position
          (value.take ((bytesize * amount) % size_modulus)) <;> rfl
      · simp only [hle, if_false]

theorem flag_write_string (value : List byte) (amount : Nat) (b : Bool)
    (s : buffer_t) (hown : s.owning = false) :
    buffer_t.write_string value amount { s with is_expandable := b }
      = match buffer_t.write_string value amount s with
        | outcome.ok u t => outcome.ok u { t with is_expandable := b }
        | outcome.throws e t => outcome.throws e { t with is_expandable := b }
        | outcome.undefined => outcome.undefined := by
  unfold buffer_t.write_string
  by_cases hnull : s.write_data = pointer_t.null
  · simp only [hnull, if_true]
  · simp only [hnull, if_false]
    rw [flag_write_check _ b s hown]
    cases hc : buffer_t.write_check amount s with
    | throws e t => rfl
    | undefined => rfl
    | ok u t =>
      simp only
      rw [flag_store]
      cases hst : store t t.write_data t.current_position
          (value.take (if amount > value.length then value.length else amount)) with
      | none => rfl
      | some t2 =>
        simp only
        by_cases hlt : (if amount > value.length then value.length else amount) < amount
        · simp only [hlt, if_true]
          rw [flag_store_zeros]
          cases store_zeros t2 t2.write_data
            (t2.current_position + if amount > value.length then value.length else amount)
            (amount - if amount > value.length then value.length else amount) <;> rfl
        · simp only [hlt, if_false]

theorem flag_irrelevant_step (op : operation) (b : Bool) (s : buffer_t)
    (hown : s.owning = false) (hop : ∀ c, op ≠ operation.expandable c) :
    op.run { s with is_expandable := b }
      = match op.run s with
        | outcome.ok u t => outcome.ok u { t with is_expandable := b }
        | outcome.throws e t => outcome.throws e { t with is_expandable := b }
        | outcome.undefined => outcome.undefined := by
  cases op with
  | read_integral T r =>
    simp only [operation.run]
    rw [flag_read_integral]
    cases buffer_t.read_integral T r s <;> rfl
  | read_string amount =>
    simp only [operation.run]
    rw [flag_read_string]
    cases buffer_t.read_string amount s <;> rfl
  | read_array bytesize amount =>
    simp only [operation.run]
    rw [flag_read_array]
    cases buffer_t.read_array bytesize amount s <;> rfl
  | read_bytes amount =>
    simp only [operation.run, read_bytes_eq]
    rw [flag_read_array]
    cases buffer_t.read_array 1 amount s <;> rfl
  | write_integral T v r => exact flag_write_integral T v r b s hown
  | write_string value amount => exact flag_write_string value amount b s hown
  | write_array bytesize value amount => exact flag_write_array bytesize value amount b s hown
  | write_bytes value amount =>
    simp only [operation.run, write_bytes_eq]
    exact flag_write_array 1 value amount b s hown
  | at_set position =>
    simp only [operation.run, buffer_t.at_set]
    split <;> rfl
  | resize size =>
    simp [operation.run, buffer_t.resize, hown]
  | expandable c => exact absurd rfl (hop c)

theorem growing_write_returns (s : buffer_t) (op : operation) (n : Nat)
    (hwf : s.wf) (hown : s.owning = true) (hexp : s.is_expandable = true)
    (hnn : s.write_data ≠ pointer_t.null)
    (hw : op.is_write = true) (hval : op.valid) (hn : op.byte_count = some n)
    (hsrc : op.payload.length = n)
    (hpast : s.length ≤ s.current_position + n)
    (hrep : s.current_position + n ≤ max_size) :
    ∃ s1, op.run s = outcome.ok () s1 ∧ s1.length = s.current_position + n := by
  have hpos := hwf.1
  obtain ⟨m, hm, heq⟩ := write_run_eq op s hw hnn
  have hmn : m = n := by
    have := hm hval
    rw [hn] at this
    exact (Option.some.inj this).symm
  subst hmn
  have hmod : (s.current_position + m) % size_modulus = s.current_position + m :=
    Nat.mod_eq_of_lt (lt_of_le_of_lt hrep max_size_lt)
  obtain ⟨s0, hrs⟩ := resize_returns (s.current_position + m) s hown hrep
  have hc : buffer_t.write_check m s = outcome.ok () s0 := by
    rw [write_check_grow m s hown hexp (by rw [hmod]; exact hpast), hmod, hrs]
  obtain ⟨_, _, _, hd, hlen, hdl, hp, hwd, _, _⟩ := resize_ok _ _ _ hrs
  have hp0 : s0.current_position = s.current_position := by
    rw [hp]; exact Nat.min_eq_left (by omega)
  have hcap : s0.data.has_capacity = true := by
    rw [(resize_data _ s s0 hrs).2]
    simp only [Bool.or_eq_true, decide_eq_true_eq]
    exact Or.inl (wf_owning_capacity s hwf hown hnn)
  have hst0 : s0.write_data = pointer_t.storage := by
    rw [hwd]
    simp only [vector_t.data_ptr, hcap, if_true]
  obtain ⟨s2, hst⟩ := store_some s0 s0.write_data s0.current_position op.payload
    (by rw [hst0]; exact fun h => by cases h)
    (by rw [hst0]; simp only [region]; rw [hdl, hsrc, hp0])
  have hrun := heq s0 s2 hc hsrc hst (by omega)
  have hf := store_fields _ _ _ _ _ hst
  refine ⟨_, hrun, ?_⟩
  simp only
  rw [hf.2.2.2.1, hlen]

theorem expandable_toggle_spec (s : buffer_t) (hwf : s.wf) :
    (∀ b, buffer_t.expandable b s = outcome.ok () { s with is_expandable := b } ∧
      ({ s with is_expandable := b } : buffer_t).expandaable = b) ∧
    (s.owning = true → s.write_data ≠ pointer_t.null →
      ∀ (op : operation) (n : Nat), op.is_write = true → op.valid →
        op.byte_count = some n → op.payload.length = n →
        s.length ≤ s.current_position + n → s.current_position + n < size_modulus →
        op.run { s with is_expandable := false }
          = outcome.throws exception_t.out_of_range { s with is_expandable := false } ∧
        (s.current_position + n ≤ max_size →
          ∃ s1, op.run { s with is_expandable := true } = outcome.ok () s1 ∧
            s1.size = s.current_position + n)) ∧
    (s.owning = false → ∀ (op : operation) (b : Bool), (∀ c, op ≠ operation.expandable c) →
      op.run { s with is_expandable := b }
        = match op.run s with
          | outcome.ok u t => outcome.ok u { t with is_expandable := b }
          | outcome.throws e t => outcome.throws e { t with is_expandable := b }
          | outcome.undefined => outcome.undefined) := by
  refine ⟨fun b => ⟨rfl, rfl⟩, ?_, ?_⟩
  · intro hown hnn op n hw hval hn hsrc hpast hrep
    constructor
    · exact (write_bounds_of_representable op { s with is_expandable := false } n hw hval hn
        hnn hrep).mpr ⟨hpast, by simp⟩
    · intro hmax
      exact growing_write_returns { s with is_expandable := true } op n
        (wf_set_expandable s true hwf) hown rfl hnn hw hval hn hsrc hpast hmax
  · intro hown op b hop
    exact flag_irrelevant_step op b s hown hop

/-- C23 (failing input): `buffer_t b(10); b.expandable(false); b.at(1);` followed by the
typed-array write of `18446744073709551615` one-byte elements. The buffer is owning,
`position + n >= length`, yet `position + n` wraps to 0, the bounds test passes,
`std::out_of_range` is not thrown and the copy leaves the buffer. -/
theorem expandable_toggle_wrap_accepted :
    buffer_t.sized_ctor 10 = construction.ok example_owned ∧
    buffer_t.expandable false example_owned
      = outcome.ok () { example_owned with is_expandable := false } ∧
    buffer_t.at_set 1 { example_owned with is_expandable := false }
      = outcome.ok () { example_owned with is_expandable := false, current_position := 1 } ∧
    ({ example_owned with is_expandable := false, current_position := 1 }
      : buffer_t).owning = true ∧
    ({ example_owned with is_expandable := false, current_position := 1 }
      : buffer_t).length ≤ 1 + (2 ^ 64 - 1) ∧
    buffer_t.write_check ((1 * (2 ^ 64 - 1)) % size_modulus)
        { example_owned with is_expandable := false, current_position := 1 }
      = outcome.ok () { example_owned with is_expandable := false, current_position := 1 } ∧
    buffer_t.write_array 1 [7, 7, 7, 7] (2 ^ 64 - 1)
        { example_owned with is_expandable := false, current_position := 1 }
      ≠ outcome.throws exception_t.out_of_range
          { example_owned with is_expandable := false, current_position := 1 } ∧
    buffer_t.write_array 1 [7, 7, 7, 7] (2 ^ 64 - 1)
        { example_owned with is_expandable := false, current_position := 1 }
      = outcome.undefined := by
  refine ⟨by decide, by decide, by decide, by decide, by decide, by decide, by decide,
    by decide⟩

/-- C29 (failing input): `buffer_t b(10); b.at(1);` followed by a raw or text transfer of
`18446744073709551615` bytes. The exact sum `position + n` is `2 ^ 64`, not below the length
10, yet the sum computed in `std::size_t` is 0, every bounds test passes without growth and
no `std::out_of_range` is thrown: the raw transfers and the text read go on to a copy that
leaves the buffer, the text write stores `"hi"` and then throws `std::length_error` from its
padding vector. The product `sizeof(element) * amount` wraps in the same way: a typed-array transfer of `2 ^ 61` eight-byte elements at position 0 is accepted and
moves no byte. -/
theorem bounds_check_wraps :
    ({ example_owned with current_position := 1 } : buffer_t).wf ∧
    ¬ (1 + (2 ^ 64 - 1) < ({ example_owned with current_position := 1 } : buffer_t).length) ∧
    (1 + (1 * (2 ^ 64 - 1)) % size_modulus) % size_modulus
      < ({ example_owned with current_position := 1 } : buffer_t).length ∧
    buffer_t.read_bytes (2 ^ 64 - 1) { example_owned with current_position := 1 }
      = outcome.undefined ∧
    buffer_t.read_string (2 ^ 64 - 1) { example_owned with current_position := 1 }
      = outcome.undefined ∧
    buffer_t.write_check ((1 * (2 ^ 64 - 1)) % size_modulus)
        { example_owned with current_position := 1 }
      = outcome.ok () { example_owned with current_position := 1 } ∧
    buffer_t.write_bytes [7, 7, 7, 7] (2 ^ 64 - 1) { example_owned with current_position := 1 }
      = outcome.undefined ∧
    buffer_t.write_string [104, 105] (2 ^ 64 - 1) { example_owned with current_position := 1 }
      = outcome.throws exception_t.length_error
          { example_owned with
              current_position := 1, data := ⟨[0, 104, 105, 0, 0, 0, 0, 0, 0, 0], true⟩ } ∧
    ¬ (0 + 8 * 2 ^ 61 < example_owned.length) ∧
    buffer_t.read_array 8 (2 ^ 61) example_owned = outcome.ok [] example_owned ∧
    buffer_t.write_array 8 [] (2 ^ 61) example_owned = outcome.ok () example_owned := by
  refine ⟨by decide, by decide, by decide, by decide, by decide, by decide, by decide,
    by decide, by decide, by decide, by decide⟩

theorem convert_of_in_range (T : integral_t) (v : Int) (h : T.in_range v) :
    T.convert v = v := by
  cases T <;>
    simp only [integral_t.in_range, integral_t.is_signed, integral_t.sizeof] at h <;>
    simp only [integral_t.convert, integral_t.is_signed, integral_t.sizeof] <;>
    norm_num at h ⊢ <;>
    omega

theorem successor_of_lt (T : integral_t) (v limit : Int) (hv : T.in_range v)
    (hl : T.in_range limit) (hlt : v < limit) :
    numinc_t.successor T v = some (v + 1) ∧ T.in_range (v + 1) := by
  cases T <;>
    simp only [integral_t.in_range, integral_t.is_signed, integral_t.sizeof] at hv hl <;>
    simp only [numinc_t.successor, integral_t.in_range, integral_t.max, integral_t.is_signed,
      integral_t.sizeof] <;>
    norm_num at hv hl ⊢ <;>
    omega

theorem next_of_lt (T : integral_t) (c : numinc_t) (hv : T.in_range c.current_value)
    (hl : T.in_range c.limit) (hlt : c.current_value < c.limit) :
    numinc_t.next T c
      = if c.current_value + 1 = c.limit then numinc_outcome.throws c
        else numinc_outcome.ok (c.current_value + 1)
          { c with current_value := c.current_value + 1 } := by
  obtain ⟨hs, hr⟩ := successor_of_lt T c.current_value c.limit hv hl hlt
  simp only [numinc_t.next, hs, convert_of_in_range T _ hr]

theorem after_of_lt (T : integral_t) (n : Nat) (c : numinc_t)
    (hv : T.in_range c.current_value) (hl : T.in_range c.limit)
    (hlt : c.current_value < c.limit) :
    ∃ c1, numinc_t.after T n c = some c1 ∧ c1.limit = c.limit ∧
      T.in_range c1.current_value ∧ c.current_value ≤ c1.current_value ∧
      c1.current_value < c1.limit := by
  induction n generalizing c with
  | zero => exact ⟨c, rfl, rfl, hv, le_refl _, hlt⟩
  | succ k ih =>
    simp only [numinc_t.after, next_of_lt T c hv hl hlt]
    split_ifs with heq
    · exact ih c hv hl hlt
    · obtain ⟨_, hr⟩ := successor_of_lt T c.current_value c.limit hv hl hlt
      obtain ⟨c1, h1, h2, h3, h4, h5⟩ := ih { c with current_value := c.current_value + 1 }
        hr hl (by simp only; omega)
      exact ⟨c1, h1, h2, h3, by simp only at h4; omega, h5⟩

/-- C27: bounded monotonic counter. For every integral type `T` and every
`numinc_t<T>(initial, max_value)` with `initial < max_value`, after any number of calls of
`next()`, each returning or throwing, the counter is defined, keeps its limit and has
`initial <= current < limit`; the next call of `next()` then throws exactly when
`current + 1 == limit`, leaving the counter as it was, and otherwise returns exactly
`current + 1`, a value below the limit, which becomes the current value. -/
theorem bounded_counter (T : integral_t) (initial max_value : Int) (n : Nat)
    (hi : T.in_range initial) (hm : T.in_range max_value) (hlt : initial < max_value) :
    ∃ c, numinc_t.after T n (numinc_t.ctor initial max_value) = some c ∧
      c.limit = max_value ∧ initial ≤ c.current_value ∧ c.current_value < c.limit ∧
      numinc_t.next T c ≠ numinc_outcome.undefined ∧
      ((∃ c1, numinc_t.next T c = numinc_outcome.throws c1) ↔
        c.current_value + 1 = c.limit) ∧
      (∀ c1, numinc_t.next T c = numinc_outcome.throws c1 → c1 = c) ∧
      (∀ v c1, numinc_t.next T c = numinc_outcome.ok v c1 →
        v = c.current_value + 1 ∧ v < c.limit ∧ c1 = { c with current_value := v }) := by
  obtain ⟨c, h1, h2, h3, h4, h5⟩ := after_of_lt T n (numinc_t.ctor initial max_value) hi hm hlt
  have hl : T.in_range c.limit := by rw [h2]; exact hm
  have hnext := next_of_lt T c h3 hl h5
  refine ⟨c, h1, h2, h4, h5, ?_, ?_, ?_, ?_⟩
  · rw [hnext]
    split_ifs <;> exact fun h => by cases h
  · rw [hnext]
    constructor
    · rintro ⟨c1, hc1⟩
      split_ifs at hc1 with heq
      · exact heq
    · intro heq
      exact ⟨c, by rw [if_pos heq]⟩
  · intro c1 hc1
    rw [hnext] at hc1
    split_ifs at hc1 with heq
    · simp only [numinc_outcome.throws.injEq] at hc1
      exact hc1.symm
  · intro v c1 hc1
    rw [hnext] at hc1
    split_ifs at hc1 with heq
    · simp only [numinc_outcome.ok.injEq] at hc1
      obtain ⟨hv, hc⟩ := hc1
      subst hv
      refine ⟨rfl, ?_, hc.symm⟩
      omega

/-- C27 (witness): `numinc_t<std::uint8_t>(3, 5)` after one call of `next()` holds 4, and
the following call throws. -/
theorem bounded_counter_witness :
    numinc_t.next integral_t.uint8 (numinc_t.ctor 3 5)
      = numinc_outcome.ok 4 { current_value := 4, limit := 5 } ∧
    numinc_t.next integral_t.uint8 { current_value := 4, limit := 5 }
      = numinc_outcome.throws { current_value := 4, limit := 5 } ∧
    ∃ c, numinc_t.after integral_t.uint8 1 (numinc_t.ctor 3 5) = some c ∧ c.limit = 5 ∧
      3 ≤ c.current_value ∧ c.current_value < c.limit :=
  ⟨by decide, by decide,
   let ⟨c, h1, h2, h3, h4, _⟩ := bounded_counter integral_t.uint8 3 5 1
     (by decide) (by decide) (by decide)
   ⟨c, h1, h2, h3, h4⟩⟩

end util

namespace strutil

theorem first_index_eq (p : Char → Bool) (l : List Char) :
    first_index p l
      = if (l.takeWhile (fun c => !p c)).length < l.length then
          some (l.takeWhile (fun c => !p c)).length
        else none := by
  induction l with
  | nil => rfl
  | cons c cs ih =>
    simp only [first_index, List.takeWhile_cons]
    by_cases hc : p c = true
    · simp [hc]
    · have hc2 : p c = false := by simpa using hc
      simp only [hc2, Bool.false_eq_true, if_false, Bool.not_false, if_true, List.length_cons,
        ih]
      split_ifs with h1 h2 h2
      · rfl
      · omega
      · omega
      · rfl

theorem drop_length_takeWhile (p : Char → Bool) (l : List Char) :
    l.drop (l.takeWhile p).length = l.dropWhile p := by
  induction l with
  | nil => rfl
  | cons c cs ih =>
    simp only [List.takeWhile_cons, List.dropWhile_cons]
    split
    · simpa using ih
    · rfl

theorem takeWhile_length_add (p : Char → Bool) (l : List Char) :
    (l.takeWhile p).length + (l.dropWhile p).length = l.length := by
  rw [← List.length_append, List.takeWhile_append_dropWhile]

theorem takeWhile_length_lt (p : Char → Bool) (l : List Char) :
    (l.takeWhile p).length < l.length ↔ l.dropWhile p ≠ [] := by
  have hl := takeWhile_length_add p l
  constructor
  · intro hlt hnil
    rw [hnil] at hl
    simp at hl
    omega
  · intro hne
    have : 0 < (l.dropWhile p).length := List.length_pos.mpr hne
    omega

theorem not_not_whitespace :
    (fun c => !(fun c => !whitespace.contains c) c) = is_whitespace := by
  funext c
  simp [is_whitespace]

theorem ltrim_eq (value : List Char) : ltrim value = value.dropWhile is_whitespace := by
  unfold ltrim find_first_not_of
  cases value with
  | nil => rfl
  | cons c cs =>
    simp only [List.isEmpty_cons, Bool.not_false, if_true, List.drop_zero, first_index_eq,
      not_not_whitespace]
    split_ifs with h
    · simp only [Option.map_some', Nat.zero_add]
      exact drop_length_takeWhile _ _
    · simp only [Option.map_none']
      have := (takeWhile_length_lt is_whitespace (c :: cs)).not.mp h
      simp only [ne_eq, not_not] at this
      exact this.symm

theorem rtrim_eq (value : List Char) :
    rtrim value
      = if value.reverse.dropWhile is_whitespace = [] then value
        else value.rdropWhile is_whitespace := by
  unfold rtrim find_last_not_of substr
  cases hv : value with
  | nil => simp
  | cons c cs =>
    rw [← hv]
    have hne : value.isEmpty = false := by rw [hv]; rfl
    simp only [hne, Bool.not_false, if_true, first_index_eq, not_not_whitespace,
      List.drop_zero]
    have hadd := takeWhile_length_add is_whitespace value.reverse
    rw [List.length_reverse] at hadd
    by_cases h : value.reverse.dropWhile is_whitespace = []
    · rw [if_pos h]
      rw [if_neg (by
        rw [takeWhile_length_lt]
        exact fun hh => hh h)]
      rfl
    · rw [if_neg h]
      rw [if_pos (by rw [takeWhile_length_lt]; exact h)]
      simp only [Option.map_some']
      have hpos : 0 < (value.reverse.dropWhile is_whitespace).length := List.length_pos.mpr h
      have e : value.length - 1 - (List.takeWhile is_whitespace value.reverse).length + 1
          = value.length - (List.takeWhile is_whitespace value.reverse).length := by omega
      rw [e, List.rdropWhile, ← drop_length_takeWhile, List.drop_reverse, List.reverse_reverse]

theorem dropWhile_head (p : Char → Bool) (l : List Char) (c : Char)
    (h : (l.dropWhile p).head? = some c) : p c = false := by
  have := List.head?_dropWhile_not p l
  rw [h] at this
  exact this

theorem rdropWhile_last (p : Char → Bool) (l : List Char) (c : Char)
    (h : (l.rdropWhile p).getLast? = some c) : p c = false := by
  unfold List.rdropWhile at h
  rw [List.getLast?_reverse] at h
  exact dropWhile_head p _ c h

theorem rdropWhile_head (p : Char → Bool) (l : List Char) (c : Char)
    (h : l.head? = some c) (hc : p c = false) : (l.rdropWhile p).head? = some c := by
  cases l with
  | nil => simp at h
  | cons a as =>
    simp only [List.head?_cons, Option.some.injEq] at h
    subst h
    induction as using List.reverseRecOn with
    | nil => simp [List.rdropWhile, hc]
    | append_singleton bs b ih =>
      rw [← List.cons_append, List.rdropWhile_concat]
      split
      · exact ih
      · rfl

theorem trim_eq (value : List Char) :
    trim value = (value.dropWhile is_whitespace).rdropWhile is_whitespace := by
  unfold trim
  rw [ltrim_eq, rtrim_eq]
  split_ifs with h
  · rw [List.dropWhile_eq_nil_iff] at h
    cases ht : value.dropWhile is_whitespace with
    | nil => rfl
    | cons c cs =>
      have hc : is_whitespace c = false := dropWhile_head is_whitespace value c (by rw [ht]; rfl)
      have := h c (by rw [ht]; simp)
      rw [hc] at this
      cases this
  · rfl

theorem trim_ends (value : List Char) :
    (∀ c, (trim value).head? = some c → is_whitespace c = false) ∧
    (∀ c, (trim value).getLast? = some c → is_whitespace c = false) := by
  rw [trim_eq]
  constructor
  · intro c hc
    have hpre := List.rdropWhile_prefix is_whitespace (value.dropWhile is_whitespace)
    obtain ⟨t, ht⟩ := hpre
    have : (value.dropWhile is_whitespace).head? = some c := by
      rw [← ht, List.head?_append, hc]
      rfl
    exact dropWhile_head _ _ _ this
  · intro c hc
    exact rdropWhile_last _ _ _ hc

/-- C24 (failing input): `rtrim` of a non-empty string of whitespace only. For `" \t"` the
search `find_last_not_of` finds nothing and `rtrim` returns the string unchanged, so the
result is not empty and ends with a tab, while `ltrim` and `trim` return the empty string. -/
theorem rtrim_keeps_blank_string :
    find_last_not_of [' ', '\t'] whitespace = none ∧
    rtrim [' ', '\t'] = [' ', '\t'] ∧
    (rtrim [' ', '\t']).getLast? = some '\t' ∧
    is_whitespace '\t' = true ∧
    rtrim [' '] = [' '] ∧
    ltrim [' ', '\t'] = [] ∧
    trim [' ', '\t'] = [] := by
  refine ⟨by decide, by decide, by decide, by decide, by decide, by decide, by decide⟩

theorem trim_spec (s : List Char) :
    ltrim s = s.dropWhile is_whitespace ∧
    (∀ c, (ltrim s).head? = some c → is_whitespace c = false) ∧
    ((∃ c, c ∈ s ∧ is_whitespace c = false) →
      rtrim s = s.rdropWhile is_whitespace ∧
      ∀ c, (rtrim s).getLast? = some c → is_whitespace c = false) ∧
    ((∀ c, c ∈ s → is_whitespace c = true) → rtrim s = s) ∧
    trim s = rtrim (ltrim s) ∧
    trim s = (s.dropWhile is_whitespace).rdropWhile is_whitespace ∧
    (∀ c, (trim s).head? = some c → is_whitespace c = false) ∧
    (∀ c, (trim s).getLast? = some c → is_whitespace c = false) := by
  refine ⟨ltrim_eq s, ?_, ?_, ?_, rfl, trim_eq s, (trim_ends s).1, (trim_ends s).2⟩
  · intro c hc
    rw [ltrim_eq] at hc
    exact dropWhile_head _ _ _ hc
  · rintro ⟨c, hc, hws⟩
    have hne : s.reverse.dropWhile is_whitespace ≠ [] := by
      intro h
      rw [List.dropWhile_eq_nil_iff] at h
      have := h c (List.mem_reverse.mpr hc)
      rw [hws] at this
      cases this
    rw [rtrim_eq, if_neg hne]
    exact ⟨rfl, fun d hd => rdropWhile_last _ _ _ hd⟩
  · intro hall
    rw [rtrim_eq, if_pos]
    rw [List.dropWhile_eq_nil_iff]
    intro x hx
    exact hall x (List.mem_reverse.mp hx)

theorem first_index_append (p : Char → Bool) (a b : List Char)
    (ha : ∀ c, c ∈ a → p c = false) :
    first_index p (a ++ b) = (first_index p b).map (fun i => a.length + i) := by
  induction a with
  | nil =>
    simp only [List.nil_append, List.length_nil, Nat.zero_add]
    cases first_index p b <;> rfl
  | cons c cs ih =>
    have hc : p c = false := ha c (by simp)
    rw [List.cons_append, first_index, if_neg (by simp [hc]),
      ih (fun d hd => ha d (by simp [hd])), List.length_cons]
    cases first_index p b with
    | none => rfl
    | some i =>
      simp only [Option.map_some', Option.some.injEq]
      omega

theorem first_index_none (p : Char → Bool) (a : List Char)
    (ha : ∀ c, c ∈ a → p c = false) : first_index p a = none := by
  have := first_index_append p a [] ha
  rw [List.append_nil] at this
  rw [this]
  rfl

theorem first_index_head (p : Char → Bool) (c : Char) (cs : List Char) (hc : p c = true) :
    first_index p (c :: cs) = some 0 := by
  simp [first_index, hc]

theorem find_first_of_append (pre rest : List Char) :
    find_first_of (pre ++ rest) whitespace pre.length
      = (first_index is_whitespace rest).map (fun i => pre.length + i) := by
  unfold find_first_of
  rw [List.drop_left]
  rfl

theorem find_first_not_of_append (pre rest : List Char) :
    find_first_not_of (pre ++ rest) whitespace pre.length
      = (first_index (fun c => !is_whitespace c) rest).map (fun i => pre.length + i) := by
  unfold find_first_not_of
  rw [List.drop_left]
  rfl

theorem split_words_append_word (w rest cur : List Char)
    (hw : ∀ c, c ∈ w → is_whitespace c = false) :
    split_words cur (w ++ rest) = split_words (cur ++ w) rest := by
  induction w generalizing cur with
  | nil => simp
  | cons c cs ih =>
    have hc : is_whitespace c = false := hw c (by simp)
    rw [List.cons_append, split_words, if_neg (by simp [hc]),
      ih _ (fun d hd => hw d (by simp [hd]))]
    simp

theorem split_words_space (c : Char) (rest cur : List Char) (hc : is_whitespace c = true) :
    split_words cur (c :: rest)
      = (if cur.isEmpty then [] else [cur]) ++ split_words [] rest := by
  simp only [split_words, hc, if_true]
  split <;> rfl

theorem split_words_run (run rest : List Char)
    (hrun : ∀ c, c ∈ run → is_whitespace c = true) :
    split_words [] (run ++ rest) = split_words [] rest := by
  induction run with
  | nil => rfl
  | cons c cs ih =>
    rw [List.cons_append, split_words_space c _ _ (hrun c (by simp))]
    simp only [List.isEmpty_nil, if_true, List.nil_append]
    exact ih (fun d hd => hrun d (by simp [hd]))

theorem split_words_trailing (x run cur : List Char)
    (hrun : ∀ c, c ∈ run → is_whitespace c = true) :
    split_words cur (x ++ run) = split_words cur x := by
  induction x generalizing cur with
  | nil =>
    rw [List.nil_append]
    cases run with
    | nil => rfl
    | cons c cs =>
      rw [split_words_space c _ _ (hrun c (by simp))]
      have := split_words_run cs [] (fun d hd => hrun d (by simp [hd]))
      rw [List.append_nil] at this
      rw [this]
      simp only [split_words, List.isEmpty_nil, if_true, List.append_nil]
  | cons c cs ih =>
    rw [List.cons_append, split_words, split_words, ih, ih]

theorem split_words_ne_nil (s cur : List Char) (hcur : cur ≠ []) :
    split_words cur s ≠ [] := by
  induction s generalizing cur with
  | nil =>
    cases cur with
    | nil => exact absurd rfl hcur
    | cons a as => simp [split_words]
  | cons c cs ih =>
    cases cur with
    | nil => exact absurd rfl hcur
    | cons a as =>
      simp only [split_words]
      split
      · simp
      · exact ih _ (by simp)

theorem join_words_cons (w : List Char) (W : List (List Char)) (hW : W ≠ []) :
    join_words (w :: W) = w ++ ' ' :: join_words W := by
  cases W with
  | nil => exact absurd rfl hW
  | cons v rest => rfl

theorem words_dropWhile (s : List Char) : words (s.dropWhile is_whitespace) = words s := by
  unfold words
  conv_rhs => rw [← List.takeWhile_append_dropWhile is_whitespace s]
  rw [split_words_run _ _ (fun c hc => List.mem_takeWhile_imp hc)]

theorem rdropWhile_append (p : Char → Bool) (s : List Char) :
    s.rdropWhile p ++ (s.reverse.takeWhile p).reverse = s := by
  unfold List.rdropWhile
  rw [← List.reverse_append, List.takeWhile_append_dropWhile, List.reverse_reverse]

theorem words_rdropWhile (s : List Char) : words (s.rdropWhile is_whitespace) = words s := by
  unfold words
  conv_rhs => rw [← rdropWhile_append is_whitespace s]
  rw [split_words_trailing _ _ _ (fun c hc => List.mem_takeWhile_imp (List.mem_reverse.mp hc))]

theorem words_trim (s : List Char) : words (trim s) = words s := by
  rw [trim_eq, words_rdropWhile, words_dropWhile]

theorem simplify_loop_step (fuel : Nat) (pre w run rest3 : List Char)
    (hrun : ∀ c, c ∈ run → is_whitespace c = true) (hne : run ≠ [])
    (h3 : ∀ c, rest3.head? = some c → is_whitespace c = false) (h3ne : rest3 ≠ []) :
    simplify_loop (fuel + 1) (pre ++ (w ++ (run ++ rest3))) (some (pre.length + w.length))
      = simplify_loop fuel ((pre ++ w ++ [' ']) ++ rest3)
          ((first_index is_whitespace rest3).map
            (fun i => (pre ++ w ++ [' ']).length + i)) := by
  have hrl : 0 < run.length := List.length_pos.mpr hne
  have hwork : pre ++ (w ++ (run ++ rest3)) = (pre ++ w) ++ (run ++ rest3) := by
    simp only [List.append_assoc]
  have hstart : pre.length + w.length = (pre ++ w).length := by
    rw [List.length_append]
  have hend : find_first_not_of (pre ++ (w ++ (run ++ rest3))) whitespace
      (pre.length + w.length) = some (pre.length + w.length + run.length) := by
    rw [hwork, hstart, find_first_not_of_append,
      first_index_append _ run rest3 (fun c hc => by simp [hrun c hc])]
    obtain ⟨c, r, hr⟩ := List.exists_cons_of_ne_nil h3ne
    have hc : is_whitespace c = false := h3 c (by rw [hr]; rfl)
    rw [hr, first_index_head _ c r (by simp [hc])]
    rfl
  have hlen : (pre ++ (w ++ (run ++ rest3))).length
      = pre.length + w.length + run.length + rest3.length := by
    simp only [List.length_append]
    omega
  have htake : (pre ++ (w ++ (run ++ rest3))).take (pre.length + w.length) = pre ++ w := by
    rw [hwork, hstart, List.take_left]
  have hdrop : (pre ++ (w ++ (run ++ rest3))).drop (pre.length + w.length + run.length)
      = rest3 := by
    have e : pre ++ (w ++ (run ++ rest3)) = (pre ++ w ++ run) ++ rest3 := by
      simp only [List.append_assoc]
    have e2 : pre.length + w.length + run.length = (pre ++ w ++ run).length := by
      simp only [List.length_append]
    rw [e, e2, List.drop_left]
  have hrep : replace (pre ++ (w ++ (run ++ rest3))) (pre.length + w.length)
      (pre.length + w.length + run.length - (pre.length + w.length)) [' ']
      = (pre ++ w ++ [' ']) ++ rest3 := by
    unfold replace
    rw [htake, hlen]
    have e3 : pre.length + w.length + min
        (pre.length + w.length + run.length - (pre.length + w.length))
        (pre.length + w.length + run.length + rest3.length - (pre.length + w.length))
        = pre.length + w.length + run.length := by
      omega
    rw [e3, hdrop]
  have hnext : find_first_of ((pre ++ w ++ [' ']) ++ rest3) whitespace
      (pre.length + w.length + 1)
      = (first_index is_whitespace rest3).map (fun i => (pre ++ w ++ [' ']).length + i) := by
    have e4 : pre.length + w.length + 1 = (pre ++ w ++ [' ']).length := by
      simp only [List.length_append, List.length_singleton]
    rw [e4, find_first_of_append]
  rw [simplify_loop]
  simp only
  rw [if_pos (by rw [hlen]; omega), hend]
  simp only
  rw [hrep, hnext]

theorem word_split (rest : List Char) (hne : rest ≠ [])
    (hhead : ∀ c, rest.head? = some c → is_whitespace c = false)
    (hlast : ∀ c, rest.getLast? = some c → is_whitespace c = false) :
    (∀ c, c ∈ rest → is_whitespace c = false) ∨
    ∃ w run rest3, rest = w ++ (run ++ rest3) ∧ w ≠ [] ∧
      (∀ c, c ∈ w → is_whitespace c = false) ∧ run ≠ [] ∧
      (∀ c, c ∈ run → is_whitespace c = true) ∧ rest3 ≠ [] ∧
      (∀ c, rest3.head? = some c → is_whitespace c = false) ∧
      (∀ c, rest3.getLast? = some c → is_whitespace c = false) := by
  by_cases htail : rest.dropWhile (fun c => !is_whitespace c) = []
  · left
    rw [List.dropWhile_eq_nil_iff] at htail
    intro c hc
    simpa using htail c hc
  · right
    have h1 := List.takeWhile_append_dropWhile (fun c => !is_whitespace c) rest
    have h2 := List.takeWhile_append_dropWhile is_whitespace
      (rest.dropWhile (fun c => !is_whitespace c))
    have hw : ∀ c, c ∈ rest.takeWhile (fun c => !is_whitespace c) → is_whitespace c = false := by
      intro c hc
      simpa using List.mem_takeWhile_imp hc
    have hrun : ∀ c, c ∈ (rest.dropWhile (fun c => !is_whitespace c)).takeWhile is_whitespace
        → is_whitespace c = true := fun c hc => List.mem_takeWhile_imp hc
    have hthead : ∀ c, (rest.dropWhile (fun c => !is_whitespace c)).head? = some c →
        is_whitespace c = true := by
      intro c hc
      simpa using dropWhile_head _ _ _ hc
    have hlast2 : (rest.dropWhile (fun c => !is_whitespace c)).getLast? = rest.getLast? := by
      conv_rhs => rw [← h1]
      rw [List.getLast?_append]
      obtain ⟨a, ha⟩ := List.getLast?_isSome.mpr htail |> Option.isSome_iff_exists.mp
      rw [ha]
      rfl
    refine ⟨rest.takeWhile (fun c => !is_whitespace c),
      (rest.dropWhile (fun c => !is_whitespace c)).takeWhile is_whitespace,
      (rest.dropWhile (fun c => !is_whitespace c)).dropWhile is_whitespace,
      by rw [h2, h1], ?_, hw, ?_, hrun, ?_, fun c hc => dropWhile_head _ _ _ hc, ?_⟩
    · obtain ⟨c, r, hr⟩ := List.exists_cons_of_ne_nil hne
      have hc : is_whitespace c = false := hhead c (by rw [hr]; rfl)
      rw [hr, List.takeWhile_cons]
      simp [hc]
    · obtain ⟨c, r, hr⟩ := List.exists_cons_of_ne_nil htail
      have hc : is_whitespace c = true := hthead c (by rw [hr]; rfl)
      rw [hr, List.takeWhile_cons]
      simp [hc]
    · intro h3
      rw [h3, List.append_nil] at h2
      obtain ⟨a, ha⟩ := List.getLast?_isSome.mpr htail |> Option.isSome_iff_exists.mp
      have hmem : a ∈ rest.dropWhile (fun c => !is_whitespace c) :=
        List.mem_of_getLast?_eq_some ha
      rw [← h2] at hmem
      have h5 := hrun a hmem
      have h6 := hlast a (by rw [← hlast2]; exact ha)
      rw [h5] at h6
      cases h6
    · intro c hc
      apply hlast c
      rw [← hlast2]
      conv_lhs => rw [← h2]
      rw [List.getLast?_append, hc]
      rfl

theorem simplify_loop_spec (n : Nat) : ∀ (rest pre : List Char) (fuel : Nat),
    rest.length ≤ n → rest ≠ [] →
    (∀ c, rest.head? = some c → is_whitespace c = false) →
    (∀ c, rest.getLast? = some c → is_whitespace c = false) →
    rest.length < fuel →
    simplify_loop fuel (pre ++ rest)
        ((first_index is_whitespace rest).map (fun i => pre.length + i))
      = some (pre ++ join_words (words rest)) := by
  induction n with
  | zero =>
    intro rest pre fuel hn hne
    exact absurd (List.length_eq_zero.mp (Nat.le_zero.mp hn)) hne
  | succ k ih =>
    intro rest pre fuel hn hne hhead hlast hfuel
    obtain ⟨f, hf⟩ : ∃ f, fuel = f + 1 := ⟨fuel - 1, by omega⟩
    subst hf
    rcases word_split rest hne hhead hlast with hall | ⟨w, run, rest3, hr, hwne, hw, hrne,
      hrun, h3ne, h3head, h3last⟩
    · rw [first_index_none _ _ hall]
      have hwords : words rest = [rest] := by
        unfold words
        have := split_words_append_word rest [] [] hall
        rw [List.append_nil, List.nil_append] at this
        rw [this]
        cases rest with
        | nil => exact absurd rfl hne
        | cons a as => simp [split_words]
      rw [hwords]
      simp only [Option.map_none', simplify_loop, join_words]
    · have hfi : first_index is_whitespace rest = some w.length := by
        rw [hr, first_index_append _ w _ hw]
        obtain ⟨c, r, hc⟩ := List.exists_cons_of_ne_nil hrne
        rw [hc, List.cons_append, first_index_head _ c _ (hrun c (by rw [hc]; simp))]
        rfl
      have hlen : rest.length = w.length + run.length + rest3.length := by
        rw [hr]
        simp only [List.length_append]
        omega
      have hwl : 0 < w.length := List.length_pos.mpr hwne
      have hrl : 0 < run.length := List.length_pos.mpr hrne
      have hwords : words rest = w :: words rest3 := by
        unfold words
        rw [hr, split_words_append_word w _ [] hw, List.nil_append]
        obtain ⟨c, r, hc⟩ := List.exists_cons_of_ne_nil hrne
        rw [hc, List.cons_append, split_words_space c _ _ (hrun c (by rw [hc]; simp))]
        rw [split_words_run r rest3 (fun d hd => hrun d (by rw [hc]; simp [hd]))]
        cases w with
        | nil => exact absurd rfl hwne
        | cons a as => rfl
      have hw3 : words rest3 ≠ [] := by
        obtain ⟨c, r, hc⟩ := List.exists_cons_of_ne_nil h3ne
        have hcw : is_whitespace c = false := h3head c (by rw [hc]; rfl)
        unfold words
        rw [hc, split_words, if_neg (by simp [hcw])]
        exact split_words_ne_nil _ _ (by simp)
      rw [hfi]
      simp only [Option.map_some']
      conv_lhs => rw [hr]
      rw [simplify_loop_step f pre w run rest3 hrun hrne h3head h3ne]
      rw [ih rest3 (pre ++ w ++ [' ']) f (by omega) h3ne h3head h3last (by omega)]
      rw [hwords, join_words_cons w _ hw3]
      simp only [List.append_assoc, List.singleton_append]

theorem simplify_loop_trim (s : List Char) (fuel : Nat) (hne : trim s ≠ [])
    (hfuel : (trim s).length < fuel) :
    simplify_loop fuel (trim s) (find_first_of (trim s) whitespace 0)
      = some (join_words (words s)) := by
  have h := simplify_loop_spec (trim s).length (trim s) [] fuel
    (le_refl _) hne (trim_ends s).1 (trim_ends s).2 hfuel
  have e := find_first_of_append [] (trim s)
  simp only [List.nil_append, List.length_nil] at h e
  rw [e, h, words_trim]

theorem simplify_eq (s : List Char) : simplify s = some (join_words (words s)) := by
  unfold simplify
  simp only
  cases ht : trim s with
  | nil =>
    have := words_trim s
    rw [ht] at this
    rw [← this]
    rfl
  | cons a as =>
    rw [← ht]
    have hne : trim s ≠ [] := by rw [ht]; simp
    have hemp : (trim s).isEmpty = false := by rw [ht]; rfl
    simp only [hemp, Bool.not_false, if_true]
    exact simplify_loop_trim s _ hne (by omega)

theorem split_words_good (s cur : List Char)
    (hcur : ∀ c, c ∈ cur → is_whitespace c = false) :
    ∀ w, w ∈ split_words cur s → w ≠ [] ∧ ∀ c, c ∈ w → is_whitespace c = false := by
  induction s generalizing cur with
  | nil =>
    intro w hw
    cases cur with
    | nil => simp [split_words] at hw
    | cons a as =>
      simp only [split_words, List.isEmpty_cons, Bool.false_eq_true, if_false,
        List.mem_singleton] at hw
      subst hw
      exact ⟨by simp, hcur⟩
  | cons c cs ih =>
    intro w hw
    rw [split_words] at hw
    by_cases hc : is_whitespace c = true
    · rw [if_pos hc] at hw
      cases cur with
      | nil =>
        simp only [List.isEmpty_nil, if_true] at hw
        exact ih [] (by simp) w hw
      | cons a as =>
        simp only [List.isEmpty_cons, Bool.false_eq_true, if_false, List.mem_cons] at hw
        rcases hw with hw | hw
        · subst hw
          exact ⟨by simp, hcur⟩
        · exact ih [] (by simp) w hw
    · rw [if_neg hc] at hw
      refine ih (cur ++ [c]) ?_ w hw
      intro d hd
      simp only [List.mem_append, List.mem_singleton] at hd
      rcases hd with hd | hd
      · exact hcur d hd
      · subst hd
        simpa using hc

theorem words_good (s : List Char) :
    ∀ w, w ∈ words s → w ≠ [] ∧ ∀ c, c ∈ w → is_whitespace c = false :=
  split_words_good s [] (by simp)

theorem words_word (w : List Char) (hne : w ≠ [])
    (hw : ∀ c, c ∈ w → is_whitespace c = false) (cs : List Char) (c : Char)
    (hc : is_whitespace c = true) :
    words w = [w] ∧ words (w ++ c :: cs) = w :: words cs := by
  unfold words
  have h1 := split_words_append_word w [] [] hw
  have h2 := split_words_append_word w (c :: cs) [] hw
  rw [List.nil_append] at h1 h2
  rw [List.append_nil] at h1
  rw [h1, h2, split_words_space c cs w hc]
  cases w with
  | nil => exact absurd rfl hne
  | cons a as => exact ⟨rfl, rfl⟩

theorem words_join (W : List (List Char))
    (hW : ∀ w, w ∈ W → w ≠ [] ∧ ∀ c, c ∈ w → is_whitespace c = false) :
    words (join_words W) = W := by
  induction W with
  | nil => rfl
  | cons w W ih =>
    obtain ⟨hne, hw⟩ := hW w (by simp)
    cases W with
    | nil => exact (words_word w hne hw [] ' ' (by decide)).1
    | cons v rest =>
      rw [join_words_cons w _ (by simp), (words_word w hne hw _ ' ' (by decide)).2,
        ih (fun u hu => hW u (by simp [hu]))]

theorem join_words_head (W : List (List Char))
    (hW : ∀ w, w ∈ W → w ≠ [] ∧ ∀ c, c ∈ w → is_whitespace c = false) :
    ∀ c, (join_words W).head? = some c → is_whitespace c = false := by
  intro c hc
  cases W with
  | nil => simp [join_words] at hc
  | cons w W =>
    obtain ⟨hne, hw⟩ := hW w (by simp)
    obtain ⟨a, as, ha⟩ := List.exists_cons_of_ne_nil hne
    have : (join_words (w :: W)).head? = some a := by
      cases W with
      | nil => rw [join_words, ha]; rfl
      | cons v rest => rw [join_words, ha]; rfl
    rw [this] at hc
    simp only [Option.some.injEq] at hc
    subst hc
    exact hw a (by rw [ha]; simp)

theorem join_words_ne_nil (w : List Char) (W : List (List Char)) (hne : w ≠ []) :
    join_words (w :: W) ≠ [] := by
  cases W with
  | nil => exact hne
  | cons v rest =>
    rw [join_words]
    simp

theorem join_words_last (W : List (List Char))
    (hW : ∀ w, w ∈ W → w ≠ [] ∧ ∀ c, c ∈ w → is_whitespace c = false) :
    ∀ c, (join_words W).getLast? = some c → is_whitespace c = false := by
  induction W with
  | nil =>
    intro c hc
    simp [join_words] at hc
  | cons w W ih =>
    intro c hc
    obtain ⟨hne, hw⟩ := hW w (by simp)
    cases W with
    | nil =>
      rw [join_words] at hc
      exact hw c (List.mem_of_getLast?_eq_some hc)
    | cons v rest =>
      have hJ := join_words_ne_nil v rest (hW v (by simp)).1
      rw [join_words_cons w _ (by simp), List.getLast?_append] at hc
      obtain ⟨b, bs, hb⟩ := List.exists_cons_of_ne_nil hJ
      rw [hb] at hc
      rw [List.getLast?_cons_cons] at hc
      cases hl : (b :: bs).getLast? with
      | none => simp at hl
      | some d =>
        rw [hl] at hc
        simp only [Option.or_some, Option.some.injEq] at hc
        subst hc
        apply ih (fun u hu => hW u (by simp [hu]))
        rw [hb]
        exact hl

theorem join_words_spaces (W : List (List Char))
    (hW : ∀ w, w ∈ W → w ≠ [] ∧ ∀ c, c ∈ w → is_whitespace c = false) :
    ∀ c, c ∈ join_words W → is_whitespace c = true → c = ' ' := by
  induction W with
  | nil =>
    intro c hc
    simp [join_words] at hc
  | cons w W ih =>
    intro c hc hws
    obtain ⟨hne, hw⟩ := hW w (by simp)
    cases W with
    | nil =>
      rw [join_words] at hc
      have := hw c hc
      rw [hws] at this
      cases this
    | cons v rest =>
      rw [join_words_cons w _ (by simp), List.mem_append, List.mem_cons] at hc
      rcases hc with hc | hc | hc
      · have := hw c hc
        rw [hws] at this
        cases this
      · exact hc
      · exact ih (fun u hu => hW u (by simp [hu])) c hc hws

theorem chain_of_no_space (l : List Char) (h : ∀ c, c ∈ l → is_whitespace c = false) :
    List.Chain' (fun a b => ¬ (a = ' ' ∧ b = ' ')) l := by
  induction l with
  | nil => exact List.chain'_nil
  | cons a l ih =>
    rw [List.chain'_cons']
    refine ⟨?_, ih (fun c hc => h c (by simp [hc]))⟩
    intro y _ hy
    have := h a (by simp)
    rw [hy.1] at this
    revert this
    decide

theorem join_words_chain (W : List (List Char))
    (hW : ∀ w, w ∈ W → w ≠ [] ∧ ∀ c, c ∈ w → is_whitespace c = false) :
    List.Chain' (fun a b => ¬ (a = ' ' ∧ b = ' ')) (join_words W) := by
  induction W with
  | nil => exact List.chain'_nil
  | cons w W ih =>
    obtain ⟨hne, hw⟩ := hW w (by simp)
    cases W with
    | nil => exact chain_of_no_space w hw
    | cons v rest =>
      have hW2 : ∀ u, u ∈ v :: rest → u ≠ [] ∧ ∀ c, c ∈ u → is_whitespace c = false :=
        fun u hu => hW u (by simp [hu])
      rw [join_words_cons w _ (by simp), List.chain'_append]
      refine ⟨chain_of_no_space w hw, ?_, ?_⟩
      · rw [List.chain'_cons']
        refine ⟨?_, ih hW2⟩
        intro y hy hyy
        have := join_words_head _ hW2 y hy
        rw [hyy.2] at this
        revert this
        decide
      · intro x hx y _ hxy
        have := hw x (List.mem_of_getLast?_eq_some hx)
        rw [hxy.1] at this
        revert this
        decide

/-- C25: `simplify` normalises whitespace. For every string `s` the loop of `simplify`
ends (the fuel of one unit per character, and any larger fuel, is enough) and `simplify`
returns the words of `s`, its maximal runs of non-whitespace characters, in order and joined
by single spaces: the result neither begins nor ends with whitespace, its only whitespace
character is the space, no two spaces are adjacent, its words are those of `s`, and
`simplify` maps it to itself. -/
theorem simplify_normalises (s : List Char) :
    ∃ r, simplify s = some r ∧
      (trim s ≠ [] → ∀ fuel, (trim s).length < fuel →
        simplify_loop fuel (trim s) (find_first_of (trim s) whitespace 0) = some r) ∧
      r = join_words (words s) ∧
      (∀ c, r.head? = some c → is_whitespace c = false) ∧
      (∀ c, r.getLast? = some c → is_whitespace c = false) ∧
      (∀ c, c ∈ r → is_whitespace c = true → c = ' ') ∧
      List.Chain' (fun a b => ¬ (a = ' ' ∧ b = ' ')) r ∧
      words r = words s ∧
      simplify r = some r := by
  have hg := words_good s
  refine ⟨join_words (words s), simplify_eq s, ?_, rfl, join_words_head _ hg,
    join_words_last _ hg, join_words_spaces _ hg, join_words_chain _ hg, words_join _ hg, ?_⟩
  · intro hne fuel hfuel
    exact simplify_loop_trim s fuel hne hfuel
  · rw [simplify_eq, words_join _ hg]

theorem overwrite_replicate (n idx : Nat) (pad : Char) (str : List Char)
    (h : idx + str.length = n) :
    overwrite (List.replicate n pad) idx str = List.replicate idx pad ++ str := by
  unfold overwrite
  rw [List.take_replicate, List.drop_replicate, Nat.min_eq_left (by omega), h, Nat.sub_self]
  simp

theorem ntos_plain (value : Int) (radix : radix_t) (size : Int) (pad : Char)
    (hfit : (representation value radix.base).length ≤ max_characters_in_number) :
    ntos value radix false size pad
      = some (List.replicate
          (max size.toNat (representation value radix.base).length
            - (representation value radix.base).length) pad
          ++ representation value radix.base) := by
  unfold ntos to_chars
  rw [if_pos hfit]
  simp only [Bool.false_eq_true, if_false]
  rw [overwrite_replicate _ _ _ _ (by omega)]
  congr 3
  omega

theorem ntos_prefixed (value : Int) (radix : radix_t) (size : Int) (pad : Char)
    (hfit : (representation value radix.base).length ≤ max_characters_in_number)
    (hsize : size + 2 ≤ int_max) :
    ∃ a b, ntos value radix true size pad
      = some (a :: b :: (List.replicate
          (max size.toNat (representation value radix.base).length
            - (representation value radix.base).length) pad
          ++ representation value radix.base)) := by
  have hmax : max ((representation value radix.base).length : Int) size + 2 ≤ int_max := by
    unfold max_characters_in_number at hfit
    unfold int_max at hsize ⊢
    omega
  have hidx : (max ((representation value radix.base).length : Int) size
      - (representation value radix.base).length + 2).toNat
      = (max size.toNat (representation value radix.base).length
        - (representation value radix.base).length) + 2 := by omega
  unfold ntos to_chars
  rw [if_pos hfit]
  simp only [if_true]
  rw [if_pos hmax, hidx, overwrite_replicate _ _ _ _ (by omega)]
  rw [List.replicate_succ, List.replicate_succ]
  cases radix
  · exact ⟨pad, pad, rfl⟩
  · exact ⟨'0', 'o', rfl⟩
  · exact ⟨'0', 'x', rfl⟩
  · exact ⟨'0', 'b', rfl⟩

/-- C26 (amended): `ntos` honours the minimum size. For every integral value `v`, every
radix and every pad character, when the characters `std::to_chars` writes for `v` (a minus
sign for a negative value, then the digits) number at most `max_characters_in_number`,
`ntos(v, radix, false, size, pad)` returns a string whose length is the larger of `size` and
that number of characters, that ends with those characters and whose preceding characters
are all `pad`; with `prefix = true` and `size <= INT_MAX - 2` the same string is preceded by
two extra characters. -/
theorem ntos_minimum_size (value : Int) (radix : radix_t) (size : Int) (pad : Char)
    (hfit : (representation value radix.base).length ≤ max_characters_in_number) :
    ∃ body, ntos value radix false size pad = some body ∧
      body.length = max size.toNat (representation value radix.base).length ∧
      body = List.replicate (body.length - (representation value radix.base).length) pad
        ++ representation value radix.base ∧
      (size + 2 ≤ int_max → ∃ a b, ntos value radix true size pad = some (a :: b :: body)) := by
  have hlen : (List.replicate
      (max size.toNat (representation value radix.base).length
        - (representation value radix.base).length) pad
      ++ representation value radix.base).length
      = max size.toNat (representation value radix.base).length := by
    rw [List.length_append, List.length_replicate]
    omega
  refine ⟨_, ntos_plain value radix size pad hfit, hlen, ?_, ?_⟩
  · rw [hlen]
  · intro hsize
    exact ntos_prefixed value radix size pad hfit hsize

/-- C26 (counterexample): values whose representation is longer than
`max_characters_in_number`. The 16-bit value 65535 has 16 binary digits and the 64-bit value
`2 ^ 64 - 1` has 20 decimal digits; for both `std::to_chars` reports an error and `ntos`
returns the empty string, whose length is not the number of digits. -/
theorem ntos_long_number_empty :
    (representation 65535 radix_t.bin.base).length = 16 ∧
    ntos 65535 radix_t.bin false 0 '0' = some [] ∧
    ([] : List Char).length ≠ max 0 16 ∧
    (representation (2 ^ 64 - 1) radix_t.dec.base).length = 20 ∧
    ntos (2 ^ 64 - 1) radix_t.dec false 0 '0' = some [] ∧
    ntos (-5) radix_t.dec false 0 '0' = some ['-', '5'] := by
  refine ⟨by decide, by decide, by decide, by decide, by decide, by decide⟩

/-- C26 (witness): `ntos(255, hex, false, 4, '0')` is `00ff` and with `prefix = true` it is
`0x00ff`. -/
theorem ntos_minimum_size_witness :
    representation 255 radix_t.hex.base = ['f', 'f'] ∧
    ntos 255 radix_t.hex false 4 '0' = some ['0', '0', 'f', 'f'] ∧
    ntos 255 radix_t.hex true 4 '0' = some ['0', 'x', '0', '0', 'f', 'f'] ∧
    ∃ body, ntos 255 radix_t.hex false 4 '0' = some body ∧ body.length = 4 :=
  ⟨by decide, by decide, by decide,
   let ⟨body, h1, h2, _⟩ := ntos_minimum_size 255 radix_t.hex 4 '0' (by decide)
   ⟨body, h1, h2⟩⟩

/-- C30 (failing input): `ston<std::int32_t>(ntos(31, radix_t::hex, false), radix_t::hex)`.
`ntos` returns `"1f"`; `ston` sees a letter in second place, takes it for a radix
indicator it does not know and returns 0, not 31, although it reads `"12"` as 18. With
`prefix = true` the value 31 comes back; the decimal string `"00-5"` that `ntos` returns for
`-5` with `prefix = true` is read as 0. -/
theorem ston_ntos_hex_letter :
    util.integral_t.in_range util.integral_t.int32 31 ∧
    ntos 31 radix_t.hex false 0 '0' = some ['1', 'f'] ∧
    isalpha 'f' = true ∧
    ston util.integral_t.int32 ['1', 'f'] radix_t.hex = conversion.returns 0 ∧
    ston util.integral_t.int32 ['1', '2'] radix_t.hex = conversion.returns 18 ∧
    ntos 171 radix_t.hex false 0 '0' = some ['a', 'b'] ∧
    ston util.integral_t.int32 ['a', 'b'] radix_t.hex = conversion.returns 0 ∧
    ntos 31 radix_t.hex true 0 '0' = some ['0', 'x', '1', 'f'] ∧
    ston util.integral_t.int32 ['0', 'x', '1', 'f'] radix_t.hex = conversion.returns 31 ∧
    ntos (-5) radix_t.dec true 0 '0' = some ['0', '0', '-', '5'] ∧
    ston util.integral_t.int32 ['0', '0', '-', '5'] radix_t.dec = conversion.returns 0 := by
  refine ⟨by decide, by decide, by decide, by decide, by decide, by decide, by decide,
    by decide, by decide, by decide, by decide⟩

theorem digit_value_digit_char (d : Nat) (h : d < 36) :
    digit_value (digit_char d) = some d ∧ digit_char d ≠ '-' := by
  interval_cases d <;> exact ⟨by decide, by decide⟩

theorem isalpha_digit_char (d : Nat) (h : d < 10) : isalpha (digit_char d) = false := by
  interval_cases d <;> decide

theorem digits_value_concat (base : Nat) (ds : List Nat) (x : Nat) :
    digits_value base (ds ++ [x]) = digits_value base ds * base + x := by
  unfold digits_value
  rw [List.foldl_append]
  rfl

theorem digits_value_zero (base : Nat) (ds : List Nat) :
    digits_value base (0 :: ds) = digits_value base ds := by
  unfold digits_value
  simp [List.foldl_cons]

theorem to_digits_spec (base : Nat) (hb : 2 ≤ base) (f : Nat) :
    ∀ n, n < base ^ (f + 1) →
      ∃ ds, to_digits base (f + 1) n = ds.map digit_char ∧ ds ≠ [] ∧
        (∀ d, d ∈ ds → d < base) ∧ digits_value base ds = n := by
  induction f with
  | zero =>
    intro n hn
    rw [Nat.zero_add, Nat.pow_one] at hn
    refine ⟨[n], ?_, by simp, ?_, ?_⟩
    · simp [to_digits, hn]
    · intro d hd
      simp only [List.mem_singleton] at hd
      omega
    · simp [digits_value]
  | succ k ih =>
    intro n hn
    by_cases hlt : n < base
    · refine ⟨[n], ?_, by simp, ?_, ?_⟩
      · simp [to_digits, hlt]
      · intro d hd
        simp only [List.mem_singleton] at hd
        omega
      · simp [digits_value]
    · have hdiv : n / base < base ^ (k + 1) := by
        rw [Nat.div_lt_iff_lt_mul (by omega)]
        rw [Nat.pow_succ] at hn
        exact hn
      obtain ⟨ds, h1, h2, h3, h4⟩ := ih (n / base) hdiv
      refine ⟨ds ++ [n % base], ?_, by simp, ?_, ?_⟩
      · rw [to_digits, if_neg hlt, h1]
        simp
      · intro d hd
        simp only [List.mem_append, List.mem_singleton] at hd
        rcases hd with hd | hd
        · exact h3 d hd
        · rw [hd]
          exact Nat.mod_lt _ (by omega)
      · rw [digits_value_concat, h4]
        exact Nat.div_add_mod' n base

theorem leading_digits_map (base : Nat) (hb : base ≤ 36) (ds : List Nat)
    (h : ∀ d, d ∈ ds → d < base) :
    leading_digits base (ds.map digit_char) = ds := by
  induction ds with
  | nil => rfl
  | cons d ds ih =>
    have hd : d < base := h d (by simp)
    rw [List.map_cons, leading_digits, (digit_value_digit_char d (by omega)).1]
    simp only
    rw [if_pos hd, ih (fun e he => h e (by simp [he]))]

theorem in_range_natAbs (T : util.integral_t) (v : Int) (hv : T.in_range v) :
    v.natAbs < 2 ^ 64 ∧ (v < 0 → T.is_signed = true) := by
  constructor
  · cases T <;>
      simp only [util.integral_t.in_range, util.integral_t.is_signed,
        util.integral_t.sizeof] at hv <;>
      norm_num at hv <;>
      omega
  · intro hneg
    cases T <;>
      simp only [util.integral_t.in_range, util.integral_t.is_signed,
        util.integral_t.sizeof] at hv <;>
      norm_num at hv <;>
      first
        | rfl
        | omega

theorem from_chars_digits (T : util.integral_t) (base : Nat) (hb : base ≤ 36) (ds : List Nat)
    (hne : ds ≠ []) (hlt : ∀ d, d ∈ ds → d < base)
    (hr : T.in_range (digits_value base ds : Int)) :
    from_chars T (ds.map digit_char) base
      = from_chars_result.ok (digits_value base ds : Int) := by
  obtain ⟨d, rest, hd⟩ := List.exists_cons_of_ne_nil hne
  have hminus : digit_char d ≠ '-' := (digit_value_digit_char d (by
    have := hlt d (by rw [hd]; simp)
    omega)).2
  have hneg : (T.is_signed && (ds.map digit_char).head? == some '-') = false := by
    rw [hd, List.map_cons, List.head?_cons]
    simp [hminus]
  unfold from_chars
  simp only [hneg, Bool.false_eq_true, if_false]
  rw [leading_digits_map base hb ds hlt, if_neg hne, if_pos hr]

theorem from_chars_minus (T : util.integral_t) (base : Nat) (hb : base ≤ 36) (ds : List Nat)
    (hne : ds ≠ []) (hlt : ∀ d, d ∈ ds → d < base) (hs : T.is_signed = true)
    (hr : T.in_range (-(digits_value base ds : Int))) :
    from_chars T ('-' :: ds.map digit_char) base
      = from_chars_result.ok (-(digits_value base ds : Int)) := by
  have hneg : (T.is_signed && ('-' :: ds.map digit_char).head? == some '-') = true := by
    rw [hs, List.head?_cons]
    rfl
  unfold from_chars
  simp only [hneg, if_true, List.drop_succ_cons, List.drop_zero]
  rw [leading_digits_map base hb ds hlt, if_neg hne, if_pos hr]

theorem representation_digits (v : Int) (base : Nat) (hb : 2 ≤ base) (hv : v.natAbs < 2 ^ 64) :
    ∃ ds, representation v base
        = (if v < 0 then ['-'] else []) ++ ds.map digit_char ∧
      ds ≠ [] ∧ (∀ d, d ∈ ds → d < base) ∧ digits_value base ds = v.natAbs := by
  have hpow : v.natAbs < base ^ (63 + 1) :=
    lt_of_lt_of_le hv (Nat.pow_le_pow_left hb 64)
  obtain ⟨ds, h1, h2, h3, h4⟩ := to_digits_spec base hb 63 v.natAbs hpow
  exact ⟨ds, by unfold representation; rw [h1], h2, h3, h4⟩

theorem from_chars_representation (T : util.integral_t) (v : Int) (base : Nat)
    (hb : 2 ≤ base) (hb36 : base ≤ 36) (hv : T.in_range v) :
    from_chars T (representation v base) base = from_chars_result.ok v := by
  obtain ⟨habs, hsig⟩ := in_range_natAbs T v hv
  obtain ⟨ds, h1, h2, h3, h4⟩ := representation_digits v base hb habs
  rw [h1]
  by_cases hneg : v < 0
  · rw [if_pos hneg]
    have e : (-(digits_value base ds : Int)) = v := by
      rw [h4]
      omega
    have := from_chars_minus T base hb36 ds h2 h3 (hsig hneg) (by rw [e]; exact hv)
    rw [e] at this
    exact this
  · rw [if_neg hneg]
    have e : ((digits_value base ds : Nat) : Int) = v := by
      rw [h4]
      omega
    have := from_chars_digits T base hb36 ds h2 h3 (by rw [e]; exact hv)
    rw [e] at this
    exact this

theorem radix_base_bounds (radix : radix_t) : 2 ≤ radix.base ∧ radix.base ≤ 36 := by
  cases radix <;> exact ⟨by decide, by decide⟩

theorem ntos_unpadded (value : Int) (radix : radix_t)
    (hfit : (representation value radix.base).length ≤ max_characters_in_number) :
    ntos value radix false 0 '0' = some (representation value radix.base) := by
  rw [ntos_plain value radix 0 '0' hfit]
  have : max (0 : Int).toNat (representation value radix.base).length
      - (representation value radix.base).length = 0 := by omega
  rw [this]
  rfl

theorem ntos_unpadded_prefixed (value : Int) (radix : radix_t)
    (hfit : (representation value radix.base).length ≤ max_characters_in_number) :
    ntos value radix true 0 '0'
      = some ((match radix with
          | radix_t.dec => ['0', '0']
          | radix_t.hex => ['0', 'x']
          | radix_t.oct => ['0', 'o']
          | radix_t.bin => ['0', 'b']) ++ representation value radix.base) := by
  have hmax : max ((representation value radix.base).length : Int) 0 + 2 ≤ int_max := by
    unfold max_characters_in_number at hfit
    unfold int_max
    omega
  have hidx : (max ((representation value radix.base).length : Int) 0
      - (representation value radix.base).length + 2).toNat = 0 + 2 := by omega
  have hsz : (max ((representation value radix.base).length : Int) 0 + 2).toNat
      = 0 + 2 + (representation value radix.base).length := by omega
  unfold ntos to_chars
  rw [if_pos hfit]
  simp only [if_true]
  rw [if_pos hmax, hidx, hsz, overwrite_replicate _ _ _ _ (by omega)]
  cases radix <;> rfl

theorem ston_plain (T : util.integral_t) (str : List Char) (radix : radix_t) (v : Int)
    (hne : str ≠ []) (halpha : str.length < 2 ∨ isalpha (str.getD 1 ' ') = false)
    (hfrom : from_chars T str radix.base = from_chars_result.ok v) :
    ston T str radix = conversion.returns v := by
  have hemp : str.isEmpty = false := by
    cases str with
    | nil => exact absurd rfl hne
    | cons a as => rfl
  unfold ston
  simp only [hemp, Bool.not_false, if_true]
  by_cases hlen : str.length < 2
  · rw [if_pos hlen, hfrom]
    rfl
  · rw [if_neg hlen]
    have h2 : isalpha (str.getD 1 ' ') = false := by
      rcases halpha with h | h
      · exact absurd h hlen
      · exact h
    rw [if_neg (by rw [h2]; decide), hfrom]

theorem representation_no_letter (v : Int) (radix : radix_t) (hr : radix ≠ radix_t.hex)
    (hv : v.natAbs < 2 ^ 64) :
    isalpha ((representation v radix.base).getD 1 ' ') = false := by
  obtain ⟨ds, h1, _, h3, _⟩ := representation_digits v radix.base (radix_base_bounds radix).1 hv
  have hb10 : radix.base ≤ 10 := by
    cases radix
    · decide
    · decide
    · exact absurd rfl hr
    · decide
  have hall : ∀ c, c ∈ representation v radix.base → isalpha c = false := by
    intro c hc
    rw [h1, List.mem_append] at hc
    rcases hc with hc | hc
    · split at hc
      · simp only [List.mem_singleton] at hc
        rw [hc]
        decide
      · simp at hc
    · rw [List.mem_map] at hc
      obtain ⟨d, hd, hdc⟩ := hc
      rw [← hdc]
      exact isalpha_digit_char d (by
        have := h3 d hd
        omega)
  rw [List.getD_eq_getElem?_getD]
  cases hget : (representation v radix.base)[1]? with
  | none => decide
  | some c => exact hall c (List.getElem?_mem hget)

theorem ston_ntos_round_trip (T : util.integral_t) (v : Int) (radix : radix_t)
    (hv : T.in_range v)
    (hfit : (representation v radix.base).length ≤ max_characters_in_number) :
    (((representation v radix.base).length < 2 ∨
        isalpha ((representation v radix.base).getD 1 ' ') = false) →
      ∃ str, ntos v radix false 0 '0' = some str ∧ ston T str radix = conversion.returns v) ∧
    (radix ≠ radix_t.hex →
      ∃ str, ntos v radix false 0 '0' = some str ∧ ston T str radix = conversion.returns v) ∧
    ((radix ≠ radix_t.dec ∨ 0 ≤ v) →
      ∃ str, ntos v radix true 0 '0' = some str ∧ ston T str radix = conversion.returns v) := by
  obtain ⟨hb2, hb36⟩ := radix_base_bounds radix
  obtain ⟨habs, _⟩ := in_range_natAbs T v hv
  have hfrom := from_chars_representation T v radix.base hb2 hb36 hv
  obtain ⟨ds, h1, h2, h3, h4⟩ := representation_digits v radix.base hb2 habs
  have hne : representation v radix.base ≠ [] := by
    rw [h1]
    obtain ⟨d, rest, hd⟩ := List.exists_cons_of_ne_nil h2
    rw [hd]
    simp
  have hplain : ((representation v radix.base).length < 2 ∨
        isalpha ((representation v radix.base).getD 1 ' ') = false) →
      ∃ str, ntos v radix false 0 '0' = some str ∧ ston T str radix = conversion.returns v :=
    fun h => ⟨_, ntos_unpadded v radix hfit, ston_plain T _ radix v hne h hfrom⟩
  refine ⟨hplain, fun hr => hplain (Or.inr (representation_no_letter v radix hr habs)), ?_⟩
  intro hcase
  cases radix with
  | dec =>
    refine ⟨_, ntos_unpadded_prefixed v radix_t.dec hfit, ?_⟩
    have hv0 : 0 ≤ v := by
      rcases hcase with h | h
      · exact absurd rfl h
      · exact h
    have hmap : ['0', '0'] ++ representation v radix_t.dec.base
        = (0 :: 0 :: ds).map digit_char := by
      rw [h1, if_neg (by omega), List.nil_append]
      rfl
    have hval : ((digits_value radix_t.dec.base (0 :: 0 :: ds) : Nat) : Int) = v := by
      rw [digits_value_zero, digits_value_zero, h4]
      omega
    have hf := from_chars_digits T radix_t.dec.base hb36 (0 :: 0 :: ds) (by simp)
      (by
        intro d hd
        simp only [List.mem_cons] at hd
        rcases hd with hd | hd | hd
        · rw [hd]; decide
        · rw [hd]; decide
        · exact h3 d hd)
      (by rw [hval]; exact hv)
    rw [hval] at hf
    show ston T (['0', '0'] ++ representation v radix_t.dec.base) radix_t.dec
      = conversion.returns v
    rw [hmap]
    have h0 : isalpha (((0 :: 0 :: ds).map digit_char).getD 1 ' ') = false := by
      show isalpha (digit_char 0) = false
      decide
    exact ston_plain T _ radix_t.dec v (by simp) (Or.inr h0) hf
  | oct =>
    refine ⟨_, ntos_unpadded_prefixed v radix_t.oct hfit, ?_⟩
    show ston T (['0', 'o'] ++ representation v radix_t.oct.base) radix_t.oct
      = conversion.returns v
    unfold ston
    simp only [List.cons_append, List.nil_append, List.isEmpty_cons, Bool.not_false, if_true,
      List.length_cons, List.getD_cons_succ, List.getD_cons_zero, List.drop_succ_cons,
      List.drop_zero]
    rw [if_neg (by omega), if_pos (by decide), if_neg (by decide), if_neg (by decide),
      if_pos (by decide), hfrom]
    rfl
  | hex =>
    refine ⟨_, ntos_unpadded_prefixed v radix_t.hex hfit, ?_⟩
    show ston T (['0', 'x'] ++ representation v radix_t.hex.base) radix_t.hex
      = conversion.returns v
    unfold ston
    simp only [List.cons_append, List.nil_append, List.isEmpty_cons, Bool.not_false, if_true,
      List.length_cons, List.getD_cons_succ, List.getD_cons_zero, List.drop_succ_cons,
      List.drop_zero]
    rw [if_neg (by omega), if_pos (by decide), if_neg (by decide), if_pos (by decide), hfrom]
    rfl
  | bin =>
    refine ⟨_, ntos_unpadded_prefixed v radix_t.bin hfit, ?_⟩
    show ston T (['0', 'b'] ++ representation v radix_t.bin.base) radix_t.bin
      = conversion.returns v
    unfold ston
    simp only [List.cons_append, List.nil_append, List.isEmpty_cons, Bool.not_false, if_true,
      List.length_cons, List.getD_cons_succ, List.getD_cons_zero, List.drop_succ_cons,
      List.drop_zero]
    rw [if_neg (by omega), if_pos (by decide), if_pos (by decide), hfrom]
    rfl

end strutil
